import Mathlib

/-!
# jsonpp: value model, lexer and recursive-descent parser

A shallow embedding of `src/jsonpp.cpp`.

* `std::string` is a `List Char`; one `Char` stands for one `char`.
* `std::unique_ptr<Value>` is an `Option Value`; `none` is the null pointer.
* `Object::_values` (a `std::map` from `std::string` to `std::unique_ptr<Value>`)
  is an association list with pairwise distinct keys; only `find`, `emplace`
  and `operator[]` are used by the source.
* A thrown `parse_exception` is the `Except.error` of a `Failure.exn`; the
  constructors of `parse_exception` follow the three `throw` sites and carry
  the arguments the message is built from.
* Loops and the recursion of the parser are driven by a fuel argument;
  `Failure.outOfFuel` is the outcome of a run that exhausts it, an outcome the
  source does not have. `json.parse_total` shows that the fuel `parse` hands
  out is never exhausted.
-/

set_option autoImplicit false

namespace json

/-! ## Value model -/

/-- The closed family of parsed nodes: `json::String`, `json::Array`, `json::Object`. -/
inductive Value where
  | string (value : List Char)
  | array (values : List (Option Value))
  | object (values : List (List Char × Option Value))

/-- A `std::unique_ptr<Value>`; `none` is the null pointer. -/
abbrev Ptr := Option Value

/-- The class `json::String`: one text payload. -/
structure String where
  _value : List Char

/-- The class `json::Array`: a `std::vector` of owned values. -/
structure Array where
  _values : List Ptr

/-- The class `json::Object`: a `std::map` from names to owned values. -/
structure Object where
  _values : List (List Char × Ptr)

/-- Upcast of a `json::String` to its base class. -/
def String.toValue (s : String) : Value := Value.string s._value

/-- Upcast of a `json::Array` to its base class. -/
def Array.toValue (a : Array) : Value := Value.array a._values

/-- Upcast of a `json::Object` to its base class. -/
def Object.toValue (o : Object) : Value := Value.object o._values

/-- The call `std::map::find`: the stored pointer, or `none` for `end()`. -/
def mapFind (m : List (List Char × Ptr)) (name : List Char) : Option Ptr :=
  match m with
  | [] => none
  | (k, v) :: rest => if k = name then some v else mapFind rest name

/-- The call `std::map::emplace`: inserts only when no element has the key. -/
def mapEmplace (m : List (List Char × Ptr)) (name : List Char) (value : Ptr) :
    List (List Char × Ptr) :=
  match mapFind m name with
  | some _ => m
  | none => m ++ [(name, value)]

/-- The call `std::map::operator[]`: the stored pointer; a missing key is first
inserted with a null pointer. -/
def mapIndex (m : List (List Char × Ptr)) (name : List Char) :
    Ptr × List (List Char × Ptr) :=
  match mapFind m name with
  | some v => (v, m)
  | none => (none, m ++ [(name, none)])

/-- The method `Object::getValue` (lines 10-17); the object after the call is
returned with the pointer, since the method is not `const`. -/
def Object.getValue (o : Object) (name : List Char) : Ptr × Object :=
  match mapFind o._values name with
  | none => (none, o)
  | some _ =>
    let r := mapIndex o._values name
    (r.1, { _values := r.2 })

/-- The method `Object::addValue` (lines 19-22). -/
def Object.addValue (o : Object) (name : List Char) (value : Ptr) : Object :=
  { _values := mapEmplace o._values name value }

/-- The method `String::getValue` (lines 27-30). -/
def String.getValue (s : String) : List Char := s._value

/-- The method `Array::addValue` (lines 32-35): `emplace_back`. -/
def Array.addValue (a : Array) (value : Ptr) : Array :=
  { _values := a._values ++ [value] }

/-- The method `Array::size` (lines 37-40). -/
def Array.size (a : Array) : Nat := a._values.length

/-- A default-constructed `Object`. -/
def Object.empty : Object := { _values := [] }

/-- A default-constructed `Array`. -/
def Array.empty : Array := { _values := [] }

/-! ## Errors -/

/-- The exception `parse_exception`, one constructor for each `throw` site. -/
inductive parse_exception where
  /-- Line 85: "Terminating \" for string not found!". -/
  | unterminated
  /-- Line 122: thrown for the character `c` that starts no token. -/
  | invalidToken (c : Char)
  /-- Line 130: `raiseError(expected)` with the current token's line, position and text. -/
  | unexpected (expected : List Char) (line : Int) (pos : Int) (actual : List Char)
  deriving DecidableEq

/-- How a run ends when it does not return. -/
inductive Failure where
  | exn (e : parse_exception)
  | outOfFuel
  deriving DecidableEq

/-! ## Lexer -/

namespace detail

/-- The enumeration `TokenType`. -/
inductive TokenType where
  | NONE | LBRACE | RBRACE | LBRACKET | RBRACKET | COLON | COMMA | STRING
  deriving DecidableEq

/-- The struct `Token` (line 60). -/
structure Token where
  type : TokenType
  value : List Char
  line : Int
  pos : Int
  deriving DecidableEq

/-- The default arguments for `line` and `pos` of `Token`'s constructor. They
are declared in `jsonpp.hpp`, which is not part of the sources, and are used
by `{TokenType::NONE, ""}` on line 125. -/
structure TokenDefaults where
  line : Int
  pos : Int

/-- The class `Lexer` (lines 63-64). -/
structure Lexer where
  _cursor : Nat
  _text : List Char
  _line : Int
  _pos : Int
  deriving DecidableEq

/-- The constructor `Lexer::Lexer`. -/
def Lexer.new (text : List Char) : Lexer :=
  { _cursor := 0, _text := text, _line := 1, _pos := 1 }

/-- The double quote character. -/
def dquote : Char := Char.ofNat 34

/-- The C function `std::isspace` in the "C" locale: space and `\t \n \v \f \r`.
Characters outside the ASCII range are not white space here; for a negative
`char` the C function is not defined. -/
def isspace (c : Char) : Bool :=
  c.toNat = 32 || (9 ≤ c.toNat && c.toNat ≤ 13)

/-- The expression `_text[i]`; at `i = size()` a `std::string` yields the null character. -/
def Lexer.at (lx : Lexer) (i : Nat) : Char := lx._text.getD i (Char.ofNat 0)

/-- The method `Lexer::isDoneReading` (lines 66-69). -/
def Lexer.isDoneReading (lx : Lexer) : Bool := decide (lx._cursor ≥ lx._text.length)

/-- The `while` loop of `lexString` (lines 75-82), with its three loop
variables; one unit of fuel per iteration. -/
def lexStringLoop : Nat → Lexer → List Char → Bool → Lexer × List Char × Bool
  | 0, lx, str, endQuoteFound => (lx, str, endQuoteFound)
  | fuel + 1, lx, str, endQuoteFound =>
    if !endQuoteFound && !lx.isDoneReading then
      let c := lx.at lx._cursor
      let lx := { lx with _cursor := lx._cursor + 1 }
      if c = dquote then lexStringLoop fuel lx str true
      else lexStringLoop fuel lx (str ++ [c]) endQuoteFound
    else (lx, str, endQuoteFound)

/-- The method `Lexer::lexString` (lines 71-89). The loop is given one unit of
fuel for each unread character. The lexer is returned on both paths: a `throw`
leaves the object as the loop left it. -/
def Lexer.lexString (lx : Lexer) : Except Failure Token × Lexer :=
  let r := lexStringLoop (lx._text.length - lx._cursor) lx [] false
  if !r.2.2 then (.error (.exn .unterminated), r.1)
  else (.ok { type := .STRING, value := r.2.1, line := r.1._line, pos := r.1._pos }, r.1)

/-- The first `while` loop of `getToken` (lines 95-103): skip white space. -/
def skipSpace : Nat → Lexer → Lexer
  | 0, lx => lx
  | fuel + 1, lx =>
    if isspace (lx.at lx._cursor) && !lx.isDoneReading then
      if lx.at lx._cursor = '\n' then
        skipSpace fuel { lx with _line := lx._line + 1, _pos := 1, _cursor := lx._cursor + 1 }
      else
        skipSpace fuel { lx with _pos := lx._pos + 1, _cursor := lx._cursor + 1 }
    else lx

/-- The expression `c + " is not a valid token!"` of line 122. The left operand
is a `char` and the right one a string literal, so the sum is a pointer `c`
bytes into the literal: the message is the literal without its first `c`
characters. The literal has 22 characters and a terminator; for `c > 22` the
pointer is outside the literal and the message is undefined (`none`). -/
def invalidTokenMessage (c : Char) : Option (List Char) :=
  if c.toNat ≤ 22 then some (" is not a valid token!".toList.drop c.toNat) else none

/-- The method `Lexer::getToken` (lines 92-126). The body of the second `while`
loop leaves the function on every path, so the loop runs at most once and is
an `if` here. The lexer is returned on every path, a `throw` included. -/
def Lexer.getToken (d : TokenDefaults) (lx : Lexer) : Except Failure Token × Lexer :=
  let lx := skipSpace (lx._text.length - lx._cursor) lx
  if !lx.isDoneReading then
    let c := lx.at lx._cursor
    let lx := { lx with _cursor := lx._cursor + 1 }
    if c = '{' then (.ok { type := .LBRACE, value := ['{'], line := lx._line, pos := lx._pos }, lx)
    else if c = '}' then
      (.ok { type := .RBRACE, value := ['}'], line := lx._line, pos := lx._pos }, lx)
    else if c = dquote then lx.lexString
    else if c = ':' then
      (.ok { type := .COLON, value := [':'], line := lx._line, pos := lx._pos }, lx)
    else if c = ',' then
      (.ok { type := .COMMA, value := [','], line := lx._line, pos := lx._pos }, lx)
    else if c = '[' then
      (.ok { type := .LBRACKET, value := ['['], line := lx._line, pos := lx._pos }, lx)
    else if c = ']' then
      (.ok { type := .RBRACKET, value := [']'], line := lx._line, pos := lx._pos }, lx)
    else (.error (.exn (.invalidToken c)), lx)
  else (.ok { type := .NONE, value := [], line := d.line, pos := d.pos }, lx)

/-! ## Parser -/

/-- The class `Parser`: the lexer and the current token. -/
structure Parser where
  lexer : Lexer
  currentToken : Token
  deriving DecidableEq

/-- The exception thrown by `Parser::raiseError` (lines 128-131). -/
def Parser.raiseError (p : Parser) (expected : List Char) : Failure :=
  .exn (.unexpected expected p.currentToken.line p.currentToken.pos p.currentToken.value)

/-- The statement `currentToken = lexer.getToken();`. -/
def Parser.nextToken (d : TokenDefaults) (p : Parser) : Except Failure Parser :=
  match p.lexer.getToken d with
  | (.ok t, lx) => .ok { lexer := lx, currentToken := t }
  | (.error e, _) => .error e

mutual

/-- The method `Parser::parseValue` (lines 186-196). -/
def parseValue (d : TokenDefaults) : Nat → Parser → Except Failure (Ptr × Parser)
  | 0, _ => .error .outOfFuel
  | fuel + 1, p =>
    if p.currentToken.type = .STRING then
      .ok (some (String.toValue { _value := p.currentToken.value }), p)
    else if p.currentToken.type = .LBRACKET then
      match parseArray d fuel p with
      | .ok (arr, p) => .ok (some arr.toValue, p)
      | .error e => .error e
    else .error (p.raiseError "<value>".toList)

/-- The method `Parser::parseArray` (lines 157-184). -/
def parseArray (d : TokenDefaults) : Nat → Parser → Except Failure (Array × Parser)
  | 0, _ => .error .outOfFuel
  | fuel + 1, p =>
    match p.nextToken d with
    | .error e => .error e
    | .ok p =>
      if p.currentToken.type = .RBRACKET then .ok (Array.empty, p)
      else
        match parseArrayLoop d fuel p Array.empty with
        | .error e => .error e
        | .ok (arr, p) =>
          if p.currentToken.type ≠ .RBRACKET then .error (p.raiseError "]".toList)
          else .ok (arr, p)

/-- The `do`-`while` loop of `parseArray` (lines 167-177); one unit of fuel per
iteration. -/
def parseArrayLoop (d : TokenDefaults) : Nat → Parser → Array → Except Failure (Array × Parser)
  | 0, _, _ => .error .outOfFuel
  | fuel + 1, p, arr =>
    match parseValue d fuel p with
    | .error e => .error e
    | .ok (v, p) =>
      let arr := arr.addValue v
      match p.nextToken d with
      | .error e => .error e
      | .ok p =>
        if p.currentToken.type = .COMMA then
          match p.nextToken d with
          | .error e => .error e
          | .ok p => parseArrayLoop d fuel p arr
        else .ok (arr, p)

end

/-- The `do`-`while` loop of `parseValueList` (lines 202-230); one unit of fuel
per iteration. -/
def parseValueListLoop (d : TokenDefaults) : Nat → Parser → Object → Except Failure (Object × Parser)
  | 0, _, _ => .error .outOfFuel
  | fuel + 1, p, obj =>
    if p.currentToken.type ≠ .STRING then .error (p.raiseError "<string>".toList)
    else
      let name := p.currentToken.value
      match p.nextToken d with
      | .error e => .error e
      | .ok p =>
        if p.currentToken.type ≠ .COLON then .error (p.raiseError ":".toList)
        else
          match p.nextToken d with
          | .error e => .error e
          | .ok p =>
            match parseValue d fuel p with
            | .error e => .error e
            | .ok (value, p) =>
              let obj := obj.addValue name value
              match p.nextToken d with
              | .error e => .error e
              | .ok p =>
                if p.currentToken.type = .COMMA then
                  match p.nextToken d with
                  | .error e => .error e
                  | .ok p => parseValueListLoop d fuel p obj
                else .ok (obj, p)

/-- The method `Parser::parseValueList` (lines 198-232). -/
def parseValueList (d : TokenDefaults) (fuel : Nat) (p : Parser) : Except Failure (Object × Parser) :=
  parseValueListLoop d fuel p Object.empty

/-- The method `Parser::parseObject` (lines 133-155). -/
def parseObject (d : TokenDefaults) (fuel : Nat) (p : Parser) : Except Failure (Object × Parser) :=
  match p.nextToken d with
  | .error e => .error e
  | .ok p =>
    if p.currentToken.type ≠ .LBRACE then .error (p.raiseError ['{'])
    else
      match p.nextToken d with
      | .error e => .error e
      | .ok p =>
        if p.currentToken.type = .RBRACE then .ok (Object.empty, p)
        else
          match parseValueList d fuel p with
          | .error e => .error e
          | .ok (obj, p) =>
            if p.currentToken.type ≠ .RBRACE then .error (p.raiseError ['}'])
            else .ok (obj, p)

/-- The method `Parser::parse` (lines 234-237). -/
def Parser.parse (d : TokenDefaults) (fuel : Nat) (p : Parser) : Except Failure (Object × Parser) :=
  parseObject d fuel p

/-- The constructor `Parser::Parser` (lines 239-240): `currentToken` is
default-constructed; its type and text are not read before `parseObject`
overwrites them. -/
def Parser.new (d : TokenDefaults) (lexer : Lexer) : Parser :=
  { lexer := lexer, currentToken := { type := .NONE, value := [], line := d.line, pos := d.pos } }

end detail

/-- The fuel `parse` hands to the parser: enough for every text, see `parse_total`. -/
def parseFuel (text : List Char) : Nat := 3 * text.length + 3

/-- The function `json::parse` (lines 42-47), with the parser's final state. -/
def parseRun (d : detail.TokenDefaults) (text : List Char) : Except Failure (Object × detail.Parser) :=
  (detail.Parser.new d (detail.Lexer.new text)).parse d (parseFuel text)

/-- The function `json::parse` (lines 42-47). -/
def parse (d : detail.TokenDefaults) (text : List Char) : Except Failure Object :=
  match parseRun d text with
  | .ok (obj, _) => .ok obj
  | .error e => .error e

/-! ## A description of the lexer on the unread suffix

The lexer's result depends only on the characters from the cursor on. The
definitions below describe `skipSpace`, `lexString` and `getToken` on that
suffix; `skipSpace_spec`, `lexString_spec` and `getToken_spec` prove that they
agree with the loops of the source. -/

namespace detail

/-- The line and position counters after the white space `ws` (lines 96-101). -/
def linePos (ws : List Char) (lp : Int × Int) : Int × Int :=
  ws.foldl (fun lp c => if c = '\n' then (lp.1 + 1, 1) else (lp.1, lp.2 + 1)) lp

/-- The characters up to the first double quote. -/
def untilQuote (s : List Char) : List Char := s.takeWhile (fun c => decide (c ≠ dquote))

/-- The characters from the first double quote on; empty when there is none. -/
def fromQuote (s : List Char) : List Char := s.dropWhile (fun c => decide (c ≠ dquote))

/-- The token type of a structural character. -/
def punct (c : Char) : Option TokenType :=
  if c = '{' then some .LBRACE
  else if c = '}' then some .RBRACE
  else if c = ':' then some .COLON
  else if c = ',' then some .COMMA
  else if c = '[' then some .LBRACKET
  else if c = ']' then some .RBRACKET
  else none

/-- What one `getToken` call finds on the unread suffix of the text. -/
inductive Scan where
  /-- Only white space is left. -/
  | eof
  /-- The character `c` starts no token. -/
  | invalid (c : Char)
  /-- A string is opened and never closed. -/
  | unterminated
  /-- A token of the given type and text, with the suffix left after it. -/
  | tok (type : TokenType) (value : List Char) (rest : List Char)
  deriving DecidableEq

/-- The outcome of `getToken` as a function of the unread suffix. -/
def scan (s : List Char) : Scan :=
  match s.dropWhile isspace with
  | [] => .eof
  | c :: cs =>
    if c = dquote then
      match fromQuote cs with
      | [] => .unterminated
      | _ :: rest => .tok .STRING (untilQuote cs) rest
    else
      match punct c with
      | some t => .tok t [c] cs
      | none => .invalid c

end detail

namespace detail

/-- The unread suffix of the text: the characters from the cursor on. -/
def Lexer.rest (lx : Lexer) : List Char := lx._text.drop lx._cursor

/-- The token `{TokenType::NONE, ""}` of line 125. -/
def noneToken (d : TokenDefaults) : Token :=
  { type := .NONE, value := [], line := d.line, pos := d.pos }

end detail

namespace detail

/-- The unread characters, plus one for a current token that is not the
end-of-input token: the measure the parser's recursion decreases. -/
def Parser.weight (p : Parser) : Nat :=
  p.lexer.rest.length + (if p.currentToken.type = .NONE then 0 else 1)

end detail

namespace detail

/-- Two outcomes of `currentToken = lexer.getToken()` that agree up to the
relations `Rp` on parser states and `Re` on failures. -/
inductive StepSim (Rp : Parser → Parser → Prop) (Re : Failure → Failure → Prop) :
    Except Failure Parser → Except Failure Parser → Prop where
  | ok (q q' : Parser) : Rp q q' → StepSim Rp Re (.ok q) (.ok q')
  | err (e e' : Failure) : Re e e' → StepSim Rp Re (.error e) (.error e')

/-- Two outcomes of a production that agree up to `Rp` and `Re`, unless one of
the two runs exhausted its fuel. -/
inductive Sim {α : Type} (Rp : Parser → Parser → Prop) (Re : Failure → Failure → Prop) :
    Except Failure (α × Parser) → Except Failure (α × Parser) → Prop where
  | fuelL (r' : Except Failure (α × Parser)) : Sim Rp Re (.error .outOfFuel) r'
  | fuelR (r : Except Failure (α × Parser)) : Sim Rp Re r (.error .outOfFuel)
  | ok (a : α) (q q' : Parser) : Rp q q' → Sim Rp Re (.ok (a, q)) (.ok (a, q'))
  | err (e e' : Failure) : Re e e' → Sim Rp Re (.error e) (.error e')

end detail

/-- Whether an outcome is the failure `e`, decided without comparing values. -/
instance decEqError {α : Type} (r : Except Failure α) (e : Failure) : Decidable (r = .error e) :=
  match r with
  | .ok _ => isFalse (fun h => by cases h)
  | .error e' =>
    if h : e' = e then isTrue (by rw [h])
    else isFalse (fun h2 => by injection h2 with h2; exact h h2)

namespace detail

/-- Parser states of two runs that differ only in the constructor defaults of
`Token`: the same lexer, and the same current token unless both are the
end-of-input token. -/
def SameUpToDefaults (d d' : TokenDefaults) (p p' : Parser) : Prop :=
  p.lexer = p'.lexer ∧
    (p.currentToken = p'.currentToken ∨
      (p.currentToken = noneToken d ∧ p'.currentToken = noneToken d'))

/-- Failures of two runs that differ only in the constructor defaults of
`Token`: equal, unless both report the end-of-input token. -/
def SameErrorUpToDefaults (d d' : TokenDefaults) (e e' : Failure) : Prop :=
  e = e' ∨ ∃ x, e = .exn (.unexpected x d.line d.pos []) ∧
    e' = .exn (.unexpected x d'.line d'.pos [])

end detail

namespace detail

/-- Two texts that spell the same tokens and differ only in the white space
before, between and after them; from the point where the texts are equal
(`refl`) they need not consist of tokens. White space is what `isspace`
accepts; space, tab, newline and carriage return are among it. -/
inductive WsEq : List Char → List Char → Prop where
  | refl (s : List Char) : WsEq s s
  | left (c : Char) (s t : List Char) : isspace c = true → WsEq s t → WsEq (c :: s) t
  | right (c : Char) (s t : List Char) : isspace c = true → WsEq s t → WsEq s (c :: t)
  | punct (c : Char) (ty : TokenType) (s t : List Char) :
      punct c = some ty → WsEq s t → WsEq (c :: s) (c :: t)
  | string (v s t : List Char) :
      dquote ∉ v → WsEq s t → WsEq (dquote :: (v ++ dquote :: s)) (dquote :: (v ++ dquote :: t))

/-- Two `scan` outcomes that agree up to the white space of the suffix left. -/
inductive ScanRel : Scan → Scan → Prop where
  | eof : ScanRel .eof .eof
  | invalid (c : Char) : ScanRel (.invalid c) (.invalid c)
  | unterminated : ScanRel .unterminated .unterminated
  | tok (ty : TokenType) (v r r' : List Char) : WsEq r r' → ScanRel (.tok ty v r) (.tok ty v r')

/-- Parser states of two runs on texts that differ in white space only. -/
def SameTokens (p p' : Parser) : Prop :=
  p.currentToken.type = p'.currentToken.type ∧ p.currentToken.value = p'.currentToken.value ∧
    WsEq p.lexer.rest p'.lexer.rest

/-- Failures that are equal up to the line and position they report. -/
def SameErrorUpToPosition (e e' : Failure) : Prop :=
  e = e' ∨ ∃ x l c l' c' a, e = .exn (.unexpected x l c a) ∧ e' = .exn (.unexpected x l' c' a)

end detail

/-! ## Texts of the grammar

The grammar of the parser: `object := '{' '}' | '{' member (',' member)* '}'`,
`member := string ':' value`, `value := string | array`,
`array := '[' ']' | '[' value (',' value)* ']'`. -/

mutual

/-- A value of the grammar: a string leaf or an array of values. Under `toValue`
these are the Values built only from String leaves and nested Arrays. -/
inductive JValue where
  | str (s : List Char)
  | arr (vs : JValues)

/-- A sequence of values of the grammar. -/
inductive JValues where
  | nil
  | cons (v : JValue) (vs : JValues)

end

mutual

/-- The node of the value model for a value of the grammar. -/
def JValue.toValue : JValue → Value
  | .str s => Value.string s
  | .arr vs => Value.array vs.toPtrs

/-- The elements of an Array node, in order. -/
def JValues.toPtrs : JValues → List Ptr
  | .nil => []
  | .cons v vs => some v.toValue :: vs.toPtrs

end

mutual

/-- The text of a value, without white space: `"s"` or `[v1,...,vn]`. -/
def JValue.render : JValue → List Char
  | .str s => detail.dquote :: (s ++ [detail.dquote])
  | .arr vs => '[' :: (vs.render ++ [']'])

/-- The text `value (',' value)*` of a sequence, empty for the empty sequence. -/
def JValues.render : JValues → List Char
  | .nil => []
  | .cons v vs => v.render ++ vs.renderTail

/-- The text `(',' value)*`. -/
def JValues.renderTail : JValues → List Char
  | .nil => []
  | .cons v vs => ',' :: (v.render ++ vs.renderTail)

end

mutual

/-- No string payload of the value contains a double quote. -/
def JValue.quoteFree : JValue → Bool
  | .str s => !s.contains detail.dquote
  | .arr vs => vs.quoteFree

/-- No string payload of the sequence contains a double quote. -/
def JValues.quoteFree : JValues → Bool
  | .nil => true
  | .cons v vs => v.quoteFree && vs.quoteFree

end

/-- The text `"key":value` of a member. -/
def renderMember (m : List Char × JValue) : List Char :=
  detail.dquote :: (m.1 ++ detail.dquote :: ':' :: m.2.render)

/-- The text `(',' member)*`. -/
def renderMembersTail : List (List Char × JValue) → List Char
  | [] => []
  | m :: ms => ',' :: (renderMember m ++ renderMembersTail ms)

/-- The text `member (',' member)*`, empty for no members. -/
def renderMembers : List (List Char × JValue) → List Char
  | [] => []
  | m :: ms => renderMember m ++ renderMembersTail ms

/-- The text of an object: `{}` or `{member,...,member}`. -/
def renderObject (ms : List (List Char × JValue)) : List Char :=
  '{' :: (renderMembers ms ++ ['}'])

/-- Neither the key nor a string payload of the member contains a double quote. -/
def memberQuoteFree (m : List Char × JValue) : Bool :=
  !m.1.contains detail.dquote && m.2.quoteFree

/-- The Object built by `addValue` from the members, in order. -/
def addMembers (obj : Object) (ms : List (List Char × JValue)) : Object :=
  ms.foldl (fun o m => o.addValue m.1 (some m.2.toValue)) obj

namespace detail

/-- The end of an iteration of the member loop (lines 222-229), from the state
`q0` the value left: fetch a token; after a comma fetch one more and iterate
with the fuel `f`, otherwise return. -/
def memberTail (d : TokenDefaults) (f : Nat) (q0 : Parser) (obj : Object) :
    Except Failure (Object × Parser) :=
  match q0.nextToken d with
  | .error e => .error e
  | .ok p4 =>
    if p4.currentToken.type = .COMMA then
      match p4.nextToken d with
      | .error e => .error e
      | .ok p5 => parseValueListLoop d f p5 obj
    else .ok (obj, p4)

end detail

/-! ## The grammar of the spec on token kinds -/

namespace detail

mutual

/-- The rule `value := string | array` of the spec (§4.3). -/
inductive GValue : List TokenType → Prop where
  | string : GValue [.STRING]
  | array (ts : List TokenType) : GArray ts → GValue ts

/-- The rule `array := '[' ']' | '[' value (',' value)* ']'` of the spec (§4.3). -/
inductive GArray : List TokenType → Prop where
  | empty : GArray [.LBRACKET, .RBRACKET]
  | values (ts : List TokenType) : GValues ts → GArray (.LBRACKET :: (ts ++ [.RBRACKET]))

/-- The list `value (',' value)*`. -/
inductive GValues : List TokenType → Prop where
  | one (ts : List TokenType) : GValue ts → GValues ts
  | more (ts us : List TokenType) : GValue ts → GValues us → GValues (ts ++ .COMMA :: us)

end

/-- The list `member (',' member)*` with `member := string ':' value` (§4.3). -/
inductive GMembers : List TokenType → Prop where
  | one (ts : List TokenType) : GValue ts → GMembers (.STRING :: .COLON :: ts)
  | more (ts us : List TokenType) :
      GValue ts → GMembers us → GMembers (.STRING :: .COLON :: (ts ++ .COMMA :: us))

/-- The rules `document := object` and
`object := '{' '}' | '{' member (',' member)* '}'` of the spec (§4.3). -/
inductive GObject : List TokenType → Prop where
  | empty : GObject [.LBRACE, .RBRACE]
  | members (ts : List TokenType) : GMembers ts → GObject (.LBRACE :: (ts ++ [.RBRACE]))

/-- The tokens of `n` successive `getToken` calls, and the lexer after them. -/
def lexN (d : TokenDefaults) : Nat → Lexer → Except Failure (List Token × Lexer)
  | 0, lx => .ok ([], lx)
  | n + 1, lx =>
    match lx.getToken d with
    | (.error e, _) => .error e
    | (.ok t, lx') =>
      match lexN d n lx' with
      | .error e => .error e
      | .ok (ts, lx'') => .ok (t :: ts, lx'')

/-- From the state `p` the parser reaches the state `q` by fetching exactly the
tokens `ts`: they are the next tokens of `p`'s lexer, `q` holds the lexer after
them, and `q`'s current token is the last of them (`p`'s own when `ts` is empty). -/
def Reads (d : TokenDefaults) (p q : Parser) (ts : List Token) : Prop :=
  (∃ n, lexN d n p.lexer = .ok (ts, q.lexer)) ∧
    (p.currentToken :: ts).getLast? = some q.currentToken

end detail

namespace detail

/-- The state `p'` of a run on the text followed by `u` that fits the state `p`
of the run on the text alone: the same current token kind and text, and the
same unread suffix followed by `u`. -/
def Extends (u : List Char) (p p' : Parser) : Prop :=
  p'.currentToken.type = p.currentToken.type ∧ p'.currentToken.value = p.currentToken.value ∧
    p'.lexer.rest = p.lexer.rest ++ u

end detail

/-! ## The reads of the text

The lexer of the source does not record which characters it reads. The
definitions below follow `skipSpace`, `lexStringLoop` and `getToken` and list
the reads `_text[...]` of one `getToken` call in order, with the index read. -/

namespace detail

/-- The three places where the lexer reads a character of the text. -/
inductive ReadKind where
  /-- The test `std::isspace(_text[_cursor])` of line 95. -/
  | spaceTest
  /-- The test `_text[_cursor] == '\n'` of line 96. -/
  | newlineTest
  /-- The read `_text[_cursor++]` of lines 76 and 106. -/
  | consume
  deriving DecidableEq

/-- The reads of the white-space loop (lines 95-103). The condition reads
`_text[_cursor]` before it calls `isDoneReading()`, also on the last test, which
ends the loop. The line and position counters do not matter for the reads. -/
def skipSpaceReads : Nat → Lexer → List (ReadKind × Nat)
  | 0, lx => [(.spaceTest, lx._cursor)]
  | fuel + 1, lx =>
    (.spaceTest, lx._cursor) ::
      (if isspace (lx.at lx._cursor) && !lx.isDoneReading then
        (.newlineTest, lx._cursor) :: skipSpaceReads fuel { lx with _cursor := lx._cursor + 1 }
      else [])

/-- The reads of the loop of `lexString` (lines 75-82). -/
def lexStringReads : Nat → Lexer → Bool → List (ReadKind × Nat)
  | 0, _, _ => []
  | fuel + 1, lx, endQuoteFound =>
    if !endQuoteFound && !lx.isDoneReading then
      (.consume, lx._cursor) ::
        lexStringReads fuel { lx with _cursor := lx._cursor + 1 }
          (decide (lx.at lx._cursor = dquote))
    else []

/-- The reads of one `getToken` call (lines 92-126), in order. -/
def getTokenReads (lx : Lexer) : List (ReadKind × Nat) :=
  let lx1 := skipSpace (lx._text.length - lx._cursor) lx
  skipSpaceReads (lx._text.length - lx._cursor) lx ++
    (if !lx1.isDoneReading then
      (.consume, lx1._cursor) ::
        (if lx1.at lx1._cursor = dquote then
          lexStringReads (lx1._text.length - (lx1._cursor + 1))
            { lx1 with _cursor := lx1._cursor + 1 } false
        else [])
    else [])

/-- The lexer after `n` calls of `getToken`, whether they return or throw. -/
def afterCalls (d : TokenDefaults) : Nat → Lexer → Lexer
  | 0, lx => lx
  | n + 1, lx => afterCalls d n (lx.getToken d).2

end detail

/-! ## Texts up to the places where the parser fetches a token -/

/-- The text `(value ',')*`: elements of an array, each followed by a comma. -/
def renderElements : List JValue → List Char
  | [] => []
  | v :: vs => v.render ++ ',' :: renderElements vs

/-- The text of the arrays that are open, from the outermost: for each the
bracket and the elements read so far, `'[' (value ',')*`. -/
def renderOpenArrays : List (List JValue) → List Char
  | [] => []
  | vs :: fs => '[' :: (renderElements vs ++ renderOpenArrays fs)

/-- The text `(member ',')*`: members, each followed by a comma. -/
def renderMembersComma : List (List Char × JValue) → List Char
  | [] => []
  | m :: ms => renderMember m ++ ',' :: renderMembersComma ms

namespace detail

/-- The statements both loops run for a value: fetch its first token, call
`parseValue`, fetch the token after the value. -/
def stepValue (d : TokenDefaults) (f : Nat) (p : Parser) : Except Failure (Ptr × Parser) :=
  match p.nextToken d with
  | .error e => .error e
  | .ok q =>
    match parseValue d f q with
    | .error e => .error e
    | .ok (v, q1) =>
      match q1.nextToken d with
      | .error e => .error e
      | .ok q2 => .ok (v, q2)

/-- Fetch a token and run the loop of `parseArray` from it. -/
def arrayAt (d : TokenDefaults) (f : Nat) (p : Parser) (arr : Array) :
    Except Failure (Array × Parser) :=
  match p.nextToken d with
  | .error e => .error e
  | .ok q => parseArrayLoop d f q arr

/-- Fetch a token and run the loop of `parseValueList` from it. -/
def keyAt (d : TokenDefaults) (f : Nat) (p : Parser) (obj : Object) :
    Except Failure (Object × Parser) :=
  match p.nextToken d with
  | .error e => .error e
  | .ok q => parseValueListLoop d f q obj

/-- The outcome is a failure that satisfies `Q`, unless the fuel ran out. -/
def FailsWith {α : Type} (Q : Failure → Prop) (r : Except Failure α) : Prop :=
  r = .error .outOfFuel ∨ ∃ e, Q e ∧ r = .error e

end detail

/-- The places where the parser asks the lexer for a token, each with what the
text holds up to there: the nine statements `currentToken = lexer.getToken()`
of the source are reached after these texts (with white space as it may be
between the tokens). `ms` are members that are complete, each with the comma
after it; `k` is the key of the member that is open; `fs` are the arrays that
are open, from the outermost, each with its complete elements. -/
inductive FetchPoint where
  /-- Nothing is read: the first fetch of `parseObject`. -/
  | start
  /-- After the opening brace or after the comma that follows a member: the
  second fetch of `parseObject`, or the fetch that eats a comma in the member loop. -/
  | key (ms : List (List Char × JValue))
  /-- After a key: the fetch of the colon. -/
  | colon (ms : List (List Char × JValue)) (k : List Char)
  /-- At a value position: after the colon, after an opening bracket or after
  the comma that follows an element. -/
  | value (ms : List (List Char × JValue)) (k : List Char) (fs : List (List JValue))
  /-- After a value, be it the value of a member or an element of an array. -/
  | afterValue (ms : List (List Char × JValue)) (k : List Char) (fs : List (List JValue))
      (v : JValue)

/-- The text up to the place, without white space. -/
def FetchPoint.render : FetchPoint → List Char
  | .start => []
  | .key ms => '{' :: renderMembersComma ms
  | .colon ms k => '{' :: (renderMembersComma ms ++ detail.dquote :: (k ++ [detail.dquote]))
  | .value ms k fs =>
    '{' :: (renderMembersComma ms ++
      detail.dquote :: (k ++ detail.dquote :: ':' :: renderOpenArrays fs))
  | .afterValue ms k fs v =>
    '{' :: (renderMembersComma ms ++
      detail.dquote :: (k ++ detail.dquote :: ':' :: (renderOpenArrays fs ++ v.render)))

/-- No key and no string payload of the text up to the place contains a double quote. -/
def FetchPoint.quoteFree : FetchPoint → Bool
  | .start => true
  | .key ms => ms.all memberQuoteFree
  | .colon ms k => ms.all memberQuoteFree && !k.contains detail.dquote
  | .value ms k fs =>
    ms.all memberQuoteFree && !k.contains detail.dquote &&
      fs.all (fun vs => vs.all JValue.quoteFree)
  | .afterValue ms k fs v =>
    ms.all memberQuoteFree && !k.contains detail.dquote &&
      fs.all (fun vs => vs.all JValue.quoteFree) && v.quoteFree

/-- A node that neither is an Object nor holds one: a String, or an Array whose
elements are such nodes, none of them null. -/
inductive NoObject : Value → Prop where
  | string (s : List Char) : NoObject (.string s)
  | array (vs : List Ptr) :
      none ∉ vs → (∀ v, some v ∈ vs → NoObject v) → NoObject (.array vs)

/-- The sequence of the grammar with the given values, in order. -/
def JValues.ofList : List JValue → JValues
  | [] => .nil
  | v :: vs => .cons v (JValues.ofList vs)

namespace detail

/-- The characters that spell a token: a string's payload between its quotes,
the character of a structural token, nothing for the end-of-input token. -/
def Token.text (t : Token) : List Char :=
  if t.type = .STRING then dquote :: (t.value ++ [dquote]) else t.value

/-- A token as `getToken` returns it: a string without a quote in its payload,
a structural character, or the end-of-input token. -/
def TokenOk (t : Token) : Prop :=
  (t.type = .STRING ∧ dquote ∉ t.value) ∨ (∃ c, punct c = some t.type ∧ t.value = [c]) ∨
    (t.type = .NONE ∧ t.value = [])

/-- The tokens the parser has fetched in the state `p` of a run on `text`
spell `A`: `text` is `A` with white space between the tokens, followed by the
unread suffix. -/
def Consumed (text A : List Char) (p : Parser) : Prop :=
  ∀ T, WsEq T p.lexer.rest → WsEq (A ++ T) text

/-- After the tokens `A`, inside arrays that are open, the text has an opening
quote that no quote follows, at a value position or after an element. -/
def OpenStringIn (text A : List Char) : Prop :=
  ∃ (fs : List (List JValue)) (v : List Char),
    (∀ vs ∈ fs, ∀ x ∈ vs, x.quoteFree = true) ∧ dquote ∉ v ∧
    (WsEq (A ++ (renderOpenArrays fs ++ dquote :: v)) text ∨
      ∃ w : JValue, w.quoteFree = true ∧
        WsEq (A ++ (renderOpenArrays fs ++ (w.render ++ dquote :: v))) text)

end detail

/-! # Properties -/

open detail

/-! ## The value model -/

theorem mapFind_append (m : List (List Char × Ptr)) (k n : List Char) (v : Ptr) :
    mapFind (m ++ [(k, v)]) n =
      match mapFind m n with
      | some w => some w
      | none => if k = n then some v else none := by
  induction m with
  | nil => simp [mapFind]
  | cons a m ih =>
    obtain ⟨k', v'⟩ := a
    by_cases h : k' = n
    · simp [mapFind, h]
    · simp [mapFind, h, ih]

theorem getValue_fst (o : Object) (n : List Char) :
    (o.getValue n).1 = (mapFind o._values n).getD none := by
  unfold Object.getValue mapIndex
  cases h : mapFind o._values n <;> simp

theorem getValue_snd (o : Object) (n : List Char) : (o.getValue n).2 = o := by
  unfold Object.getValue mapIndex
  cases h : mapFind o._values n <;> simp

theorem foldl_addValue (vs : List Ptr) (a : Array) :
    (vs.foldl Array.addValue a)._values = a._values ++ vs := by
  induction vs generalizing a with
  | nil => simp
  | cons v vs ih => simp [ih, Array.addValue]

/-! ## Claims on the value model -/

/-- C4 (refuted as stated): after `addValue(k, v1)` and `addValue(k, v2)` on an
empty Object, `getValue(k)` returns `v1`, not the last-inserted `v2`. -/
theorem C4_counterexample :
    (((Object.empty.addValue ['k'] (some (Value.string ['1']))).addValue ['k']
        (some (Value.string ['2']))).getValue ['k']).1 = some (Value.string ['1']) ∧
    some (Value.string ['1']) ≠ some (Value.string ['2']) := by
  constructor
  · rfl
  · intro h
    cases h

/-- C4 (amended): `getValue(k)` right after `addValue(k, v)` returns `v` when no
entry was stored under `k`, and the pointer already stored under `k` otherwise:
`addValue` does not overwrite, and then leaves the Object as it was. -/
theorem C4_addValue_keeps_first (o : Object) (k : List Char) (v : Ptr) :
    ((o.addValue k v).getValue k).1 =
        (match mapFind o._values k with
         | none => v
         | some w => w) ∧
      (mapFind o._values k ≠ none → o.addValue k v = o) := by
  constructor
  · rw [getValue_fst]
    unfold Object.addValue mapEmplace
    cases h : mapFind o._values k with
    | none => simp [mapFind_append, h]
    | some w => simp [h]
  · intro h
    unfold Object.addValue mapEmplace
    cases h' : mapFind o._values k with
    | none => exact absurd h' h
    | some w => rfl

/-- Witness for C4: the second `addValue` under the key `k` changes nothing. -/
theorem C4_addValue_keeps_first_witness :
    (Object.empty.addValue ['k'] (some (Value.string ['1']))).addValue ['k']
        (some (Value.string ['2'])) =
      Object.empty.addValue ['k'] (some (Value.string ['1'])) :=
  (C4_addValue_keeps_first (Object.empty.addValue ['k'] (some (Value.string ['1']))) ['k']
    (some (Value.string ['2']))).2 (by simp [Object.addValue, Object.empty, mapEmplace, mapFind])

/-- C5: `getValue(n)` returns the pointer stored under `n`, null when nothing is
stored there (no entry, or an entry holding a null pointer); it leaves the
Object unchanged, so a repeated call returns the same result. -/
theorem C5_getValue_pure (o : Object) (n : List Char) :
    (o.getValue n).2 = o ∧
      (o.getValue n).1 = (mapFind o._values n).getD none ∧
      ((o.getValue n).1 = none ↔ ¬ ∃ v, mapFind o._values n = some (some v)) ∧
      (o.getValue n).2.getValue n = o.getValue n := by
  refine ⟨getValue_snd o n, getValue_fst o n, ?_, ?_⟩
  · rw [getValue_fst]
    cases h : mapFind o._values n with
    | none => simp
    | some w => cases w <;> simp
  · rw [getValue_snd]

/-- C6: adding `v1..vn` to a fresh Array gives size `n` and exactly `v1..vn` in
order; each `addValue` grows the size by one and keeps the earlier elements. -/
theorem C6_array_addValue (vs : List Ptr) (a : Array) (v : Ptr) :
    (vs.foldl Array.addValue Array.empty).size = vs.length ∧
      (vs.foldl Array.addValue Array.empty)._values = vs ∧
      (∀ i, i < vs.length → (vs.foldl Array.addValue Array.empty)._values.get? i = vs.get? i) ∧
      (a.addValue v).size = a.size + 1 ∧
      (∀ i, i < a.size → (a.addValue v)._values.get? i = a._values.get? i) ∧
      (a.addValue v)._values.get? a.size = some v := by
  have h : (vs.foldl Array.addValue Array.empty)._values = vs := by
    rw [foldl_addValue]; simp [Array.empty]
  refine ⟨by simp [Array.size, h], h, fun i _ => by rw [h], ?_, ?_, ?_⟩
  · simp [Array.size, Array.addValue]
  · intro i hi
    simp only [Array.size] at hi
    simp [Array.addValue, List.getElem?_append_left hi]
  · simp [Array.size, Array.addValue]

/-- Witness for C6: three values added to a fresh Array. -/
theorem C6_array_addValue_witness :
    ([some (Value.string ['x']), none, some (Value.string ['y'])].foldl Array.addValue
        Array.empty)._values.get? 2 = some (some (Value.string ['y'])) :=
  ((C6_array_addValue [some (Value.string ['x']), none, some (Value.string ['y'])] Array.empty
    none).2.2.1 2 (by decide)).trans rfl

/-! ## The lexer on the unread suffix -/

namespace detail

theorem at_lt (i : Nat) (text : List Char) (l p : Int) (h : i < text.length) :
    Lexer.at ⟨i, text, l, p⟩ i = text[i] := by
  simp [Lexer.at, List.getD_eq_getElem?_getD, List.getElem?_eq_getElem h]

theorem skipSpace_succ (n : Nat) (lx : Lexer) :
    skipSpace (n + 1) lx =
      if isspace (lx.at lx._cursor) && !lx.isDoneReading then
        if lx.at lx._cursor = '\n' then
          skipSpace n { lx with _line := lx._line + 1, _pos := 1, _cursor := lx._cursor + 1 }
        else
          skipSpace n { lx with _pos := lx._pos + 1, _cursor := lx._cursor + 1 }
      else lx := rfl

theorem linePos_cons (c : Char) (ws : List Char) (lp : Int × Int) :
    linePos (c :: ws) lp = linePos ws (if c = '\n' then (lp.1 + 1, 1) else (lp.1, lp.2 + 1)) := rfl

theorem skipSpace_spec (n : Nat) : ∀ (i : Nat) (text : List Char) (l p : Int),
    text.length - i ≤ n →
    skipSpace n ⟨i, text, l, p⟩ =
      ⟨i + ((text.drop i).takeWhile isspace).length, text,
        (linePos ((text.drop i).takeWhile isspace) (l, p)).1,
        (linePos ((text.drop i).takeWhile isspace) (l, p)).2⟩ := by
  induction n with
  | zero =>
    intro i text l p h
    have h' : text.length ≤ i := by omega
    simp [skipSpace, List.drop_eq_nil_of_le h', linePos]
  | succ n ih =>
    intro i text l p h
    rw [skipSpace_succ]
    by_cases hi : i < text.length
    · have hd : text.drop i = text[i] :: text.drop (i + 1) := List.drop_eq_getElem_cons hi
      have hdone : Lexer.isDoneReading ⟨i, text, l, p⟩ = false := by
        simp [Lexer.isDoneReading, hi]
      simp only [at_lt i text l p hi, hdone, hd]
      by_cases hs : isspace text[i] = true
      · by_cases hn : text[i] = '\n'
        · have hs' : isspace '\n' = true := by decide
          simp only [hn, hs', Bool.not_false, Bool.and_self, if_true, List.takeWhile_cons,
            linePos_cons, List.length_cons]
          rw [ih (i + 1) text (l + 1) 1 (by omega)]
          congr 1
          omega
        · simp only [hs, hn, Bool.not_false, Bool.and_self, if_true, if_false, List.takeWhile_cons,
            linePos_cons, List.length_cons]
          rw [ih (i + 1) text l (p + 1) (by omega)]
          congr 1
          omega
      · rw [List.takeWhile_cons_of_neg hs]
        simp [hs, linePos]
    · have h' : text.length ≤ i := by omega
      have hdone : Lexer.isDoneReading ⟨i, text, l, p⟩ = true := by
        simp [Lexer.isDoneReading, h']
      simp [hdone, List.drop_eq_nil_of_le h', linePos]


theorem lexStringLoop_succ (n : Nat) (lx : Lexer) (str : List Char) (b : Bool) :
    lexStringLoop (n + 1) lx str b =
      if !b && !lx.isDoneReading then
        if lx.at lx._cursor = dquote then
          lexStringLoop n { lx with _cursor := lx._cursor + 1 } str true
        else lexStringLoop n { lx with _cursor := lx._cursor + 1 } (str ++ [lx.at lx._cursor]) b
      else (lx, str, b) := rfl

theorem lexStringLoop_found (n : Nat) (lx : Lexer) (str : List Char) :
    lexStringLoop n lx str true = (lx, str, true) := by
  cases n <;> simp [lexStringLoop]

theorem untilQuote_cons_ne (c : Char) (s : List Char) (h : c ≠ dquote) :
    untilQuote (c :: s) = c :: untilQuote s := by
  simp [untilQuote, List.takeWhile_cons, h]

theorem fromQuote_cons_ne (c : Char) (s : List Char) (h : c ≠ dquote) :
    fromQuote (c :: s) = fromQuote s := by
  simp [fromQuote, List.dropWhile_cons, h]

theorem untilQuote_cons_quote (s : List Char) : untilQuote (dquote :: s) = [] := by
  simp [untilQuote, List.takeWhile_cons]

theorem fromQuote_cons_quote (s : List Char) : fromQuote (dquote :: s) = dquote :: s := by
  simp [fromQuote, List.dropWhile_cons]

theorem lexStringLoop_spec (n : Nat) : ∀ (i : Nat) (text : List Char) (l p : Int) (str : List Char),
    text.length - i ≤ n →
    lexStringLoop n ⟨i, text, l, p⟩ str false =
      (⟨i + (untilQuote (text.drop i)).length + (if fromQuote (text.drop i) = [] then 0 else 1),
          text, l, p⟩,
        str ++ untilQuote (text.drop i), !decide (fromQuote (text.drop i) = [])) := by
  induction n with
  | zero =>
    intro i text l p str h
    have h' : text.length ≤ i := by omega
    simp [lexStringLoop, List.drop_eq_nil_of_le h', untilQuote, fromQuote]
  | succ n ih =>
    intro i text l p str h
    rw [lexStringLoop_succ]
    by_cases hi : i < text.length
    · have hd : text.drop i = text[i] :: text.drop (i + 1) := List.drop_eq_getElem_cons hi
      have hdone : Lexer.isDoneReading ⟨i, text, l, p⟩ = false := by
        simp [Lexer.isDoneReading, hi]
      simp only [at_lt i text l p hi, hdone, hd]
      by_cases hq : text[i] = dquote
      · rw [hq, untilQuote_cons_quote, fromQuote_cons_quote]
        simp [lexStringLoop_found]
      · simp only [hq, Bool.not_false, Bool.and_self, if_true, if_false]
        rw [ih (i + 1) text l p _ (by omega), untilQuote_cons_ne _ _ hq, fromQuote_cons_ne _ _ hq]
        simp only [List.length_cons, List.append_assoc, List.singleton_append]
        congr 2
        omega
    · have h' : text.length ≤ i := by omega
      have hdone : Lexer.isDoneReading ⟨i, text, l, p⟩ = true := by
        simp [Lexer.isDoneReading, h']
      simp [hdone, List.drop_eq_nil_of_le h', untilQuote, fromQuote]

theorem lexString_spec (i : Nat) (text : List Char) (l p : Int) :
    Lexer.lexString ⟨i, text, l, p⟩ =
      match fromQuote (text.drop i) with
      | [] => (.error (.exn .unterminated), ⟨i + (untilQuote (text.drop i)).length, text, l, p⟩)
      | _ :: _ =>
        (.ok ⟨.STRING, untilQuote (text.drop i), l, p⟩,
          ⟨i + (untilQuote (text.drop i)).length + 1, text, l, p⟩) := by
  unfold Lexer.lexString
  simp only [lexStringLoop_spec _ i text l p [] (le_refl _)]
  cases h : fromQuote (text.drop i) <;> simp

end detail

namespace detail

theorem drop_length_takeWhile (q : Char → Bool) (s : List Char) :
    s.drop (s.takeWhile q).length = s.dropWhile q := by
  induction s with
  | nil => rfl
  | cons c s ih =>
    by_cases h : q c = true
    · simp [List.takeWhile_cons, List.dropWhile_cons, h, ih]
    · simp [List.takeWhile_cons, List.dropWhile_cons, h]

theorem drop_add_takeWhile (q : Char → Bool) (i : Nat) (text : List Char) :
    text.drop (i + ((text.drop i).takeWhile q).length) = (text.drop i).dropWhile q := by
  rw [← drop_length_takeWhile q (text.drop i), List.drop_drop]

theorem drop_cons_inv (j : Nat) (text : List Char) (c : Char) (cs : List Char)
    (h : text.drop j = c :: cs) :
    ∃ hj : j < text.length, text[j] = c ∧ text.drop (j + 1) = cs := by
  have hj : j < text.length := by
    by_contra hn
    rw [List.drop_eq_nil_of_le (by omega)] at h
    cases h
  refine ⟨hj, ?_⟩
  rw [List.drop_eq_getElem_cons hj] at h
  injection h with h1 h2
  exact ⟨h1, h2⟩

/-- The outcome of `getToken`, lexer included, computed from the unread suffix. -/
theorem getToken_spec (d : TokenDefaults) (i : Nat) (text : List Char) (l p : Int) :
    Lexer.getToken d ⟨i, text, l, p⟩ =
      match (text.drop i).dropWhile isspace with
      | [] =>
        (.ok ⟨.NONE, [], d.line, d.pos⟩,
          ⟨i + ((text.drop i).takeWhile isspace).length, text,
            (linePos ((text.drop i).takeWhile isspace) (l, p)).1,
            (linePos ((text.drop i).takeWhile isspace) (l, p)).2⟩)
      | c :: cs =>
        if c = dquote then
          match fromQuote cs with
          | [] =>
            (.error (.exn .unterminated),
              ⟨i + ((text.drop i).takeWhile isspace).length + 1 + (untilQuote cs).length, text,
                (linePos ((text.drop i).takeWhile isspace) (l, p)).1,
                (linePos ((text.drop i).takeWhile isspace) (l, p)).2⟩)
          | _ :: _ =>
            (.ok ⟨.STRING, untilQuote cs, (linePos ((text.drop i).takeWhile isspace) (l, p)).1,
                (linePos ((text.drop i).takeWhile isspace) (l, p)).2⟩,
              ⟨i + ((text.drop i).takeWhile isspace).length + 1 + (untilQuote cs).length + 1, text,
                (linePos ((text.drop i).takeWhile isspace) (l, p)).1,
                (linePos ((text.drop i).takeWhile isspace) (l, p)).2⟩)
        else
          match punct c with
          | some t =>
            (.ok ⟨t, [c], (linePos ((text.drop i).takeWhile isspace) (l, p)).1,
                (linePos ((text.drop i).takeWhile isspace) (l, p)).2⟩,
              ⟨i + ((text.drop i).takeWhile isspace).length + 1, text,
                (linePos ((text.drop i).takeWhile isspace) (l, p)).1,
                (linePos ((text.drop i).takeWhile isspace) (l, p)).2⟩)
          | none =>
            (.error (.exn (.invalidToken c)),
              ⟨i + ((text.drop i).takeWhile isspace).length + 1, text,
                (linePos ((text.drop i).takeWhile isspace) (l, p)).1,
                (linePos ((text.drop i).takeWhile isspace) (l, p)).2⟩) := by
  unfold Lexer.getToken
  simp only [skipSpace_spec _ i text l p (le_refl _)]
  have hdrop := drop_add_takeWhile isspace i text
  generalize i + ((text.drop i).takeWhile isspace).length = j at hdrop ⊢
  generalize (linePos ((text.drop i).takeWhile isspace) (l, p)).1 = l' at *
  generalize (linePos ((text.drop i).takeWhile isspace) (l, p)).2 = p' at *
  cases hr : (text.drop i).dropWhile isspace with
  | nil =>
    rw [hr] at hdrop
    have hj : text.length ≤ j := List.drop_eq_nil_iff.mp hdrop
    simp [Lexer.isDoneReading, hj]
  | cons c cs =>
    rw [hr] at hdrop
    obtain ⟨hj, hc, hcs⟩ := drop_cons_inv j text c cs hdrop
    have hdone : Lexer.isDoneReading ⟨j, text, l', p'⟩ = false := by
      simp [Lexer.isDoneReading, hj]
    simp only [hdone, at_lt j text l' p' hj, hc, Bool.not_false, if_true]
    by_cases h1 : c = dquote
    · have h2 : dquote ≠ '{' := by decide
      have h3 : dquote ≠ '}' := by decide
      simp only [h1, if_true, lexString_spec, hcs]
      rw [if_neg h2, if_neg h3]
    · simp only [h1, if_false]
      unfold punct
      split_ifs with a1 a2 a3 a4 a5 a6
      · rw [a1]
      · rw [a2]
      · rw [a3]
      · rw [a4]
      · rw [a5]
      · rw [a6]
      · rfl

end detail

namespace detail

theorem fromQuote_length (cs : List Char) : (untilQuote cs).length + (fromQuote cs).length = cs.length := by
  have h := congrArg List.length (List.takeWhile_append_dropWhile (fun c => decide (c ≠ dquote)) cs)
  rw [List.length_append] at h
  exact h

theorem drop_add_untilQuote (j : Nat) (text : List Char) :
    text.drop (j + (untilQuote (text.drop j)).length) = fromQuote (text.drop j) :=
  drop_add_takeWhile _ j text

/-- The outcome of `getToken` read off `scan` of the unread suffix. -/
theorem getToken_scan (d : TokenDefaults) (lx : Lexer) :
    match scan lx.rest with
    | .eof => ∃ lx', lx.getToken d = (.ok (noneToken d), lx') ∧ lx'._text = lx._text ∧ lx'.rest = []
    | .invalid c => (lx.getToken d).1 = .error (.exn (.invalidToken c))
    | .unterminated => (lx.getToken d).1 = .error (.exn .unterminated)
    | .tok ty val rest =>
      ∃ t lx', lx.getToken d = (.ok t, lx') ∧ t.type = ty ∧ t.value = val ∧
        lx'._text = lx._text ∧ lx'.rest = rest := by
  obtain ⟨i, text, l, p⟩ := lx
  rw [getToken_spec]
  unfold scan Lexer.rest
  simp only
  have hdrop := drop_add_takeWhile isspace i text
  generalize i + ((text.drop i).takeWhile isspace).length = j at hdrop ⊢
  cases hr : (text.drop i).dropWhile isspace with
  | nil =>
    rw [hr] at hdrop
    exact ⟨_, rfl, rfl, hdrop⟩
  | cons c cs =>
    rw [hr] at hdrop
    obtain ⟨hj, hc, hcs⟩ := drop_cons_inv j text c cs hdrop
    simp only
    by_cases h1 : c = dquote
    · simp only [h1, if_true]
      have hq := drop_add_untilQuote (j + 1) text
      rw [hcs] at hq
      cases hf : fromQuote cs with
      | nil => rfl
      | cons q rest =>
        rw [hf] at hq
        refine ⟨_, _, rfl, rfl, rfl, rfl, ?_⟩
        obtain ⟨_, _, h3⟩ := drop_cons_inv _ text q rest hq
        exact h3
    · simp only [h1, if_false]
      cases hp : punct c with
      | none => rfl
      | some t => exact ⟨_, _, rfl, rfl, rfl, rfl, hcs⟩

theorem dropWhile_isspace_append (ws s : List Char) (h : ∀ c ∈ ws, isspace c = true) :
    (ws ++ s).dropWhile isspace = s.dropWhile isspace := by
  induction ws with
  | nil => rfl
  | cons c ws ih =>
    have hc : isspace c = true := h c (List.mem_cons_self _ _)
    simp only [List.cons_append, List.dropWhile_cons, hc, if_true]
    exact ih (fun x hx => h x (List.mem_cons_of_mem _ hx))

theorem scan_space (ws s : List Char) (h : ∀ c ∈ ws, isspace c = true) :
    scan (ws ++ s) = scan s := by
  unfold scan
  rw [dropWhile_isspace_append ws s h]

theorem scan_nil : scan [] = .eof := rfl

theorem punct_not_space (c : Char) (t : TokenType) (h : punct c = some t) :
    isspace c = false ∧ c ≠ dquote := by
  unfold punct at h
  split_ifs at h with a1 a2 a3 a4 a5 a6 <;> (subst c; decide)

theorem scan_punct (c : Char) (t : TokenType) (s : List Char) (h : punct c = some t) :
    scan (c :: s) = .tok t [c] s := by
  obtain ⟨h1, h2⟩ := punct_not_space c t h
  simp [scan, List.dropWhile_cons, h1, h2, h]

theorem dquote_not_space : isspace dquote = false := by decide

theorem untilQuote_append (v s : List Char) (h : dquote ∉ v) :
    untilQuote (v ++ dquote :: s) = v ∧ fromQuote (v ++ dquote :: s) = dquote :: s := by
  induction v with
  | nil => exact ⟨untilQuote_cons_quote s, fromQuote_cons_quote s⟩
  | cons c v ih =>
    have hc : c ≠ dquote := fun e => h (e ▸ List.mem_cons_self _ _)
    have hv : dquote ∉ v := fun e => h (List.mem_cons_of_mem _ e)
    rw [List.cons_append, untilQuote_cons_ne _ _ hc, fromQuote_cons_ne _ _ hc, (ih hv).1, (ih hv).2]
    exact ⟨rfl, rfl⟩

theorem scan_string (v s : List Char) (h : dquote ∉ v) :
    scan (dquote :: (v ++ dquote :: s)) = .tok .STRING v s := by
  simp [scan, List.dropWhile_cons, dquote_not_space, (untilQuote_append v s h).1,
    (untilQuote_append v s h).2]

end detail

namespace detail

theorem punct_ne_none (c : Char) (t : TokenType) (h : punct c = some t) : t ≠ .NONE := by
  unfold punct at h
  split_ifs at h <;> (injection h with h; subst h; decide)

theorem scan_tok_length (s : List Char) (ty : TokenType) (v rest : List Char)
    (h : scan s = .tok ty v rest) : rest.length < s.length ∧ ty ≠ .NONE := by
  unfold scan at h
  have hle : (s.dropWhile isspace).length ≤ s.length := (List.dropWhile_sublist _).length_le
  cases hr : s.dropWhile isspace with
  | nil => rw [hr] at h; cases h
  | cons c cs =>
    rw [hr] at h hle
    simp only [List.length_cons] at hle
    simp only at h
    by_cases h1 : c = dquote
    · simp only [h1, if_true] at h
      have hq := fromQuote_length cs
      cases hf : fromQuote cs with
      | nil => rw [hf] at h; cases h
      | cons q r =>
        rw [hf] at h hq
        simp only [List.length_cons] at hq
        injection h with h2 h3 h4
        subst h2 h4
        exact ⟨by omega, by decide⟩
    · simp only [h1, if_false] at h
      cases hp : punct c with
      | none => rw [hp] at h; cases h
      | some t =>
        rw [hp] at h
        injection h with h2 h3 h4
        subst h2 h4
        exact ⟨by omega, punct_ne_none c t hp⟩

/-- The outcome of `currentToken = lexer.getToken()` read off `scan`. -/
theorem nextToken_scan (d : TokenDefaults) (p : Parser) :
    match scan p.lexer.rest with
    | .eof => ∃ q, p.nextToken d = .ok q ∧ q.currentToken = noneToken d ∧
        q.lexer._text = p.lexer._text ∧ q.lexer.rest = []
    | .invalid c => p.nextToken d = .error (.exn (.invalidToken c))
    | .unterminated => p.nextToken d = .error (.exn .unterminated)
    | .tok ty val rest =>
      ∃ q, p.nextToken d = .ok q ∧ q.currentToken.type = ty ∧ q.currentToken.value = val ∧
        q.lexer._text = p.lexer._text ∧ q.lexer.rest = rest := by
  have h := getToken_scan d p.lexer
  unfold Parser.nextToken
  cases hs : scan p.lexer.rest with
  | eof =>
    rw [hs] at h
    obtain ⟨lx', h1, h2, h3⟩ := h
    exact ⟨⟨lx', noneToken d⟩, by rw [h1], rfl, h2, h3⟩
  | invalid c =>
    rw [hs] at h
    simp only at h ⊢
    cases hg : p.lexer.getToken d with
    | mk r lx' => rw [hg] at h; simp only at h; rw [h]
  | unterminated =>
    rw [hs] at h
    simp only at h ⊢
    cases hg : p.lexer.getToken d with
    | mk r lx' => rw [hg] at h; simp only at h; rw [h]
  | tok ty val rest =>
    rw [hs] at h
    obtain ⟨t, lx', h1, h2, h3, h4, h5⟩ := h
    exact ⟨⟨lx', t⟩, by rw [h1], h2, h3, h4, h5⟩

/-- A fetched token shortens the unread suffix, unless it is the end-of-input token. -/
theorem nextToken_progress (d : TokenDefaults) (p q : Parser) (h : p.nextToken d = .ok q) :
    q.lexer._text = p.lexer._text ∧
      (q.currentToken.type ≠ .NONE → q.lexer.rest.length < p.lexer.rest.length) ∧
      (q.currentToken.type = .NONE → q.lexer.rest = []) := by
  have hs := nextToken_scan d p
  cases hsc : scan p.lexer.rest with
  | eof =>
    rw [hsc] at hs
    obtain ⟨q', h1, h2, h3, h4⟩ := hs
    rw [h] at h1
    injection h1 with h1
    subst h1
    exact ⟨h3, fun hn => absurd (by rw [h2]; rfl) hn, fun _ => h4⟩
  | invalid c => rw [hsc] at hs; simp only at hs; rw [h] at hs; cases hs
  | unterminated => rw [hsc] at hs; simp only at hs; rw [h] at hs; cases hs
  | tok ty val rest =>
    rw [hsc] at hs
    obtain ⟨q', h1, h2, h3, h4, h5⟩ := hs
    rw [h] at h1
    injection h1 with h1
    subst h1
    have hl := scan_tok_length _ _ _ _ hsc
    exact ⟨h4, fun _ => by rw [h5]; exact hl.1, fun hn => absurd (h2 ▸ hn) hl.2⟩

end detail

namespace detail

/-! ## The parser: one step of each production -/

theorem parseValue_succ (d : TokenDefaults) (f : Nat) (p : Parser) :
    parseValue d (f + 1) p =
      if p.currentToken.type = .STRING then
        .ok (some (String.toValue { _value := p.currentToken.value }), p)
      else if p.currentToken.type = .LBRACKET then
        match parseArray d f p with
        | .ok (arr, p) => .ok (some arr.toValue, p)
        | .error e => .error e
      else .error (p.raiseError "<value>".toList) := by
  rw [parseValue]

theorem parseArray_succ (d : TokenDefaults) (f : Nat) (p : Parser) :
    parseArray d (f + 1) p =
      match p.nextToken d with
      | .error e => .error e
      | .ok p =>
        if p.currentToken.type = .RBRACKET then .ok (Array.empty, p)
        else
          match parseArrayLoop d f p Array.empty with
          | .error e => .error e
          | .ok (arr, p) =>
            if p.currentToken.type ≠ .RBRACKET then .error (p.raiseError "]".toList)
            else .ok (arr, p) := by
  rw [parseArray]

theorem parseArrayLoop_succ (d : TokenDefaults) (f : Nat) (p : Parser) (arr : Array) :
    parseArrayLoop d (f + 1) p arr =
      match parseValue d f p with
      | .error e => .error e
      | .ok (v, p) =>
        match p.nextToken d with
        | .error e => .error e
        | .ok p =>
          if p.currentToken.type = .COMMA then
            match p.nextToken d with
            | .error e => .error e
            | .ok p => parseArrayLoop d f p (arr.addValue v)
          else .ok (arr.addValue v, p) := by
  rw [parseArrayLoop]

theorem parseValueListLoop_succ (d : TokenDefaults) (f : Nat) (p : Parser) (obj : Object) :
    parseValueListLoop d (f + 1) p obj =
      if p.currentToken.type ≠ .STRING then .error (p.raiseError "<string>".toList)
      else
        match p.nextToken d with
        | .error e => .error e
        | .ok p1 =>
          if p1.currentToken.type ≠ .COLON then .error (p1.raiseError ":".toList)
          else
            match p1.nextToken d with
            | .error e => .error e
            | .ok p2 =>
              match parseValue d f p2 with
              | .error e => .error e
              | .ok (value, p3) =>
                match p3.nextToken d with
                | .error e => .error e
                | .ok p4 =>
                  if p4.currentToken.type = .COMMA then
                    match p4.nextToken d with
                    | .error e => .error e
                    | .ok p5 => parseValueListLoop d f p5 (obj.addValue p.currentToken.value value)
                  else .ok (obj.addValue p.currentToken.value value, p4) := by
  rw [parseValueListLoop]

end detail

namespace detail

/-! ## What a successful production leaves behind -/

theorem nextToken_le (d : TokenDefaults) (p q : Parser) (h : p.nextToken d = .ok q) :
    q.lexer.rest.length ≤ p.lexer.rest.length := by
  obtain ⟨_, h2, h3⟩ := nextToken_progress d p q h
  by_cases hn : q.currentToken.type = .NONE
  · rw [h3 hn]; exact Nat.zero_le _
  · exact Nat.le_of_lt (h2 hn)

/-- After a successful production the text is the same, the unread suffix is
no longer, and the current token is the last token of the production. -/
theorem parse_post (d : TokenDefaults) (f : Nat) :
    (∀ p v q, parseValue d f p = .ok (v, q) →
      q.lexer._text = p.lexer._text ∧ q.lexer.rest.length ≤ p.lexer.rest.length ∧
        (q.currentToken.type = .STRING ∨ q.currentToken.type = .RBRACKET)) ∧
    (∀ p a q, parseArray d f p = .ok (a, q) →
      q.lexer._text = p.lexer._text ∧ q.lexer.rest.length ≤ p.lexer.rest.length ∧
        q.currentToken.type = .RBRACKET) ∧
    (∀ p arr a q, parseArrayLoop d f p arr = .ok (a, q) →
      q.lexer._text = p.lexer._text ∧ q.lexer.rest.length ≤ p.lexer.rest.length) := by
  induction f with
  | zero =>
    refine ⟨?_, ?_, ?_⟩
    · intro p v q h; rw [parseValue] at h; cases h
    · intro p a q h; rw [parseArray] at h; cases h
    · intro p arr a q h; rw [parseArrayLoop] at h; cases h
  | succ f ih =>
    obtain ⟨ihV, ihA, ihL⟩ := ih
    refine ⟨?_, ?_, ?_⟩
    · intro p v q h
      rw [parseValue_succ] at h
      split_ifs at h with h1 h2
      · injection h with h
        injection h with _ hq
        subst hq
        exact ⟨rfl, le_refl _, Or.inl h1⟩
      · cases ha : parseArray d f p with
        | error e => rw [ha] at h; cases h
        | ok r =>
          obtain ⟨arr, p'⟩ := r
          rw [ha] at h
          injection h with h
          injection h with _ hq
          subst hq
          obtain ⟨a1, a2, a3⟩ := ihA p arr p' ha
          exact ⟨a1, a2, Or.inr a3⟩
    · intro p a q h
      rw [parseArray_succ] at h
      cases hn : p.nextToken d with
      | error e => rw [hn] at h; cases h
      | ok p1 =>
        rw [hn] at h
        simp only at h
        have t1 := (nextToken_progress d p p1 hn).1
        have l1 := nextToken_le d p p1 hn
        split_ifs at h with h1
        · injection h with h
          injection h with _ hq
          subst hq
          exact ⟨t1, l1, h1⟩
        · cases hl : parseArrayLoop d f p1 Array.empty with
          | error e => rw [hl] at h; cases h
          | ok r =>
            obtain ⟨arr, p2⟩ := r
            rw [hl] at h
            simp only at h
            split_ifs at h with h2
            injection h with h
            injection h with _ hq
            subst hq
            obtain ⟨a1, a2⟩ := ihL p1 _ arr p2 hl
            exact ⟨a1.trans t1, a2.trans l1, not_not.mp h2⟩
    · intro p arr a q h
      rw [parseArrayLoop_succ] at h
      cases hv : parseValue d f p with
      | error e => rw [hv] at h; cases h
      | ok r =>
        obtain ⟨v, p1⟩ := r
        rw [hv] at h
        simp only at h
        obtain ⟨t1, l1, _⟩ := ihV p v p1 hv
        cases hn : p1.nextToken d with
        | error e => rw [hn] at h; cases h
        | ok p2 =>
          rw [hn] at h
          simp only at h
          have t2 := (nextToken_progress d p1 p2 hn).1
          have l2 := nextToken_le d p1 p2 hn
          split_ifs at h with h1
          · cases hn3 : p2.nextToken d with
            | error e => rw [hn3] at h; cases h
            | ok p3 =>
              rw [hn3] at h
              simp only at h
              have t3 := (nextToken_progress d p2 p3 hn3).1
              have l3 := nextToken_le d p2 p3 hn3
              obtain ⟨a1, a2⟩ := ihL p3 _ a q h
              exact ⟨a1.trans (t3.trans (t2.trans t1)), a2.trans (l3.trans (l2.trans l1))⟩
          · injection h with h
            injection h with _ hq
            subst hq
            exact ⟨t2.trans t1, l2.trans l1⟩

end detail

namespace detail

/-! ## The fuel is never exhausted -/

theorem nextToken_error (d : TokenDefaults) (p : Parser) (e : Failure)
    (h : p.nextToken d = .error e) : ∃ x, e = .exn x := by
  have hs := nextToken_scan d p
  cases hsc : scan p.lexer.rest with
  | eof =>
    rw [hsc] at hs
    obtain ⟨q, h1, _⟩ := hs
    rw [h] at h1; cases h1
  | invalid c =>
    rw [hsc] at hs; simp only at hs; rw [h] at hs
    injection hs with hs
    exact ⟨_, hs⟩
  | unterminated =>
    rw [hsc] at hs; simp only at hs; rw [h] at hs
    injection hs with hs
    exact ⟨_, hs⟩
  | tok ty val rest =>
    rw [hsc] at hs
    obtain ⟨q, h1, _⟩ := hs
    rw [h] at h1; cases h1

theorem nextToken_ne_fuel (d : TokenDefaults) (p : Parser) :
    p.nextToken d ≠ .error .outOfFuel := by
  intro h
  obtain ⟨x, hx⟩ := nextToken_error d p _ h
  cases hx

theorem weight_of_ne (p : Parser) (h : p.currentToken.type ≠ .NONE) :
    p.weight = p.lexer.rest.length + 1 := by
  simp [Parser.weight, h]

theorem weight_le (p : Parser) : p.lexer.rest.length ≤ p.weight := by
  unfold Parser.weight
  omega

theorem weight_le_succ (p : Parser) : p.weight ≤ p.lexer.rest.length + 1 := by
  unfold Parser.weight
  split_ifs <;> omega

theorem nextToken_weight (d : TokenDefaults) (p q : Parser) (h : p.nextToken d = .ok q) :
    q.weight ≤ p.lexer.rest.length := by
  obtain ⟨_, h2, h3⟩ := nextToken_progress d p q h
  by_cases hn : q.currentToken.type = .NONE
  · simp [Parser.weight, hn, h3 hn]
  · rw [weight_of_ne q hn]
    exact h2 hn

theorem raiseError_ne_fuel (p : Parser) (x : List Char) : p.raiseError x ≠ .outOfFuel := by
  intro h
  cases h

/-- Fuel of three units for each unit of weight, and a little more, is never exhausted. -/
theorem parse_fuel (d : TokenDefaults) (f : Nat) :
    (∀ p, 3 * p.weight + 2 ≤ f → parseValue d f p ≠ .error .outOfFuel) ∧
    (∀ p, p.currentToken.type ≠ .NONE → 3 * p.weight + 1 ≤ f →
      parseArray d f p ≠ .error .outOfFuel) ∧
    (∀ p arr, 3 * p.weight + 3 ≤ f → parseArrayLoop d f p arr ≠ .error .outOfFuel) := by
  induction f with
  | zero =>
    refine ⟨?_, ?_, ?_⟩
    · intro p h; omega
    · intro p _ h; omega
    · intro p arr h; omega
  | succ f ih =>
    obtain ⟨ihV, ihA, ihL⟩ := ih
    refine ⟨?_, ?_, ?_⟩
    · intro p hf h
      rw [parseValue_succ] at h
      by_cases h1 : p.currentToken.type = .STRING
      · rw [if_pos h1] at h
        cases h
      · rw [if_neg h1] at h
        by_cases h2 : p.currentToken.type = .LBRACKET
        · rw [if_pos h2] at h
          cases ha : parseArray d f p with
          | error e =>
            rw [ha] at h
            injection h with h
            subst h
            exact ihA p (by rw [h2]; decide) (by omega) ha
          | ok r => rw [ha] at h; cases h
        · rw [if_neg h2] at h
          injection h with h
          exact raiseError_ne_fuel _ _ h
    · intro p hne hf h
      rw [parseArray_succ] at h
      cases hn : p.nextToken d with
      | error e =>
        rw [hn] at h
        injection h with h
        subst h
        exact nextToken_ne_fuel d p hn
      | ok p1 =>
        rw [hn] at h
        simp only at h
        have w1 := nextToken_weight d p p1 hn
        have w0 := weight_of_ne p hne
        by_cases h1 : p1.currentToken.type = .RBRACKET
        · rw [if_pos h1] at h
          cases h
        · rw [if_neg h1] at h
          cases hl : parseArrayLoop d f p1 Array.empty with
          | error e =>
            rw [hl] at h
            injection h with h
            subst h
            exact ihL p1 _ (by omega) hl
          | ok r =>
            obtain ⟨arr, p2⟩ := r
            rw [hl] at h
            simp only at h
            by_cases h2 : p2.currentToken.type ≠ .RBRACKET
            · rw [if_pos h2] at h
              injection h with h
              exact raiseError_ne_fuel _ _ h
            · rw [if_neg h2] at h
              cases h
    · intro p arr hf h
      rw [parseArrayLoop_succ] at h
      cases hv : parseValue d f p with
      | error e =>
        rw [hv] at h
        injection h with h
        subst h
        exact ihV p (by omega) hv
      | ok r =>
        obtain ⟨v, p1⟩ := r
        rw [hv] at h
        simp only at h
        obtain ⟨_, l1, _⟩ := (parse_post d f).1 p v p1 hv
        cases hn : p1.nextToken d with
        | error e =>
          rw [hn] at h
          injection h with h
          subst h
          exact nextToken_ne_fuel d p1 hn
        | ok p2 =>
          rw [hn] at h
          simp only at h
          have w2 := nextToken_weight d p1 p2 hn
          by_cases h1 : p2.currentToken.type = .COMMA
          · rw [if_pos h1] at h
            have hne : p2.currentToken.type ≠ .NONE := by rw [h1]; decide
            have w2' := weight_of_ne p2 hne
            cases hn3 : p2.nextToken d with
            | error e =>
              rw [hn3] at h
              injection h with h
              subst h
              exact nextToken_ne_fuel d p2 hn3
            | ok p3 =>
              rw [hn3] at h
              simp only at h
              have w3 := nextToken_weight d p2 p3 hn3
              have w0 := weight_le p
              exact ihL p3 _ (by omega) h
          · rw [if_neg h1] at h
            cases h

end detail

namespace detail

theorem parseValueListLoop_post (d : TokenDefaults) (f : Nat) :
    ∀ p obj o q, parseValueListLoop d f p obj = .ok (o, q) →
      q.lexer._text = p.lexer._text ∧ q.lexer.rest.length ≤ p.lexer.rest.length := by
  induction f with
  | zero => intro p obj o q h; rw [parseValueListLoop] at h; cases h
  | succ f ih =>
    intro p obj o q h
    rw [parseValueListLoop_succ] at h
    by_cases h0 : p.currentToken.type ≠ .STRING
    · rw [if_pos h0] at h; cases h
    · rw [if_neg h0] at h
      cases hn1 : p.nextToken d with
      | error e => rw [hn1] at h; cases h
      | ok p1 =>
        rw [hn1] at h
        simp only at h
        have t1 := (nextToken_progress d p p1 hn1).1
        have l1 := nextToken_le d p p1 hn1
        by_cases h1 : p1.currentToken.type ≠ .COLON
        · rw [if_pos h1] at h; cases h
        · rw [if_neg h1] at h
          cases hn2 : p1.nextToken d with
          | error e => rw [hn2] at h; cases h
          | ok p2 =>
            rw [hn2] at h
            simp only at h
            have t2 := (nextToken_progress d p1 p2 hn2).1
            have l2 := nextToken_le d p1 p2 hn2
            cases hv : parseValue d f p2 with
            | error e => rw [hv] at h; cases h
            | ok r =>
              obtain ⟨v, p3⟩ := r
              rw [hv] at h
              simp only at h
              obtain ⟨t3, l3, _⟩ := (parse_post d f).1 p2 v p3 hv
              cases hn4 : p3.nextToken d with
              | error e => rw [hn4] at h; cases h
              | ok p4 =>
                rw [hn4] at h
                simp only at h
                have t4 := (nextToken_progress d p3 p4 hn4).1
                have l4 := nextToken_le d p3 p4 hn4
                by_cases h4 : p4.currentToken.type = .COMMA
                · rw [if_pos h4] at h
                  cases hn5 : p4.nextToken d with
                  | error e => rw [hn5] at h; cases h
                  | ok p5 =>
                    rw [hn5] at h
                    simp only at h
                    have t5 := (nextToken_progress d p4 p5 hn5).1
                    have l5 := nextToken_le d p4 p5 hn5
                    obtain ⟨a1, a2⟩ := ih p5 _ o q h
                    exact ⟨a1.trans (t5.trans (t4.trans (t3.trans (t2.trans t1)))),
                      a2.trans (l5.trans (l4.trans (l3.trans (l2.trans l1))))⟩
                · rw [if_neg h4] at h
                  injection h with h
                  injection h with _ hq
                  subst hq
                  exact ⟨t4.trans (t3.trans (t2.trans t1)), l4.trans (l3.trans (l2.trans l1))⟩

theorem parseValueListLoop_fuel (d : TokenDefaults) (f : Nat) :
    ∀ p obj, 3 * p.weight + 3 ≤ f → parseValueListLoop d f p obj ≠ .error .outOfFuel := by
  induction f with
  | zero => intro p obj h; omega
  | succ f ih =>
    intro p obj hf h
    rw [parseValueListLoop_succ] at h
    by_cases h0 : p.currentToken.type ≠ .STRING
    · rw [if_pos h0] at h
      injection h with h
      exact raiseError_ne_fuel _ _ h
    · rw [if_neg h0] at h
      cases hn1 : p.nextToken d with
      | error e =>
        rw [hn1] at h
        injection h with h
        subst h
        exact nextToken_ne_fuel d p hn1
      | ok p1 =>
        rw [hn1] at h
        simp only at h
        have w1 := nextToken_weight d p p1 hn1
        have w0 := weight_le_succ p
        by_cases h1 : p1.currentToken.type ≠ .COLON
        · rw [if_pos h1] at h
          injection h with h
          exact raiseError_ne_fuel _ _ h
        · rw [if_neg h1] at h
          cases hn2 : p1.nextToken d with
          | error e =>
            rw [hn2] at h
            injection h with h
            subst h
            exact nextToken_ne_fuel d p1 hn2
          | ok p2 =>
            rw [hn2] at h
            simp only at h
            have w2 := nextToken_weight d p1 p2 hn2
            have w1' := weight_le p1
            have hp0 : p.weight = p.lexer.rest.length + 1 :=
              weight_of_ne p (by rw [not_not.mp h0]; decide)
            have hp1 : p1.weight = p1.lexer.rest.length + 1 :=
              weight_of_ne p1 (by rw [not_not.mp h1]; decide)
            cases hv : parseValue d f p2 with
            | error e =>
              rw [hv] at h
              injection h with h
              subst h
              exact (parse_fuel d f).1 p2 (by omega) hv
            | ok r =>
              obtain ⟨v, p3⟩ := r
              rw [hv] at h
              simp only at h
              obtain ⟨_, l3, _⟩ := (parse_post d f).1 p2 v p3 hv
              have w2' := weight_le p2
              cases hn4 : p3.nextToken d with
              | error e =>
                rw [hn4] at h
                injection h with h
                subst h
                exact nextToken_ne_fuel d p3 hn4
              | ok p4 =>
                rw [hn4] at h
                simp only at h
                have w4 := nextToken_weight d p3 p4 hn4
                have w4' := weight_le p4
                by_cases h4 : p4.currentToken.type = .COMMA
                · rw [if_pos h4] at h
                  cases hn5 : p4.nextToken d with
                  | error e =>
                    rw [hn5] at h
                    injection h with h
                    subst h
                    exact nextToken_ne_fuel d p4 hn5
                  | ok p5 =>
                    rw [hn5] at h
                    simp only at h
                    have w5 := nextToken_weight d p4 p5 hn5
                    exact ih p5 _ (by omega) h
                · rw [if_neg h4] at h
                  cases h

theorem rest_new (text : List Char) : (Lexer.new text).rest = text := rfl

theorem parseObject_fuel (d : TokenDefaults) (f : Nat) (p : Parser)
    (hf : 3 * p.lexer.rest.length + 3 ≤ f) : parseObject d f p ≠ .error .outOfFuel := by
  intro h
  unfold parseObject at h
  cases hn1 : p.nextToken d with
  | error e =>
    rw [hn1] at h
    injection h with h
    subst h
    exact nextToken_ne_fuel d p hn1
  | ok p1 =>
    rw [hn1] at h
    simp only at h
    have w1 := nextToken_weight d p p1 hn1
    have w1' := weight_le p1
    by_cases h1 : p1.currentToken.type ≠ .LBRACE
    · rw [if_pos h1] at h
      injection h with h
      exact raiseError_ne_fuel _ _ h
    · rw [if_neg h1] at h
      cases hn2 : p1.nextToken d with
      | error e =>
        rw [hn2] at h
        injection h with h
        subst h
        exact nextToken_ne_fuel d p1 hn2
      | ok p2 =>
        rw [hn2] at h
        simp only at h
        have w2 := nextToken_weight d p1 p2 hn2
        by_cases h2 : p2.currentToken.type = .RBRACE
        · rw [if_pos h2] at h; cases h
        · rw [if_neg h2] at h
          unfold parseValueList at h
          cases hl : parseValueListLoop d f p2 Object.empty with
          | error e =>
            rw [hl] at h
            injection h with h
            subst h
            exact parseValueListLoop_fuel d f p2 _ (by omega) hl
          | ok r =>
            obtain ⟨o, p3⟩ := r
            rw [hl] at h
            simp only at h
            by_cases h3 : p3.currentToken.type ≠ .RBRACE
            · rw [if_pos h3] at h
              injection h with h
              exact raiseError_ne_fuel _ _ h
            · rw [if_neg h3] at h; cases h

end detail

/-- The fuel `parse` hands out is never exhausted: `parse` returns an Object or
fails with a `parse_exception`. -/
theorem parseRun_total (d : TokenDefaults) (text : List Char) :
    parseRun d text ≠ .error .outOfFuel := by
  unfold parseRun Parser.parse
  apply parseObject_fuel
  show 3 * (Lexer.new text).rest.length + 3 ≤ parseFuel text
  rw [rest_new]
  exact le_refl _

theorem parse_total (d : TokenDefaults) (text : List Char) :
    parse d text ≠ .error .outOfFuel := by
  intro h
  unfold parse at h
  cases hr : parseRun d text with
  | error e =>
    rw [hr] at h
    injection h with h
    subst h
    exact parseRun_total d text hr
  | ok r => rw [hr] at h; cases h

namespace detail

/-! ## Two runs that see the same tokens -/

theorem sim_parse (d d' : TokenDefaults) (Rp : Parser → Parser → Prop)
    (Re : Failure → Failure → Prop)
    (HT : ∀ p p', Rp p p' → p.currentToken.type = p'.currentToken.type ∧
      p.currentToken.value = p'.currentToken.value)
    (HE : ∀ p p' x, Rp p p' → Re (p.raiseError x) (p'.raiseError x))
    (HN : ∀ p p', Rp p p' → StepSim Rp Re (p.nextToken d) (p'.nextToken d'))
    (f : Nat) :
    (∀ f' p p', Rp p p' → Sim Rp Re (parseValue d f p) (parseValue d' f' p')) ∧
    (∀ f' p p', Rp p p' → Sim Rp Re (parseArray d f p) (parseArray d' f' p')) ∧
    (∀ f' p p' arr, Rp p p' →
      Sim Rp Re (parseArrayLoop d f p arr) (parseArrayLoop d' f' p' arr)) := by
  induction f with
  | zero =>
    refine ⟨?_, ?_, ?_⟩
    · intro f' p p' _; rw [parseValue]; exact Sim.fuelL _
    · intro f' p p' _; rw [parseArray]; exact Sim.fuelL _
    · intro f' p p' arr _; rw [parseArrayLoop]; exact Sim.fuelL _
  | succ f ih =>
    obtain ⟨ihV, ihA, ihL⟩ := ih
    refine ⟨?_, ?_, ?_⟩
    · intro f' p p' hR
      cases f' with
      | zero => rw [parseValue.eq_1 d' p']; exact Sim.fuelR _
      | succ f' =>
        obtain ⟨ht, hv⟩ := HT p p' hR
        rw [parseValue_succ, parseValue_succ, ← ht, ← hv]
        by_cases h1 : p.currentToken.type = .STRING
        · rw [if_pos h1, if_pos h1]
          exact Sim.ok _ _ _ hR
        · rw [if_neg h1, if_neg h1]
          by_cases h2 : p.currentToken.type = .LBRACKET
          · rw [if_pos h2, if_pos h2]
            have hs := ihA f' p p' hR
            generalize parseArray d f p = r at hs
            generalize parseArray d' f' p' = r' at hs
            cases hs with
            | fuelL _ => exact Sim.fuelL _
            | fuelR _ => exact Sim.fuelR _
            | ok a q q' hq => exact Sim.ok _ _ _ hq
            | err e e' he => exact Sim.err _ _ he
          · rw [if_neg h2, if_neg h2]
            exact Sim.err _ _ (HE p p' _ hR)
    · intro f' p p' hR
      cases f' with
      | zero => rw [parseArray.eq_1 d' p']; exact Sim.fuelR _
      | succ f' =>
        rw [parseArray_succ, parseArray_succ]
        have hn := HN p p' hR
        generalize p.nextToken d = n at hn
        generalize p'.nextToken d' = n' at hn
        cases hn with
        | err e e' he => exact Sim.err _ _ he
        | ok p1 p1' hR1 =>
          simp only
          obtain ⟨ht, _⟩ := HT p1 p1' hR1
          rw [← ht]
          by_cases h1 : p1.currentToken.type = .RBRACKET
          · rw [if_pos h1, if_pos h1]
            exact Sim.ok _ _ _ hR1
          · rw [if_neg h1, if_neg h1]
            have hs := ihL f' p1 p1' Array.empty hR1
            generalize parseArrayLoop d f p1 Array.empty = r at hs
            generalize parseArrayLoop d' f' p1' Array.empty = r' at hs
            cases hs with
            | fuelL _ => exact Sim.fuelL _
            | fuelR _ => exact Sim.fuelR _
            | err e e' he => exact Sim.err _ _ he
            | ok a q q' hq =>
              simp only
              obtain ⟨ht2, _⟩ := HT q q' hq
              rw [← ht2]
              by_cases h2 : q.currentToken.type ≠ .RBRACKET
              · rw [if_pos h2, if_pos h2]
                exact Sim.err _ _ (HE q q' _ hq)
              · rw [if_neg h2, if_neg h2]
                exact Sim.ok _ _ _ hq
    · intro f' p p' arr hR
      cases f' with
      | zero => rw [parseArrayLoop.eq_1 d' p' arr]; exact Sim.fuelR _
      | succ f' =>
        rw [parseArrayLoop_succ, parseArrayLoop_succ]
        have hs := ihV f' p p' hR
        generalize parseValue d f p = r at hs
        generalize parseValue d' f' p' = r' at hs
        cases hs with
        | fuelL _ => exact Sim.fuelL _
        | fuelR _ => exact Sim.fuelR _
        | err e e' he => exact Sim.err _ _ he
        | ok v q q' hq =>
          simp only
          have hn := HN q q' hq
          generalize q.nextToken d = n at hn
          generalize q'.nextToken d' = n' at hn
          cases hn with
          | err e e' he => exact Sim.err _ _ he
          | ok p2 p2' hR2 =>
            simp only
            obtain ⟨ht, _⟩ := HT p2 p2' hR2
            rw [← ht]
            by_cases h1 : p2.currentToken.type = .COMMA
            · rw [if_pos h1, if_pos h1]
              have hn3 := HN p2 p2' hR2
              generalize p2.nextToken d = n3 at hn3
              generalize p2'.nextToken d' = n3' at hn3
              cases hn3 with
              | err e e' he => exact Sim.err _ _ he
              | ok p3 p3' hR3 => exact ihL f' p3 p3' _ hR3
            · rw [if_neg h1, if_neg h1]
              exact Sim.ok _ _ _ hR2

theorem sim_parseValueListLoop (d d' : TokenDefaults) (Rp : Parser → Parser → Prop)
    (Re : Failure → Failure → Prop)
    (HT : ∀ p p', Rp p p' → p.currentToken.type = p'.currentToken.type ∧
      p.currentToken.value = p'.currentToken.value)
    (HE : ∀ p p' x, Rp p p' → Re (p.raiseError x) (p'.raiseError x))
    (HN : ∀ p p', Rp p p' → StepSim Rp Re (p.nextToken d) (p'.nextToken d'))
    (f : Nat) :
    ∀ f' p p' obj, Rp p p' →
      Sim Rp Re (parseValueListLoop d f p obj) (parseValueListLoop d' f' p' obj) := by
  induction f with
  | zero => intro f' p p' obj _; rw [parseValueListLoop]; exact Sim.fuelL _
  | succ f ih =>
    intro f' p p' obj hR
    cases f' with
    | zero => rw [parseValueListLoop.eq_1 d' p' obj]; exact Sim.fuelR _
    | succ f' =>
      rw [parseValueListLoop_succ, parseValueListLoop_succ]
      obtain ⟨ht, hv⟩ := HT p p' hR
      rw [← ht, ← hv]
      by_cases h0 : p.currentToken.type ≠ .STRING
      · rw [if_pos h0, if_pos h0]
        exact Sim.err _ _ (HE p p' _ hR)
      · rw [if_neg h0, if_neg h0]
        have hn := HN p p' hR
        generalize p.nextToken d = n at hn
        generalize p'.nextToken d' = n' at hn
        cases hn with
        | err e e' he => exact Sim.err _ _ he
        | ok p1 p1' hR1 =>
          simp only
          obtain ⟨ht1, _⟩ := HT p1 p1' hR1
          rw [← ht1]
          by_cases h1 : p1.currentToken.type ≠ .COLON
          · rw [if_pos h1, if_pos h1]
            exact Sim.err _ _ (HE p1 p1' _ hR1)
          · rw [if_neg h1, if_neg h1]
            have hn2 := HN p1 p1' hR1
            generalize p1.nextToken d = n2 at hn2
            generalize p1'.nextToken d' = n2' at hn2
            cases hn2 with
            | err e e' he => exact Sim.err _ _ he
            | ok p2 p2' hR2 =>
              simp only
              have hs := (sim_parse d d' Rp Re HT HE HN f).1 f' p2 p2' hR2
              generalize parseValue d f p2 = r at hs
              generalize parseValue d' f' p2' = r' at hs
              cases hs with
              | fuelL _ => exact Sim.fuelL _
              | fuelR _ => exact Sim.fuelR _
              | err e e' he => exact Sim.err _ _ he
              | ok v p3 p3' hR3 =>
                simp only
                have hn4 := HN p3 p3' hR3
                generalize p3.nextToken d = n4 at hn4
                generalize p3'.nextToken d' = n4' at hn4
                cases hn4 with
                | err e e' he => exact Sim.err _ _ he
                | ok p4 p4' hR4 =>
                  simp only
                  obtain ⟨ht4, _⟩ := HT p4 p4' hR4
                  rw [← ht4]
                  by_cases h4 : p4.currentToken.type = .COMMA
                  · rw [if_pos h4, if_pos h4]
                    have hn5 := HN p4 p4' hR4
                    generalize p4.nextToken d = n5 at hn5
                    generalize p4'.nextToken d' = n5' at hn5
                    cases hn5 with
                    | err e e' he => exact Sim.err _ _ he
                    | ok p5 p5' hR5 => exact ih f' p5 p5' _ hR5
                  · rw [if_neg h4, if_neg h4]
                    exact Sim.ok _ _ _ hR4

/-- Two runs of `parseObject` whose lexers yield related tokens end alike. The
current tokens at entry are not read, so only `nextToken` has to agree. -/
theorem sim_parseObject (d d' : TokenDefaults) (Rp : Parser → Parser → Prop)
    (Re : Failure → Failure → Prop)
    (HT : ∀ p p', Rp p p' → p.currentToken.type = p'.currentToken.type ∧
      p.currentToken.value = p'.currentToken.value)
    (HE : ∀ p p' x, Rp p p' → Re (p.raiseError x) (p'.raiseError x))
    (HN : ∀ p p', Rp p p' → StepSim Rp Re (p.nextToken d) (p'.nextToken d'))
    (f f' : Nat) (p p' : Parser) (h0 : StepSim Rp Re (p.nextToken d) (p'.nextToken d')) :
    Sim Rp Re (parseObject d f p) (parseObject d' f' p') := by
  unfold parseObject
  generalize p.nextToken d = n at h0
  generalize p'.nextToken d' = n' at h0
  cases h0 with
  | err e e' he => exact Sim.err _ _ he
  | ok p1 p1' hR1 =>
    simp only
    obtain ⟨ht1, _⟩ := HT p1 p1' hR1
    rw [← ht1]
    by_cases h1 : p1.currentToken.type ≠ .LBRACE
    · rw [if_pos h1, if_pos h1]
      exact Sim.err _ _ (HE p1 p1' _ hR1)
    · rw [if_neg h1, if_neg h1]
      have hn2 := HN p1 p1' hR1
      generalize p1.nextToken d = n2 at hn2
      generalize p1'.nextToken d' = n2' at hn2
      cases hn2 with
      | err e e' he => exact Sim.err _ _ he
      | ok p2 p2' hR2 =>
        simp only
        obtain ⟨ht2, _⟩ := HT p2 p2' hR2
        rw [← ht2]
        by_cases h2 : p2.currentToken.type = .RBRACE
        · rw [if_pos h2, if_pos h2]
          exact Sim.ok _ _ _ hR2
        · rw [if_neg h2, if_neg h2]
          unfold parseValueList
          have hs := sim_parseValueListLoop d d' Rp Re HT HE HN f f' p2 p2' Object.empty hR2
          generalize parseValueListLoop d f p2 Object.empty = r at hs
          generalize parseValueListLoop d' f' p2' Object.empty = r' at hs
          cases hs with
          | fuelL _ => exact Sim.fuelL _
          | fuelR _ => exact Sim.fuelR _
          | err e e' he => exact Sim.err _ _ he
          | ok o p3 p3' hR3 =>
            simp only
            obtain ⟨ht3, _⟩ := HT p3 p3' hR3
            rw [← ht3]
            by_cases h3 : p3.currentToken.type ≠ .RBRACE
            · rw [if_pos h3, if_pos h3]
              exact Sim.err _ _ (HE p3 p3' _ hR3)
            · rw [if_neg h3, if_neg h3]
              exact Sim.ok _ _ _ hR3

end detail

namespace detail

/-! ## The constructor defaults of `Token` only show in errors at the end of input -/

theorem getToken_defaults (d d' : TokenDefaults) (lx : Lexer) :
    lx.getToken d = lx.getToken d' ∨
      ∃ lx', lx.getToken d = (.ok (noneToken d), lx') ∧ lx.getToken d' = (.ok (noneToken d'), lx') := by
  obtain ⟨i, text, l, p⟩ := lx
  rw [getToken_spec, getToken_spec]
  cases (text.drop i).dropWhile isspace with
  | nil => exact Or.inr ⟨_, rfl, rfl⟩
  | cons c cs => exact Or.inl rfl

theorem nextToken_defaults (d d' : TokenDefaults) (p p' : Parser) (h : p.lexer = p'.lexer) :
    StepSim (SameUpToDefaults d d') (SameErrorUpToDefaults d d') (p.nextToken d)
      (p'.nextToken d') := by
  unfold Parser.nextToken
  rw [← h]
  rcases getToken_defaults d d' p.lexer with h1 | ⟨lx', h1, h2⟩
  · rw [← h1]
    cases hg : p.lexer.getToken d with
    | mk r lx' =>
      cases r with
      | error e => exact StepSim.err _ _ (Or.inl rfl)
      | ok t => exact StepSim.ok _ _ ⟨rfl, Or.inl rfl⟩
  · rw [h1, h2]
    exact StepSim.ok _ _ ⟨rfl, Or.inr ⟨rfl, rfl⟩⟩

theorem sim_defaults (d d' : TokenDefaults) (text : List Char) :
    Sim (SameUpToDefaults d d') (SameErrorUpToDefaults d d') (parseRun d text) (parseRun d' text) := by
  unfold parseRun Parser.parse
  apply sim_parseObject d d' (SameUpToDefaults d d') (SameErrorUpToDefaults d d')
  · intro p p' h
    rcases h.2 with h2 | ⟨h2, h3⟩
    · rw [h2]; exact ⟨rfl, rfl⟩
    · rw [h2, h3]; exact ⟨rfl, rfl⟩
  · intro p p' x h
    unfold Parser.raiseError
    rcases h.2 with h2 | ⟨h2, h3⟩
    · rw [h2]; exact Or.inl rfl
    · rw [h2, h3]; exact Or.inr ⟨x, rfl, rfl⟩
  · intro p p' h
    exact nextToken_defaults d d' p p' h.1
  · exact nextToken_defaults d d' _ _ rfl

end detail

/-- A successful parse does not depend on the constructor defaults of `Token`. -/
theorem parse_defaults_ok (d d' : TokenDefaults) (text : List Char) (o : Object)
    (h : parse d text = .ok o) : parse d' text = .ok o := by
  have hs := sim_defaults d d' text
  have ht := parseRun_total d' text
  unfold parse at h ⊢
  generalize parseRun d text = r at hs h
  generalize parseRun d' text = r' at hs ht
  cases hs with
  | fuelL _ => cases h
  | fuelR _ => exact absurd rfl ht
  | ok a q q' _ => exact h
  | err e e' _ => cases h

/-- A failure that reports a token with a non-empty text, or is not an
unexpected-token error, does not depend on the constructor defaults of `Token`. -/
theorem parse_defaults_error (d d' : TokenDefaults) (text : List Char) (e : parse_exception)
    (h : parse d text = .error (.exn e))
    (hne : ∀ x l c, e ≠ .unexpected x l c []) : parse d' text = .error (.exn e) := by
  have hs := sim_defaults d d' text
  have ht := parseRun_total d' text
  unfold parse at h ⊢
  generalize parseRun d text = r at hs h
  generalize parseRun d' text = r' at hs ht
  cases hs with
  | fuelL _ => cases h
  | fuelR _ => exact absurd rfl ht
  | ok a q q' _ => cases h
  | err e1 e2 he =>
    simp only at h ⊢
    injection h with h
    subst h
    rcases he with he | ⟨x, he1, _⟩
    · rw [he]
    · injection he1 with he1
      exact absurd he1 (hne _ _ _)

namespace detail

/-! ## Exact results of `getToken` -/

theorem takeWhile_isspace_append (ws s : List Char) (h : ∀ c ∈ ws, isspace c = true) :
    (ws ++ s).takeWhile isspace = ws ++ s.takeWhile isspace := by
  induction ws with
  | nil => rfl
  | cons c ws ih =>
    have hc : isspace c = true := h c (List.mem_cons_self _ _)
    simp only [List.cons_append, List.takeWhile_cons, hc, if_true]
    rw [ih (fun x hx => h x (List.mem_cons_of_mem _ hx))]

/-- A string token: the text between the opening quote and the first quote after it. -/
theorem getToken_string (d : TokenDefaults) (i : Nat) (text : List Char) (l p : Int)
    (ws v rest : List Char) (h : text.drop i = ws ++ dquote :: (v ++ dquote :: rest))
    (hws : ∀ c ∈ ws, isspace c = true) (hv : dquote ∉ v) :
    Lexer.getToken d ⟨i, text, l, p⟩ =
      (.ok ⟨.STRING, v, (linePos ws (l, p)).1, (linePos ws (l, p)).2⟩,
        ⟨i + ws.length + 1 + v.length + 1, text, (linePos ws (l, p)).1, (linePos ws (l, p)).2⟩) := by
  rw [getToken_spec, h, dropWhile_isspace_append _ _ hws, takeWhile_isspace_append _ _ hws]
  simp only [List.dropWhile_cons, List.takeWhile_cons, dquote_not_space, Bool.false_eq_true,
    if_false, if_true, List.append_nil, (untilQuote_append v rest hv).1,
    (untilQuote_append v rest hv).2]

/-- A structural character. -/
theorem getToken_punct (d : TokenDefaults) (i : Nat) (text : List Char) (l p : Int)
    (ws : List Char) (c : Char) (t : TokenType) (rest : List Char)
    (h : text.drop i = ws ++ c :: rest)
    (hws : ∀ x ∈ ws, isspace x = true) (hc : punct c = some t) :
    Lexer.getToken d ⟨i, text, l, p⟩ =
      (.ok ⟨t, [c], (linePos ws (l, p)).1, (linePos ws (l, p)).2⟩,
        ⟨i + ws.length + 1, text, (linePos ws (l, p)).1, (linePos ws (l, p)).2⟩) := by
  obtain ⟨h1, h2⟩ := punct_not_space c t hc
  rw [getToken_spec, h, dropWhile_isspace_append _ _ hws, takeWhile_isspace_append _ _ hws]
  simp only [List.dropWhile_cons, List.takeWhile_cons, h1, Bool.false_eq_true,
    if_false, List.append_nil, h2, hc]

/-- A character that starts no token. -/
theorem getToken_invalid (d : TokenDefaults) (i : Nat) (text : List Char) (l p : Int)
    (ws : List Char) (c : Char) (rest : List Char)
    (h : text.drop i = ws ++ c :: rest)
    (hws : ∀ x ∈ ws, isspace x = true) (h1 : isspace c = false) (h2 : c ≠ dquote)
    (hc : punct c = none) :
    Lexer.getToken d ⟨i, text, l, p⟩ =
      (.error (.exn (.invalidToken c)),
        ⟨i + ws.length + 1, text, (linePos ws (l, p)).1, (linePos ws (l, p)).2⟩) := by
  rw [getToken_spec, h, dropWhile_isspace_append _ _ hws, takeWhile_isspace_append _ _ hws]
  simp only [List.dropWhile_cons, List.takeWhile_cons, h1, Bool.false_eq_true,
    if_false, List.append_nil, h2, hc]

/-- A string that is opened and not closed. -/
theorem getToken_unterminated (d : TokenDefaults) (i : Nat) (text : List Char) (l p : Int)
    (ws v : List Char) (h : text.drop i = ws ++ dquote :: v)
    (hws : ∀ c ∈ ws, isspace c = true) (hv : dquote ∉ v) :
    (Lexer.getToken d ⟨i, text, l, p⟩).1 = .error (.exn .unterminated) := by
  have hf : fromQuote v = [] := by
    unfold fromQuote
    rw [List.dropWhile_eq_nil_iff]
    intro x hx
    have : x ≠ dquote := fun e => hv (e ▸ hx)
    simp [this]
  rw [getToken_spec, h, dropWhile_isspace_append _ _ hws, takeWhile_isspace_append _ _ hws]
  simp only [List.dropWhile_cons, dquote_not_space, Bool.false_eq_true, if_false, if_true, hf]

end detail

/-! ## Claims on the lexer -/

/-- C16 (refuted as stated): lexing the six characters quote, a, backslash,
quote, b, quote does not yield a token with the four-character value a,
backslash, quote, b and the cursor past the final quote. -/
theorem C16_counterexample :
    ¬ ∃ d t lx, (Lexer.new [dquote, 'a', '\\', dquote, 'b', dquote]).getToken d = (.ok t, lx) ∧
      t.value = ['a', '\\', dquote, 'b'] ∧ lx._cursor = 6 := by
  rintro ⟨d, t, lx, h, _, hc⟩
  have h2 := getToken_string d 0 [dquote, 'a', '\\', dquote, 'b', dquote] 1 1 [] ['a', '\\']
    ['b', dquote] rfl (by intro c hc; cases hc) (by decide)
  rw [show Lexer.new [dquote, 'a', '\\', dquote, 'b', dquote] =
    ⟨0, [dquote, 'a', '\\', dquote, 'b', dquote], 1, 1⟩ from rfl, h2] at h
  injection h with _ h
  rw [← h] at hc
  exact absurd hc (by decide)

/-- C16 (amended): string-lexing ends at the first quote after the opening one,
also when a backslash precedes it: for `v` without a quote, lexing quote, `v`,
backslash, quote, `rest` yields the STRING token `v` followed by the backslash,
with the cursor just past that quote. -/
theorem C16_backslash_quote_ends_string (d : TokenDefaults) (v rest : List Char)
    (hv : dquote ∉ v) :
    (Lexer.new (dquote :: (v ++ '\\' :: dquote :: rest))).getToken d =
      (.ok ⟨.STRING, v ++ ['\\'], 1, 1⟩,
        ⟨v.length + 3, dquote :: (v ++ '\\' :: dquote :: rest), 1, 1⟩) := by
  have hv' : dquote ∉ v ++ ['\\'] := by
    intro h
    rcases List.mem_append.mp h with h | h
    · exact hv h
    · exact absurd h (by decide)
  have h2 := getToken_string d 0 (dquote :: (v ++ '\\' :: dquote :: rest)) 1 1 []
    (v ++ ['\\']) rest (by simp) (by intro c hc; cases hc) hv'
  rw [show Lexer.new (dquote :: (v ++ '\\' :: dquote :: rest)) =
    ⟨0, dquote :: (v ++ '\\' :: dquote :: rest), 1, 1⟩ from rfl, h2]
  simp [linePos]
  omega

/-- Witness for C16: the six-character text of the claim; the token is a,
backslash and the cursor is 4. -/
theorem C16_backslash_quote_ends_string_witness :
    (Lexer.new [dquote, 'a', '\\', dquote, 'b', dquote]).getToken ⟨0, 0⟩ =
      (.ok ⟨.STRING, ['a', '\\'], 1, 1⟩, ⟨4, [dquote, 'a', '\\', dquote, 'b', dquote], 1, 1⟩) :=
  C16_backslash_quote_ends_string ⟨0, 0⟩ ['a'] ['b', dquote] (by decide)

theorem invalidTokenMessage_length (c : Char) (m : List Char)
    (h : invalidTokenMessage c = some m) : m.length ≤ 22 := by
  unfold invalidTokenMessage at h
  split_ifs at h
  injection h with h
  rw [← h, List.length_drop]
  exact Nat.sub_le _ _

/-- C11 (the code departs from the claim): a character that is not white
space, not structural and not a quote makes `getToken` throw, but the message
built on line 122 is never `c` followed by " is not a valid token!": it is the
literal without its first `c` characters, and undefined for `c > 22`. -/
theorem C11_invalid_token_message (d : TokenDefaults) (c : Char) (rest : List Char)
    (h1 : isspace c = false) (h2 : c ≠ dquote) (h3 : punct c = none) :
    ((Lexer.new (c :: rest)).getToken d).1 = .error (.exn (.invalidToken c)) ∧
      invalidTokenMessage c ≠ some (c :: " is not a valid token!".toList) ∧
      invalidTokenMessage 'a' = none := by
  refine ⟨?_, ?_, by decide⟩
  · rw [show Lexer.new (c :: rest) = ⟨0, c :: rest, 1, 1⟩ from rfl,
      getToken_invalid d 0 (c :: rest) 1 1 [] c rest rfl (by intro x hx; cases hx) h1 h2 h3]
  · intro h
    have := invalidTokenMessage_length c _ h
    simp at this

/-- Witness for C11: the text `a`. -/
theorem C11_invalid_token_message_witness :
    ((Lexer.new ['a']).getToken ⟨0, 0⟩).1 = .error (.exn (.invalidToken 'a')) ∧
      invalidTokenMessage 'a' ≠ some ('a' :: " is not a valid token!".toList) ∧
      invalidTokenMessage 'a' = none :=
  C11_invalid_token_message ⟨0, 0⟩ 'a' [] (by decide) (by decide) (by decide)

namespace detail

theorem fromQuote_eq_nil_iff (s : List Char) : fromQuote s = [] ↔ dquote ∉ s := by
  unfold fromQuote
  rw [List.dropWhile_eq_nil_iff]
  constructor
  · intro h hm
    have := h dquote hm
    simp at this
  · intro h x hx
    have : x ≠ dquote := fun e => h (e ▸ hx)
    simp [this]

theorem lexString_error_iff (lx : Lexer) :
    lx.lexString.1 = .error (.exn .unterminated) ↔ dquote ∉ lx.rest := by
  obtain ⟨i, text, l, p⟩ := lx
  rw [lexString_spec, ← fromQuote_eq_nil_iff]
  unfold Lexer.rest
  cases h : fromQuote (text.drop i) <;> simp

theorem lexString_error_only (lx : Lexer) (e : Failure) (h : lx.lexString.1 = .error e) :
    e = .exn .unterminated := by
  obtain ⟨i, text, l, p⟩ := lx
  rw [lexString_spec] at h
  cases hf : fromQuote (text.drop i) with
  | nil => rw [hf] at h; injection h with h; exact h.symm
  | cons c cs => rw [hf] at h; cases h

theorem scan_unterminated (s : List Char) (h : scan s = .unterminated) :
    ∃ ws v, s = ws ++ dquote :: v ∧ dquote ∉ v := by
  unfold scan at h
  have hs := List.takeWhile_append_dropWhile isspace s
  cases hr : s.dropWhile isspace with
  | nil => rw [hr] at h; cases h
  | cons c cs =>
    rw [hr] at h hs
    simp only at h
    by_cases h1 : c = dquote
    · simp only [h1, if_true] at h
      cases hf : fromQuote cs with
      | nil =>
        refine ⟨s.takeWhile isspace, cs, ?_, (fromQuote_eq_nil_iff cs).mp hf⟩
        rw [← h1]
        exact hs.symm
      | cons q r => rw [hf] at h; cases h
    · simp only [h1, if_false] at h
      cases hp : punct c <;> rw [hp] at h <;> cases h

theorem nextToken_unterminated (d : TokenDefaults) (p : Parser)
    (h : p.nextToken d = .error (.exn .unterminated)) :
    ∃ pre v, p.lexer._text = pre ++ dquote :: v ∧ dquote ∉ v := by
  have hs := nextToken_scan d p
  cases hsc : scan p.lexer.rest with
  | eof =>
    rw [hsc] at hs
    obtain ⟨q, h1, _⟩ := hs
    rw [h] at h1; cases h1
  | invalid c =>
    rw [hsc] at hs; simp only at hs; rw [h] at hs
    cases hs
  | tok ty val rest =>
    rw [hsc] at hs
    obtain ⟨q, h1, _⟩ := hs
    rw [h] at h1; cases h1
  | unterminated =>
    obtain ⟨ws, v, h1, h2⟩ := scan_unterminated _ hsc
    refine ⟨p.lexer._text.take p.lexer._cursor ++ ws, v, ?_, h2⟩
    have := List.take_append_drop p.lexer._cursor p.lexer._text
    unfold Lexer.rest at h1
    rw [h1] at this
    rw [List.append_assoc]
    exact this.symm

/-- The unterminated-string error of a parse comes from a quote of the text
that no later quote closes. -/
theorem parseRun_unterminated (d : TokenDefaults) (text : List Char)
    (h : parseRun d text = .error (.exn .unterminated)) :
    ∃ pre v, text = pre ++ dquote :: v ∧ dquote ∉ v := by
  have hs := sim_parseObject d d (fun p p' => p = p' ∧ p.lexer._text = text)
    (fun e e' => e = e' ∧ (e = .exn .unterminated → ∃ pre v, text = pre ++ dquote :: v ∧ dquote ∉ v))
    (fun p p' hp => by rw [hp.1]; exact ⟨rfl, rfl⟩)
    (fun p p' x hp => by
      rw [hp.1]
      exact ⟨rfl, fun he => by cases he⟩)
    (fun p p' hp => by
      obtain ⟨rfl, ht⟩ := hp
      cases hn : p.nextToken d with
      | ok q => exact StepSim.ok _ _ ⟨rfl, (nextToken_progress d p q hn).1.trans ht⟩
      | error e =>
        refine StepSim.err _ _ ⟨rfl, fun he => ?_⟩
        rw [he] at hn
        rw [← ht]
        exact nextToken_unterminated d p hn)
    (parseFuel text) (parseFuel text) (Parser.new d (Lexer.new text))
    (Parser.new d (Lexer.new text))
    (by
      cases hn : (Parser.new d (Lexer.new text)).nextToken d with
      | ok q => exact StepSim.ok _ _ ⟨rfl, (nextToken_progress d _ q hn).1⟩
      | error e =>
        refine StepSim.err _ _ ⟨rfl, fun he => ?_⟩
        rw [he] at hn
        exact nextToken_unterminated d _ hn)
  unfold parseRun Parser.parse at h
  generalize parseObject d (parseFuel text) (Parser.new d (Lexer.new text)) = r at hs h
  subst h
  generalize hr : (Except.error (Failure.exn parse_exception.unterminated) :
    Except Failure (Object × Parser)) = r at hs
  cases hs with
  | fuelL _ => cases hr
  | fuelR _ => cases hr
  | ok a q q' _ => cases hr
  | err e e' he =>
    injection hr with hr
    exact he.2 hr.symm

end detail

namespace detail

/-! ## Fetching a token from a known suffix -/

theorem nextToken_punct (d : TokenDefaults) (p : Parser) (ws : List Char) (c : Char)
    (t : TokenType) (rest : List Char) (h : p.lexer.rest = ws ++ c :: rest)
    (hws : ∀ x ∈ ws, isspace x = true) (hc : punct c = some t) :
    ∃ q, p.nextToken d = .ok q ∧ q.currentToken.type = t ∧ q.currentToken.value = [c] ∧
      q.lexer._text = p.lexer._text ∧ q.lexer.rest = rest := by
  have hs := nextToken_scan d p
  rw [h, scan_space ws _ hws, scan_punct c t rest hc] at hs
  exact hs

theorem nextToken_string (d : TokenDefaults) (p : Parser) (ws v rest : List Char)
    (h : p.lexer.rest = ws ++ dquote :: (v ++ dquote :: rest))
    (hws : ∀ x ∈ ws, isspace x = true) (hv : dquote ∉ v) :
    ∃ q, p.nextToken d = .ok q ∧ q.currentToken.type = .STRING ∧ q.currentToken.value = v ∧
      q.lexer._text = p.lexer._text ∧ q.lexer.rest = rest := by
  have hs := nextToken_scan d p
  rw [h, scan_space ws _ hws, scan_string v rest hv] at hs
  exact hs

theorem scan_all_space (ws : List Char) (hws : ∀ x ∈ ws, isspace x = true) : scan ws = .eof := by
  have := scan_space ws [] hws
  rw [List.append_nil] at this
  rw [this]
  rfl

theorem nextToken_eof (d : TokenDefaults) (p : Parser) (ws : List Char)
    (h : p.lexer.rest = ws) (hws : ∀ x ∈ ws, isspace x = true) :
    ∃ q, p.nextToken d = .ok q ∧ q.currentToken = noneToken d ∧
      q.lexer._text = p.lexer._text ∧ q.lexer.rest = [] := by
  have hs := nextToken_scan d p
  rw [h, scan_all_space ws hws] at hs
  exact hs

theorem scan_invalid (c : Char) (rest : List Char) (h1 : isspace c = false) (h2 : c ≠ dquote)
    (h3 : punct c = none) : scan (c :: rest) = .invalid c := by
  simp [scan, List.dropWhile_cons, h1, h2, h3]

theorem nextToken_invalid (d : TokenDefaults) (p : Parser) (ws : List Char) (c : Char)
    (rest : List Char) (h : p.lexer.rest = ws ++ c :: rest)
    (hws : ∀ x ∈ ws, isspace x = true) (h1 : isspace c = false) (h2 : c ≠ dquote)
    (h3 : punct c = none) : p.nextToken d = .error (.exn (.invalidToken c)) := by
  have hs := nextToken_scan d p
  rw [h, scan_space ws _ hws, scan_invalid c rest h1 h2 h3] at hs
  exact hs

theorem scan_open_string (v : List Char) (hv : dquote ∉ v) : scan (dquote :: v) = .unterminated := by
  simp [scan, List.dropWhile_cons, dquote_not_space, (fromQuote_eq_nil_iff v).mpr hv]

theorem nextToken_open_string (d : TokenDefaults) (p : Parser) (ws v : List Char)
    (h : p.lexer.rest = ws ++ dquote :: v)
    (hws : ∀ x ∈ ws, isspace x = true) (hv : dquote ∉ v) :
    p.nextToken d = .error (.exn .unterminated) := by
  have hs := nextToken_scan d p
  rw [h, scan_space ws _ hws, scan_open_string v hv] at hs
  exact hs

end detail

/-! ## Claims on rejected inputs -/

theorem punct_types (c : Char) (t : TokenType) (h : punct c = some t) :
    t ≠ .STRING ∧ (t = .RBRACE → c = '}') ∧ (t = .LBRACE → c = '{') ∧ t ≠ .NONE := by
  unfold punct at h
  split_ifs at h with a1 a2 a3 a4 a5 a6 <;> (injection h with h; subst h; simp [*])

theorem parseFuel_succ (text : List Char) : parseFuel text = (3 * text.length + 2) + 1 := rfl

/-- C9 (refuted as stated): for `{a: "b"}` the parse does not fail with an
unexpected-token error expecting `<string>`. -/
theorem C9_counterexample :
    ¬ ∃ d l c a, parse d "\x7ba: \"b\"\x7d".toList =
      .error (.exn (.unexpected "<string>".toList l c a)) := by
  rintro ⟨d, l, c, a, h⟩
  have h2 : parse d "\x7ba: \"b\"\x7d".toList = .error (.exn (.invalidToken 'a')) :=
    parse_defaults_error ⟨0, 0⟩ d _ _ (by decide!) (by intro x l c h; cases h)
  rw [h2] at h
  cases h

/-- C9 (amended): let the first character after the opening brace that is not
white space be `c`, neither a quote nor `}`. When `c` is one of `{ [ ] : ,` the
parse fails with the unexpected-token error expecting `<string>` whose actual
token is `c`; when `c` starts no token (as the `a` of `{a: "b"}`) the lexer
fails first, with the invalid-token error for `c`. -/
theorem C9_first_member_token (d : TokenDefaults) (ws1 ws2 : List Char) (c : Char)
    (rest : List Char) (hws1 : ∀ x ∈ ws1, isspace x = true) (hws2 : ∀ x ∈ ws2, isspace x = true)
    (h1 : isspace c = false) (h2 : c ≠ dquote) (h3 : c ≠ '}') :
    (∀ t, punct c = some t → ∃ l p, parse d (ws1 ++ '{' :: (ws2 ++ c :: rest)) =
      .error (.exn (.unexpected "<string>".toList l p [c]))) ∧
    (punct c = none → parse d (ws1 ++ '{' :: (ws2 ++ c :: rest)) =
      .error (.exn (.invalidToken c))) ∧
    parse d "\x7ba: \"b\"\x7d".toList = .error (.exn (.invalidToken 'a')) := by
  obtain ⟨q1, n1, t1, _, _, r1⟩ := nextToken_punct d
    (Parser.new d (Lexer.new (ws1 ++ '{' :: (ws2 ++ c :: rest)))) ws1 '{' .LBRACE
    (ws2 ++ c :: rest) rfl hws1 rfl
  have hl : q1.currentToken.type ≠ .LBRACE ↔ False := by rw [t1]; simp
  refine ⟨?_, ?_, ?_⟩
  · intro t ht
    obtain ⟨q2, n2, t2, v2, _, _⟩ := nextToken_punct d q1 ws2 c t rest r1 hws2 ht
    obtain ⟨p1, p2, _, _⟩ := punct_types c t ht
    refine ⟨q2.currentToken.line, q2.currentToken.pos, ?_⟩
    have hb : ¬ q2.currentToken.type = .RBRACE := by rw [t2]; exact fun e => h3 (p2 e)
    have hs : q2.currentToken.type ≠ .STRING := by rw [t2]; exact p1
    unfold parse parseRun Parser.parse parseObject
    simp only [n1, hl, if_false, n2, if_neg hb, parseValueList, parseFuel_succ,
      parseValueListLoop_succ, if_pos hs, Parser.raiseError, v2]
  · intro hn
    have n2 := nextToken_invalid d q1 ws2 c rest r1 hws2 h1 h2 hn
    unfold parse parseRun Parser.parse parseObject
    simp only [n1, hl, if_false, n2]
  · exact parse_defaults_error ⟨0, 0⟩ d _ _ (by decide!) (by intro x l c h; cases h)

/-- Witness for C9: a comma right after the opening brace. -/
theorem C9_first_member_token_witness :
    ∃ l p, parse ⟨0, 0⟩ ([' '] ++ '{' :: (['\n'] ++ ',' :: ['x'])) =
      .error (.exn (.unexpected "<string>".toList l p [','])) :=
  (C9_first_member_token ⟨0, 0⟩ [' '] ['\n'] ',' ['x'] (by decide) (by decide) (by decide)
    (by decide) (by decide)).1 .COMMA rfl

/-- C12 (the code departs from the claim): for the text `{,` the parse fails
with the unexpected-token error at the comma and reports line 1, position 1,
although the comma is the second character of its line: `_pos` only counts
white space. -/
theorem C12_position_counts_only_spaces (d : TokenDefaults) :
    parse d "\x7b,".toList = .error (.exn (.unexpected "<string>".toList 1 1 [','])) :=
  parse_defaults_error ⟨0, 0⟩ d _ _ (by decide!) (by intro x l c h; cases h)

/-! ## Termination -/

theorem getToken_advances (d : TokenDefaults) (lx lx' : Lexer) (t : Token)
    (h : lx.getToken d = (.ok t, lx')) (hn : t.type ≠ .NONE) : lx._cursor + 1 ≤ lx'._cursor := by
  obtain ⟨i, text, l, p⟩ := lx
  rw [getToken_spec] at h
  cases hr : (text.drop i).dropWhile isspace with
  | nil =>
    rw [hr] at h
    injection h with h1 _
    injection h1 with h1
    rw [← h1] at hn
    exact absurd rfl hn
  | cons c cs =>
    rw [hr] at h
    simp only at h
    by_cases h1 : c = dquote
    · simp only [h1, if_true] at h
      cases hf : fromQuote cs with
      | nil => rw [hf] at h; injection h with h1 _; cases h1
      | cons q r =>
        rw [hf] at h
        injection h with _ h2
        rw [← h2]
        show i + 1 ≤ i + _ + 1 + _ + 1
        omega
    · simp only [h1, if_false] at h
      cases hp : punct c with
      | none => rw [hp] at h; injection h with h1 _; cases h1
      | some ty =>
        rw [hp] at h
        injection h with _ h2
        rw [← h2]
        show i + 1 ≤ i + _ + 1
        omega

/-- C17: `parse` always returns an Object or fails with a parse error; a
`getToken` call that returns a token other than NONE advances the cursor by at
least one character and shortens the unread text; and fuel of three units per
unit of `weight` (unread characters, plus one for a current token) is never
exhausted by any production, so the recursion and both loops are bounded by the
number of unread characters. -/
theorem C17_termination (d : TokenDefaults) :
    (∀ text : List Char, (∃ o, parse d text = .ok o) ∨ ∃ e, parse d text = .error (.exn e)) ∧
    (∀ (lx lx' : Lexer) (t : Token), lx.getToken d = (.ok t, lx') → t.type ≠ .NONE →
      lx._cursor + 1 ≤ lx'._cursor) ∧
    (∀ p q : Parser, p.nextToken d = .ok q → q.currentToken.type ≠ .NONE →
      q.lexer.rest.length < p.lexer.rest.length) ∧
    (∀ (f : Nat) (p : Parser), 3 * p.weight + 2 ≤ f → parseValue d f p ≠ .error .outOfFuel) ∧
    (∀ (f : Nat) (p : Parser), p.currentToken.type ≠ .NONE → 3 * p.weight + 1 ≤ f →
      parseArray d f p ≠ .error .outOfFuel) ∧
    (∀ (f : Nat) (p : Parser) (arr : Array), 3 * p.weight + 3 ≤ f →
      parseArrayLoop d f p arr ≠ .error .outOfFuel) ∧
    (∀ (f : Nat) (p : Parser) (obj : Object), 3 * p.weight + 3 ≤ f →
      parseValueListLoop d f p obj ≠ .error .outOfFuel) := by
  refine ⟨?_, getToken_advances d, ?_, fun f => (parse_fuel d f).1, fun f => (parse_fuel d f).2.1,
    fun f => (parse_fuel d f).2.2, fun f => parseValueListLoop_fuel d f⟩
  · intro text
    have ht := parse_total d text
    cases hp : parse d text with
    | ok o => exact Or.inl ⟨o, rfl⟩
    | error e =>
      cases e with
      | exn x => exact Or.inr ⟨x, rfl⟩
      | outOfFuel => exact absurd hp ht
  · intro p q h hn
    exact (nextToken_progress d p q h).2.1 hn

/-- Witness for C17: the first `getToken` call on `{}` moves the cursor from 0 to 1. -/
theorem C17_termination_witness :
    (Lexer.new ['{', '}'])._cursor + 1 ≤ (⟨1, ['{', '}'], 1, 1⟩ : Lexer)._cursor :=
  (C17_termination ⟨0, 0⟩).2.1 (Lexer.new ['{', '}']) ⟨1, ['{', '}'], 1, 1⟩ ⟨.LBRACE, ['{'], 1, 1⟩
    (getToken_punct ⟨0, 0⟩ 0 ['{', '}'] 1 1 [] '{' .LBRACE ['}'] rfl (by intro x hx; cases hx) rfl)
    (by decide)

namespace detail

/-! ## White space between tokens -/

theorem scan_cons_space (c : Char) (s : List Char) (h : isspace c = true) :
    scan (c :: s) = scan s :=
  scan_space [c] s (by intro x hx; rw [List.mem_singleton.mp hx]; exact h)

theorem scanRel_refl (s : List Char) : ScanRel (scan s) (scan s) := by
  cases scan s with
  | eof => exact ScanRel.eof
  | invalid c => exact ScanRel.invalid c
  | unterminated => exact ScanRel.unterminated
  | tok ty v r => exact ScanRel.tok ty v r r (WsEq.refl r)

theorem scan_wsEq (s t : List Char) (h : WsEq s t) : ScanRel (scan s) (scan t) := by
  induction h with
  | refl s => exact scanRel_refl s
  | left c s t hc _ ih => rw [scan_cons_space c s hc]; exact ih
  | right c s t hc _ ih => rw [scan_cons_space c t hc]; exact ih
  | punct c ty s t hc hst _ =>
    rw [scan_punct c ty s hc, scan_punct c ty t hc]
    exact ScanRel.tok ty [c] s t hst
  | string v s t hv hst _ =>
    rw [scan_string v s hv, scan_string v t hv]
    exact ScanRel.tok .STRING v s t hst

theorem nextToken_wsEq (d : TokenDefaults) (p p' : Parser)
    (h : WsEq p.lexer.rest p'.lexer.rest) :
    StepSim SameTokens SameErrorUpToPosition (p.nextToken d) (p'.nextToken d) := by
  have hs := scan_wsEq _ _ h
  have h1 := nextToken_scan d p
  have h2 := nextToken_scan d p'
  generalize scan p.lexer.rest = s1 at hs h1
  generalize scan p'.lexer.rest = s2 at hs h2
  cases hs with
  | eof =>
    obtain ⟨q, a1, a2, _, a4⟩ := h1
    obtain ⟨q', b1, b2, _, b4⟩ := h2
    rw [a1, b1]
    refine StepSim.ok _ _ ⟨by rw [a2, b2], by rw [a2, b2], ?_⟩
    rw [a4, b4]
    exact WsEq.refl _
  | invalid c =>
    simp only at h1 h2
    rw [h1, h2]
    exact StepSim.err _ _ (Or.inl rfl)
  | unterminated =>
    simp only at h1 h2
    rw [h1, h2]
    exact StepSim.err _ _ (Or.inl rfl)
  | tok ty v r r' hr =>
    obtain ⟨q, a1, a2, a3, _, a5⟩ := h1
    obtain ⟨q', b1, b2, b3, _, b5⟩ := h2
    rw [a1, b1]
    refine StepSim.ok _ _ ⟨by rw [a2, b2], by rw [a3, b3], ?_⟩
    rw [a5, b5]
    exact hr

theorem sim_wsEq (d : TokenDefaults) (s t : List Char) (h : WsEq s t) :
    Sim SameTokens SameErrorUpToPosition (parseRun d s) (parseRun d t) := by
  unfold parseRun Parser.parse
  apply sim_parseObject d d SameTokens SameErrorUpToPosition
  · intro p p' hp
    exact ⟨hp.1, hp.2.1⟩
  · intro p p' x hp
    unfold Parser.raiseError
    rw [hp.2.1]
    exact Or.inr ⟨x, _, _, _, _, _, rfl, rfl⟩
  · intro p p' hp
    exact nextToken_wsEq d p p' hp.2.2
  · exact nextToken_wsEq d _ _ h

end detail

/-- Two texts that differ in the white space between tokens parse alike: both
to the same Object, or both fail, with errors equal up to the position. -/
theorem parse_wsEq (d : TokenDefaults) (s t : List Char) (h : WsEq s t) :
    (∀ o, parse d s = .ok o → parse d t = .ok o) ∧
      (∀ e, parse d s = .error e → ∃ e', parse d t = .error e' ∧ SameErrorUpToPosition e e') := by
  have hs := sim_wsEq d s t h
  have h1 := parseRun_total d s
  have h2 := parseRun_total d t
  unfold parse
  generalize parseRun d s = r at hs h1
  generalize parseRun d t = r' at hs h2
  cases hs with
  | fuelL _ => exact absurd rfl h1
  | fuelR _ => exact absurd rfl h2
  | ok a q q' _ =>
    refine ⟨fun o ho => ho, fun e he => ?_⟩
    cases he
  | err e e' he =>
    refine ⟨fun o ho => ?_, fun e1 he1 => ?_⟩
    · cases ho
    · injection he1 with he1
      subst he1
      exact ⟨e', rfl, he⟩

/-- C13: two texts that differ only in white space (what `isspace` accepts,
which includes space, tab, newline and carriage return) before, between or
after tokens, never inside a string literal, either both parse, to the same
Object, or both fail with a parse error; the two errors then differ at most in
the position they report. -/
theorem C13_whitespace_insignificant (d : TokenDefaults) (s t : List Char) (h : WsEq s t) :
    ((∃ o, parse d s = .ok o ∧ parse d t = .ok o) ∨
      (∃ e e', parse d s = .error (.exn e) ∧ parse d t = .error (.exn e') ∧
        SameErrorUpToPosition (.exn e) (.exn e'))) ∧
    isspace ' ' = true ∧ isspace '\t' = true ∧ isspace '\n' = true ∧ isspace '\r' = true := by
  refine ⟨?_, by decide, by decide, by decide, by decide⟩
  obtain ⟨h1, h2⟩ := parse_wsEq d s t h
  have ht := parse_total d s
  cases hp : parse d s with
  | ok o => exact Or.inl ⟨o, rfl, h1 o hp⟩
  | error e =>
    obtain ⟨e', he', hr⟩ := h2 e hp
    cases e with
    | outOfFuel => exact absurd hp ht
    | exn x =>
      cases e' with
      | outOfFuel => exact absurd he' (parse_total d t)
      | exn x' => exact Or.inr ⟨x, x', rfl, he', hr⟩

/-- Witness for C13: `{}` and the same two tokens with a space before, a newline
between and a tab after them. -/
theorem C13_whitespace_insignificant_witness :
    (∃ o, parse ⟨0, 0⟩ ['{', '}'] = .ok o ∧ parse ⟨0, 0⟩ [' ', '{', '\n', '}', '\t'] = .ok o) ∨
      (∃ e e', parse ⟨0, 0⟩ ['{', '}'] = .error (.exn e) ∧
        parse ⟨0, 0⟩ [' ', '{', '\n', '}', '\t'] = .error (.exn e') ∧
        SameErrorUpToPosition (.exn e) (.exn e')) :=
  (C13_whitespace_insignificant ⟨0, 0⟩ ['{', '}'] [' ', '{', '\n', '}', '\t']
    (WsEq.right ' ' _ _ (by decide) (WsEq.punct '{' .LBRACE _ _ rfl
      (WsEq.right '\n' _ _ (by decide) (WsEq.punct '}' .RBRACE _ _ rfl
        (WsEq.right '\t' _ _ (by decide) (WsEq.refl []))))))).1

/-! ## Parsing the text of a value of the grammar -/

theorem not_mem_of_contains (s : List Char) (h : (!s.contains dquote) = true) : dquote ∉ s := by
  intro hm
  have : s.contains dquote = true := List.elem_eq_true_of_mem hm
  rw [this] at h
  cases h

theorem parseValue_zero (d : TokenDefaults) (p : Parser) :
    parseValue d 0 p = .error .outOfFuel := by
  rw [parseValue]

theorem parseArray_zero (d : TokenDefaults) (p : Parser) :
    parseArray d 0 p = .error .outOfFuel := by
  rw [parseArray]

theorem parseArrayLoop_zero (d : TokenDefaults) (p : Parser) (arr : Array) :
    parseArrayLoop d 0 p arr = .error .outOfFuel := by
  rw [parseArrayLoop]

mutual

/-- The parse of a value's text: the token fetched first is its first token,
and `parseValue` returns the value's node and leaves the lexer right after the
text, unless the fuel runs out. -/
theorem parseValue_render (d : TokenDefaults) :
    ∀ (v : JValue) (f : Nat) (p : Parser) (rest : List Char),
      p.lexer.rest = v.render ++ rest → v.quoteFree = true →
      ∃ p1, p.nextToken d = .ok p1 ∧
        (p1.currentToken.type = .STRING ∨ p1.currentToken.type = .LBRACKET) ∧
        (parseValue d f p1 = .error .outOfFuel ∨
          ∃ q, parseValue d f p1 = .ok (some v.toValue, q) ∧ q.lexer.rest = rest)
  | .str s, f, p, rest, h, hq => by
    have hs : dquote ∉ s := not_mem_of_contains s (by simpa [JValue.quoteFree] using hq)
    obtain ⟨q, n1, t1, v1, _, r1⟩ := nextToken_string d p [] s rest
      (by rw [h]; simp [JValue.render]) (by intro x hx; cases hx) hs
    refine ⟨q, n1, Or.inl t1, ?_⟩
    cases f with
    | zero => exact Or.inl (parseValue_zero d q)
    | succ f =>
      refine Or.inr ⟨q, ?_, r1⟩
      rw [parseValue_succ, if_pos t1, v1]
      rfl
  | .arr vs, f, p, rest, h, hq => by
    obtain ⟨p1, n1, t1, _, _, r1⟩ := nextToken_punct d p [] '[' .LBRACKET (vs.render ++ ']' :: rest)
      (by rw [h]; simp [JValue.render]) (by intro x hx; cases hx) rfl
    refine ⟨p1, n1, Or.inr t1, ?_⟩
    have hns : ¬ p1.currentToken.type = .STRING := by rw [t1]; decide
    cases f with
    | zero => exact Or.inl (parseValue_zero d p1)
    | succ f =>
      rw [parseValue_succ, if_neg hns, if_pos t1]
      cases f with
      | zero => left; rw [parseArray_zero]
      | succ f =>
        rw [parseArray_succ]
        match vs, hq, r1 with
        | .nil, _, r1 =>
          obtain ⟨p2, n2, t2, _, _, r2⟩ := nextToken_punct d p1 [] ']' .RBRACKET rest
            (by rw [r1]; simp [JValues.render]) (by intro x hx; cases hx) rfl
          right
          refine ⟨p2, ?_, r2⟩
          simp only [n2, if_pos t2]
          rfl
        | .cons v vs', hq, r1 =>
          have hq' : v.quoteFree = true ∧ vs'.quoteFree = true := by
            simpa [JValue.quoteFree, JValues.quoteFree] using hq
          obtain ⟨p2, n2, t2, hv⟩ := parseValue_render d v (f - 1) p1
            (vs'.renderTail ++ ']' :: rest) (by rw [r1]; simp [JValues.render]) hq'.1
          have hnb : ¬ p2.currentToken.type = .RBRACKET := by
            rcases t2 with t2 | t2 <;> rw [t2] <;> decide
          simp only [n2, if_neg hnb]
          cases f with
          | zero => left; rw [parseArrayLoop_zero]
          | succ f =>
            simp only [Nat.add_sub_cancel] at hv
            rcases hv with hv | ⟨q0, hv, r0⟩
            · left
              rw [parseArrayLoop_succ, hv]
            · rcases parseArrayLoop_render d vs' f p2 (some v.toValue) q0 Array.empty rest hv r0
                hq'.2 with hl | ⟨q, hl, tq, rq⟩
              · left; rw [hl]
              · right
                refine ⟨q, ?_, rq⟩
                rw [hl]
                simp only [tq, ne_eq, not_true_eq_false, if_false]
                rfl

/-- The rest of the array loop after an element: the remaining elements are
appended in order and the loop ends on the closing bracket. -/
theorem parseArrayLoop_render (d : TokenDefaults) :
    ∀ (vs : JValues) (f : Nat) (p1 : Parser) (v0 : Ptr) (q0 : Parser) (arr : Array)
      (rest : List Char),
      parseValue d f p1 = .ok (v0, q0) → q0.lexer.rest = vs.renderTail ++ ']' :: rest →
      vs.quoteFree = true →
      parseArrayLoop d (f + 1) p1 arr = .error .outOfFuel ∨
        ∃ q, parseArrayLoop d (f + 1) p1 arr = .ok (⟨arr._values ++ v0 :: vs.toPtrs⟩, q) ∧
          q.currentToken.type = .RBRACKET ∧ q.lexer.rest = rest
  | .nil, f, p1, v0, q0, arr, rest, hv, r0, _ => by
    obtain ⟨p2, n2, t2, _, _, r2⟩ := nextToken_punct d q0 [] ']' .RBRACKET rest
      (by rw [r0]; simp [JValues.renderTail]) (by intro x hx; cases hx) rfl
    have hnc : ¬ p2.currentToken.type = .COMMA := by rw [t2]; decide
    right
    refine ⟨p2, ?_, t2, r2⟩
    rw [parseArrayLoop_succ, hv]
    simp only [n2, if_neg hnc]
    rfl
  | .cons v vs, f, p1, v0, q0, arr, rest, hv, r0, hq => by
    have hq' : v.quoteFree = true ∧ vs.quoteFree = true := by
      simpa [JValues.quoteFree] using hq
    obtain ⟨p2, n2, t2, _, _, r2⟩ := nextToken_punct d q0 [] ',' .COMMA
      (v.render ++ (vs.renderTail ++ ']' :: rest))
      (by rw [r0]; simp [JValues.renderTail]) (by intro x hx; cases hx) rfl
    obtain ⟨p3, n3, _, hv3⟩ := parseValue_render d v (f - 1) p2
      (vs.renderTail ++ ']' :: rest) r2 hq'.1
    rw [parseArrayLoop_succ, hv]
    simp only [n2, if_pos t2, n3]
    cases f with
    | zero => rw [parseValue_zero] at hv; cases hv
    | succ f =>
      simp only [Nat.add_sub_cancel] at hv3
      rcases hv3 with hv3 | ⟨q1, hv3, r1⟩
      · left
        rw [parseArrayLoop_succ, hv3]
      · rcases parseArrayLoop_render d vs f p3 (some v.toValue) q1 (arr.addValue v0) rest hv3 r1
          hq'.2 with hl | ⟨q, hl, tq, rq⟩
        · left; exact hl
        · right
          refine ⟨q, ?_, tq, rq⟩
          rw [hl]
          simp [Array.addValue, JValues.toPtrs]

end

/-! ## Parsing the text of members -/

theorem parseValueListLoop_zero (d : TokenDefaults) (p : Parser) (obj : Object) :
    parseValueListLoop d 0 p obj = .error .outOfFuel := by
  rw [parseValueListLoop]

/-- One member: after the key, the loop reads the colon and the value and goes
on with the token after the value. -/
theorem parseValueListLoop_member (d : TokenDefaults) (f : Nat) (p : Parser) (obj : Object)
    (v : JValue) (rest : List Char) (ht : p.currentToken.type = .STRING)
    (hr : p.lexer.rest = ':' :: (v.render ++ rest)) (hq : v.quoteFree = true) :
    parseValueListLoop d (f + 1) p obj = .error .outOfFuel ∨
      ∃ q0 : Parser, q0.lexer.rest = rest ∧
        parseValueListLoop d (f + 1) p obj =
          memberTail d f q0 (obj.addValue p.currentToken.value (some v.toValue)) := by
  obtain ⟨p1, n1, t1, _, _, r1⟩ := nextToken_punct d p [] ':' .COLON (v.render ++ rest)
    hr (by intro x hx; cases hx) rfl
  obtain ⟨p2, n2, _, hv⟩ := parseValue_render d v f p1 rest r1 hq
  rw [parseValueListLoop_succ]
  simp only [ht, ne_eq, not_true_eq_false, if_false, n1, t1, n2]
  rcases hv with hv | ⟨q0, hv, r0⟩
  · left; rw [hv]
  · right
    refine ⟨q0, r0, ?_⟩
    rw [hv]
    rfl

theorem addMembers_cons (obj : Object) (m : List Char × JValue) (ms : List (List Char × JValue)) :
    addMembers obj (m :: ms) = addMembers (obj.addValue m.1 (some m.2.toValue)) ms := rfl

/-- A member list: the loop adds the members in order and ends in the tail of
the iteration for the last member, unless the fuel runs out. -/
theorem parseValueListLoop_members (d : TokenDefaults) :
    ∀ (ms : List (List Char × JValue)) (f : Nat) (p : Parser) (obj : Object) (v : JValue)
      (rest : List Char), p.currentToken.type = .STRING →
      p.lexer.rest = ':' :: (v.render ++ (renderMembersTail ms ++ rest)) →
      v.quoteFree = true → (∀ m ∈ ms, memberQuoteFree m = true) →
      parseValueListLoop d f p obj = .error .outOfFuel ∨
        ∃ (f' : Nat) (q0 : Parser), q0.lexer.rest = rest ∧
          parseValueListLoop d f p obj =
            memberTail d f' q0
              (addMembers (obj.addValue p.currentToken.value (some v.toValue)) ms) := by
  intro ms
  induction ms with
  | nil =>
    intro f p obj v rest ht hr hq _
    cases f with
    | zero => exact Or.inl (parseValueListLoop_zero d p obj)
    | succ f =>
      rcases parseValueListLoop_member d f p obj v rest ht
        (by rw [hr]; simp [renderMembersTail]) hq with h | ⟨q0, r0, h⟩
      · exact Or.inl h
      · exact Or.inr ⟨f, q0, r0, h⟩
  | cons m ms ih =>
    intro f p obj v rest ht hr hq hms
    cases f with
    | zero => exact Or.inl (parseValueListLoop_zero d p obj)
    | succ f =>
      have hm : memberQuoteFree m = true := hms m (List.mem_cons_self _ _)
      have hm' : dquote ∉ m.1 ∧ m.2.quoteFree = true := by
        unfold memberQuoteFree at hm
        rw [Bool.and_eq_true] at hm
        exact ⟨not_mem_of_contains m.1 hm.1, hm.2⟩
      rcases parseValueListLoop_member d f p obj v (renderMembersTail (m :: ms) ++ rest) ht hr hq
        with h | ⟨q0, r0, h⟩
      · exact Or.inl h
      · obtain ⟨p4, n4, t4, _, _, r4⟩ := nextToken_punct d q0 [] ',' .COMMA
          (renderMember m ++ (renderMembersTail ms ++ rest))
          (by rw [r0]; simp [renderMembersTail]) (by intro x hx; cases hx) rfl
        obtain ⟨p5, n5, t5, v5, _, r5⟩ := nextToken_string d p4 [] m.1
          (':' :: (m.2.render ++ (renderMembersTail ms ++ rest)))
          (by rw [r4]; simp [renderMember]) (by intro x hx; cases hx) hm'.1
        rw [h]
        unfold memberTail
        simp only [n4, if_pos t4, n5]
        rcases ih f p5 (obj.addValue p.currentToken.value (some v.toValue)) m.2 rest t5 r5 hm'.2
          (fun x hx => hms x (List.mem_cons_of_mem _ hx)) with h2 | ⟨f', q1, r1, h2⟩
        · exact Or.inl h2
        · refine Or.inr ⟨f', q1, r1, ?_⟩
          rw [h2, v5, addMembers_cons]
          rfl

theorem memberQuoteFree_iff (m : List Char × JValue) (h : memberQuoteFree m = true) :
    dquote ∉ m.1 ∧ m.2.quoteFree = true := by
  unfold memberQuoteFree at h
  rw [Bool.and_eq_true] at h
  exact ⟨not_mem_of_contains m.1 h.1, h.2⟩

/-- The parse of an object's text, whatever follows it: `parseObject` returns
the Object built from the members in order and stops on the closing brace. -/
theorem parseObject_render (d : TokenDefaults) (ms : List (List Char × JValue))
    (rest : List Char) (f : Nat) (p : Parser) (hr : p.lexer.rest = renderObject ms ++ rest)
    (hq : ∀ m ∈ ms, memberQuoteFree m = true) :
    parseObject d f p = .error .outOfFuel ∨
      ∃ q, parseObject d f p = .ok (addMembers Object.empty ms, q) ∧
        q.currentToken.type = .RBRACE ∧ q.lexer.rest = rest := by
  obtain ⟨p1, n1, t1, _, _, r1⟩ := nextToken_punct d p [] '{' .LBRACE
    (renderMembers ms ++ '}' :: rest) (by rw [hr]; simp [renderObject])
    (by intro x hx; cases hx) rfl
  have hl : ¬ p1.currentToken.type ≠ .LBRACE := by rw [t1]; simp
  unfold parseObject
  simp only [n1, if_neg hl]
  cases ms with
  | nil =>
    obtain ⟨p2, n2, t2, _, _, r2⟩ := nextToken_punct d p1 [] '}' .RBRACE rest
      (by rw [r1]; simp [renderMembers]) (by intro x hx; cases hx) rfl
    right
    refine ⟨p2, ?_, t2, r2⟩
    simp only [n2, if_pos t2]
    rfl
  | cons m ms =>
    obtain ⟨hk, hv⟩ := memberQuoteFree_iff m (hq m (List.mem_cons_self _ _))
    obtain ⟨p2, n2, t2, v2, _, r2⟩ := nextToken_string d p1 [] m.1
      (':' :: (m.2.render ++ (renderMembersTail ms ++ '}' :: rest)))
      (by rw [r1]; simp [renderMembers, renderMember]) (by intro x hx; cases hx) hk
    have hb : ¬ p2.currentToken.type = .RBRACE := by rw [t2]; decide
    simp only [n2, if_neg hb, parseValueList]
    rcases parseValueListLoop_members d ms f p2 Object.empty m.2 ('}' :: rest) t2 r2 hv
      (fun x hx => hq x (List.mem_cons_of_mem _ hx)) with h | ⟨f', q0, r0, h⟩
    · left; rw [h]
    · obtain ⟨p4, n4, t4, _, _, r4⟩ := nextToken_punct d q0 [] '}' .RBRACE rest r0
        (by intro x hx; cases hx) rfl
      have hc : ¬ p4.currentToken.type = .COMMA := by rw [t4]; decide
      right
      refine ⟨p4, ?_, t4, r4⟩
      rw [h]
      unfold memberTail
      simp only [n4, if_neg hc, v2]
      simp [t4, addMembers_cons]

/-- The parse of an object's text with a comma before the closing brace: the
member loop finds `}` where a key must follow. -/
theorem parseObject_trailing_comma (d : TokenDefaults) (m : List Char × JValue)
    (ms : List (List Char × JValue)) (rest : List Char) (f : Nat) (p : Parser)
    (hr : p.lexer.rest = '{' :: (renderMembers (m :: ms) ++ ',' :: '}' :: rest))
    (hq : ∀ x ∈ m :: ms, memberQuoteFree x = true) :
    parseObject d f p = .error .outOfFuel ∨
      ∃ l c, parseObject d f p = .error (.exn (.unexpected "<string>".toList l c ['}'])) := by
  obtain ⟨p1, n1, t1, _, _, r1⟩ := nextToken_punct d p [] '{' .LBRACE
    (renderMembers (m :: ms) ++ ',' :: '}' :: rest) hr (by intro x hx; cases hx) rfl
  have hl : ¬ p1.currentToken.type ≠ .LBRACE := by rw [t1]; simp
  unfold parseObject
  simp only [n1, if_neg hl]
  obtain ⟨hk, hv⟩ := memberQuoteFree_iff m (hq m (List.mem_cons_self _ _))
  obtain ⟨p2, n2, t2, v2, _, r2⟩ := nextToken_string d p1 [] m.1
    (':' :: (m.2.render ++ (renderMembersTail ms ++ ',' :: '}' :: rest)))
    (by rw [r1]; simp [renderMembers, renderMember]) (by intro x hx; cases hx) hk
  have hb : ¬ p2.currentToken.type = .RBRACE := by rw [t2]; decide
  simp only [n2, if_neg hb, parseValueList]
  rcases parseValueListLoop_members d ms f p2 Object.empty m.2 (',' :: '}' :: rest) t2 r2 hv
    (fun x hx => hq x (List.mem_cons_of_mem _ hx)) with h | ⟨f', q0, r0, h⟩
  · left; rw [h]
  · obtain ⟨p4, n4, t4, _, _, r4⟩ := nextToken_punct d q0 [] ',' .COMMA ('}' :: rest) r0
      (by intro x hx; cases hx) rfl
    obtain ⟨p5, n5, t5, v5, _, _⟩ := nextToken_punct d p4 [] '}' .RBRACE rest r4
      (by intro x hx; cases hx) rfl
    have hs : p5.currentToken.type ≠ .STRING := by rw [t5]; decide
    rw [h]
    unfold memberTail
    simp only [n4, if_pos t4, n5]
    cases f' with
    | zero => left; rw [parseValueListLoop_zero]
    | succ f' =>
      right
      refine ⟨p5.currentToken.line, p5.currentToken.pos, ?_⟩
      rw [parseValueListLoop_succ, if_pos hs]
      simp only [Parser.raiseError, v5]

/-- The parse of the text of an object, whatever follows it. -/
theorem parse_renderObject (d : TokenDefaults) (ms : List (List Char × JValue))
    (rest : List Char) (hq : ∀ m ∈ ms, memberQuoteFree m = true) :
    ∃ q, parseRun d (renderObject ms ++ rest) = .ok (addMembers Object.empty ms, q) ∧
      q.currentToken.type = .RBRACE ∧ q.lexer.rest = rest := by
  have ht := parseRun_total d (renderObject ms ++ rest)
  unfold parseRun Parser.parse at ht ⊢
  rcases parseObject_render d ms rest (parseFuel (renderObject ms ++ rest))
    (Parser.new d (Lexer.new (renderObject ms ++ rest))) rfl hq with h | h
  · exact absurd h ht
  · exact h

theorem parse_of_parseRun (d : TokenDefaults) (text : List Char) (o : Object) (q : Parser)
    (h : parseRun d text = .ok (o, q)) : parse d text = .ok o := by
  unfold parse
  rw [h]

/-! ## Lookup in an Object built from members -/

theorem mapFind_emplace (m : List (List Char × Ptr)) (k n : List Char) (v : Ptr) :
    mapFind (mapEmplace m k v) n =
      match mapFind m n with
      | some w => some w
      | none => if k = n then some v else none := by
  unfold mapEmplace
  cases hk : mapFind m k with
  | none => exact mapFind_append m k n v
  | some w0 =>
    cases hn : mapFind m n with
    | some w => rfl
    | none =>
      by_cases e : k = n
      · rw [e, hn] at hk; cases hk
      · simp [e]

theorem mapFind_addMembers (ms : List (List Char × JValue)) :
    ∀ (obj : Object) (n : List Char),
      mapFind (addMembers obj ms)._values n =
        match mapFind obj._values n with
        | some w => some w
        | none => (ms.find? (fun m => decide (m.1 = n))).map (fun m => some m.2.toValue) := by
  induction ms with
  | nil =>
    intro obj n
    show mapFind obj._values n = _
    cases hn : mapFind obj._values n <;> rfl
  | cons m ms ih =>
    intro obj n
    rw [addMembers_cons, ih]
    unfold Object.addValue
    simp only [mapFind_emplace]
    cases hn : mapFind obj._values n with
    | some w => rfl
    | none =>
      by_cases e : m.1 = n
      · simp [e, List.find?_cons]
      · simp [e, List.find?_cons]

theorem find_of_nodup (ms : List (List Char × JValue)) (hk : (ms.map Prod.fst).Nodup)
    (m : List Char × JValue) (hm : m ∈ ms) :
    ms.find? (fun x => decide (x.1 = m.1)) = some m := by
  induction ms with
  | nil => cases hm
  | cons a ms ih =>
    rw [List.map_cons, List.nodup_cons] at hk
    rcases List.mem_cons.mp hm with e | hm'
    · subst e
      simp [List.find?_cons]
    · have hne : a.1 ≠ m.1 := by
        intro e
        exact hk.1 (e ▸ List.mem_map_of_mem Prod.fst hm')
      simp [List.find?_cons, hne, ih hk.2 hm']

theorem getValue_addMembers (ms : List (List Char × JValue)) (hk : (ms.map Prod.fst).Nodup) :
    (∀ m ∈ ms, ((addMembers Object.empty ms).getValue m.1).1 = some m.2.toValue) ∧
      ∀ n, n ∉ ms.map Prod.fst → ((addMembers Object.empty ms).getValue n).1 = none := by
  constructor
  · intro m hm
    rw [getValue_fst, mapFind_addMembers]
    simp [Object.empty, mapFind, find_of_nodup ms hk m hm]
  · intro n hn
    rw [getValue_fst, mapFind_addMembers]
    have : ms.find? (fun m => decide (m.1 = n)) = none := by
      rw [List.find?_eq_none]
      intro x hx
      have : x.1 ≠ n := fun e => hn (e ▸ List.mem_map_of_mem Prod.fst hx)
      simp [this]
    simp [Object.empty, mapFind, this]

/-! ## Claims on accepted and rejected texts of the grammar -/

/-- C1: for members with pairwise distinct keys, whose values are strings and
nested arrays, with no quote in a key or a string, the parse of the object's
text succeeds; the Object is the one built by `addValue` from the members in
order; it maps every key to the node of its value (an Array node holds the
nodes of its elements in source order, by `JValue.toValue`), and `getValue` of
any other name is null. -/
theorem C1_round_trip (d : TokenDefaults) (ms : List (List Char × JValue))
    (hk : (ms.map Prod.fst).Nodup) (hq : ∀ m ∈ ms, memberQuoteFree m = true) :
    ∃ obj, parse d (renderObject ms) = .ok obj ∧
      obj = addMembers Object.empty ms ∧
      (∀ m ∈ ms, (obj.getValue m.1).1 = some m.2.toValue) ∧
      (∀ n, n ∉ ms.map Prod.fst → (obj.getValue n).1 = none) := by
  obtain ⟨q, h, _, _⟩ := parse_renderObject d ms [] hq
  rw [List.append_nil] at h
  exact ⟨_, parse_of_parseRun d _ _ q h, rfl, getValue_addMembers ms hk⟩

/-- Witness for C1: the text `{"a":["x",[]],"b":"y"}`. -/
theorem C1_round_trip_witness :
    ∃ obj, parse ⟨0, 0⟩ "\x7b\"a\":[\"x\",[]],\"b\":\"y\"\x7d".toList = .ok obj ∧
      obj = addMembers Object.empty
        [(['a'], .arr (.cons (.str ['x']) (.cons (.arr .nil) .nil))), (['b'], .str ['y'])] ∧
      (∀ m ∈ [((['a'] : List Char), JValue.arr (.cons (.str ['x']) (.cons (.arr .nil) .nil))),
          (['b'], .str ['y'])], (obj.getValue m.1).1 = some m.2.toValue) ∧
      (∀ n, n ∉ [((['a'] : List Char), JValue.arr (.cons (.str ['x']) (.cons (.arr .nil) .nil))),
          (['b'], .str ['y'])].map Prod.fst → (obj.getValue n).1 = none) :=
  C1_round_trip ⟨0, 0⟩
    [(['a'], .arr (.cons (.str ['x']) (.cons (.arr .nil) .nil))), (['b'], .str ['y'])]
    (by decide) (by decide)

/-- C10: an object text with one or more members and a comma before the closing
brace fails with the unexpected-token error expecting `<string>` whose actual
token is `}`; no Object is returned. -/
theorem C10_trailing_comma (d : TokenDefaults) (m : List Char × JValue)
    (ms : List (List Char × JValue)) (hq : ∀ x ∈ m :: ms, memberQuoteFree x = true) :
    ∃ l c, parse d ('{' :: (renderMembers (m :: ms) ++ [',', '}'])) =
      .error (.exn (.unexpected "<string>".toList l c ['}'])) := by
  have ht := parseRun_total d ('{' :: (renderMembers (m :: ms) ++ [',', '}']))
  unfold parse
  unfold parseRun Parser.parse at ht ⊢
  rcases parseObject_trailing_comma d m ms [] _
    (Parser.new d (Lexer.new ('{' :: (renderMembers (m :: ms) ++ [',', '}'])))) rfl hq
    with h | ⟨l, c, h⟩
  · exact absurd h ht
  · exact ⟨l, c, by rw [h]⟩

/-- Witness for C10: the text `{"a":"b",}`. -/
theorem C10_trailing_comma_witness :
    ∃ l c, parse ⟨0, 0⟩ "\x7b\"a\":\"b\",\x7d".toList =
      .error (.exn (.unexpected "<string>".toList l c ['}'])) :=
  C10_trailing_comma ⟨0, 0⟩ (['a'], .str ['b']) [] (by decide)

theorem wsEq_spaces_right (ws s t : List Char) (hws : ∀ c ∈ ws, isspace c = true)
    (h : WsEq s t) : WsEq s (ws ++ t) := by
  induction ws with
  | nil => exact h
  | cons c ws ih =>
    exact WsEq.right c _ _ (hws c (List.mem_cons_self _ _))
      (ih (fun x hx => hws x (List.mem_cons_of_mem _ hx)))

theorem wsEq_string_append (v s t : List Char) (hv : dquote ∉ v) (h : WsEq s t) :
    WsEq (dquote :: (v ++ dquote :: s)) (dquote :: (v ++ dquote :: t)) :=
  WsEq.string v s t hv h

/-- C7: `{}` with any white space before, between or after the braces parses to
an Object in which `getValue` is null for every name; and for a key `k` without
a quote, `{"k": []}` parses to an Object whose value under `k` is an Array of
size 0. -/
theorem C7_empty_collections (d : TokenDefaults) (ws1 ws2 ws3 k : List Char)
    (h1 : ∀ c ∈ ws1, isspace c = true) (h2 : ∀ c ∈ ws2, isspace c = true)
    (h3 : ∀ c ∈ ws3, isspace c = true) (hk : dquote ∉ k) :
    (∃ obj, parse d (ws1 ++ '{' :: (ws2 ++ '}' :: ws3)) = .ok obj ∧
      ∀ n, (obj.getValue n).1 = none) ∧
    (∃ obj, parse d ('{' :: dquote :: (k ++ [dquote, ':', ' ', '[', ']', '}'])) = .ok obj ∧
      ∃ a : Array, (obj.getValue k).1 = some a.toValue ∧ a.size = 0) := by
  constructor
  · obtain ⟨q, h, _, _⟩ := parse_renderObject d [] [] (by intro m hm; cases hm)
    have hp := parse_of_parseRun d _ _ q h
    have hw : WsEq (renderObject [] ++ []) (ws1 ++ '{' :: (ws2 ++ '}' :: ws3)) :=
      wsEq_spaces_right ws1 _ _ h1 (WsEq.punct '{' .LBRACE _ _ rfl
        (wsEq_spaces_right ws2 _ _ h2 (WsEq.punct '}' .RBRACE _ _ rfl
          (by
            have := wsEq_spaces_right ws3 [] [] h3 (WsEq.refl [])
            rw [List.append_nil] at this
            exact this))))
    refine ⟨_, (parse_wsEq d _ _ hw).1 _ hp, ?_⟩
    intro n
    rfl
  · have hq : ∀ m ∈ [(k, JValue.arr .nil)], memberQuoteFree m = true := by
      intro m hm
      rw [List.mem_singleton.mp hm]
      simp [memberQuoteFree, JValue.quoteFree, JValues.quoteFree, List.elem_eq_mem, hk]
    obtain ⟨q, h, _, _⟩ := parse_renderObject d [(k, .arr .nil)] [] hq
    have hp := parse_of_parseRun d _ _ q h
    have hw : WsEq (renderObject [(k, .arr .nil)] ++ [])
        ('{' :: dquote :: (k ++ [dquote, ':', ' ', '[', ']', '}'])) := by
      have e : renderObject [(k, .arr .nil)] ++ [] =
          '{' :: dquote :: (k ++ dquote :: [':', '[', ']', '}']) := by
        simp [renderObject, renderMembers, renderMember, renderMembersTail, JValue.render,
          JValues.render]
      rw [e]
      exact WsEq.punct '{' .LBRACE _ _ rfl (WsEq.string k _ _ hk
        (WsEq.punct ':' .COLON _ _ rfl (WsEq.right ' ' _ _ (by decide) (WsEq.refl _))))
    refine ⟨_, (parse_wsEq d _ _ hw).1 _ hp, Array.empty, ?_, rfl⟩
    have hg := (getValue_addMembers [(k, JValue.arr .nil)] (by simp)).1 (k, .arr .nil)
      (List.mem_singleton.mpr rfl)
    rw [hg]
    rfl

/-- Witness for C7: `{ }` followed by a newline, and `{"k": []}`. -/
theorem C7_empty_collections_witness :
    (∃ obj, parse ⟨0, 0⟩ ([] ++ '{' :: ([' '] ++ '}' :: ['\n'])) = .ok obj ∧
      ∀ n, (obj.getValue n).1 = none) ∧
    (∃ obj, parse ⟨0, 0⟩ ('{' :: dquote :: (['k'] ++ [dquote, ':', ' ', '[', ']', '}'])) = .ok obj ∧
      ∃ a : Array, (obj.getValue ['k']).1 = some a.toValue ∧ a.size = 0) :=
  C7_empty_collections ⟨0, 0⟩ [] [' '] ['\n'] ['k'] (by decide) (by decide) (by decide)
    (by decide)

/-- C15: for `s` without a quote, lexing quote, `s`, quote yields the STRING
token with value exactly `s` and leaves the cursor just past the closing
quote; and for a key `k` without a quote the parse of `{"k": "s"}` returns an
Object whose value under `k` is the String with `getValue()` exactly `s`. -/
theorem C15_string_verbatim (d : TokenDefaults) (k s rest : List Char) (hs : dquote ∉ s)
    (hk : dquote ∉ k) :
    (Lexer.new (dquote :: (s ++ dquote :: rest))).getToken d =
        (.ok ⟨.STRING, s, 1, 1⟩, ⟨s.length + 2, dquote :: (s ++ dquote :: rest), 1, 1⟩) ∧
    (∃ obj, parse d ('{' :: dquote :: (k ++ dquote :: ':' :: ' ' :: dquote :: (s ++ [dquote, '}'])))
        = .ok obj ∧
      ∃ str : String, (obj.getValue k).1 = some str.toValue ∧ str.getValue = s) := by
  constructor
  · have h2 := getToken_string d 0 (dquote :: (s ++ dquote :: rest)) 1 1 [] s rest rfl
      (by intro c hc; cases hc) hs
    rw [show Lexer.new (dquote :: (s ++ dquote :: rest)) =
      ⟨0, dquote :: (s ++ dquote :: rest), 1, 1⟩ from rfl, h2]
    simp [linePos]
    omega
  · have hq : ∀ m ∈ [(k, JValue.str s)], memberQuoteFree m = true := by
      intro m hm
      rw [List.mem_singleton.mp hm]
      simp [memberQuoteFree, JValue.quoteFree, List.elem_eq_mem, hk, hs]
    obtain ⟨q, h, _, _⟩ := parse_renderObject d [(k, .str s)] [] hq
    have hp := parse_of_parseRun d _ _ q h
    have hw : WsEq (renderObject [(k, .str s)] ++ [])
        ('{' :: dquote :: (k ++ dquote :: ':' :: ' ' :: dquote :: (s ++ [dquote, '}']))) := by
      have e : renderObject [(k, .str s)] ++ [] =
          '{' :: dquote :: (k ++ dquote :: ':' :: dquote :: (s ++ [dquote, '}'])) := by
        simp [renderObject, renderMembers, renderMember, renderMembersTail, JValue.render]
      rw [e]
      exact WsEq.punct '{' .LBRACE _ _ rfl (WsEq.string k _ _ hk
        (WsEq.punct ':' .COLON _ _ rfl (WsEq.right ' ' _ _ (by decide) (WsEq.refl _))))
    refine ⟨_, (parse_wsEq d _ _ hw).1 _ hp, ⟨s⟩, ?_, rfl⟩
    have hg := (getValue_addMembers [(k, JValue.str s)] (by simp)).1 (k, .str s)
      (List.mem_singleton.mpr rfl)
    rw [hg]
    rfl

/-- Witness for C15: the payload holds a backslash, a newline and structural characters. -/
theorem C15_string_verbatim_witness :
    (Lexer.new (dquote :: (['\\', 'n', '\n', '{', ','] ++ dquote :: []))).getToken ⟨0, 0⟩ =
      (.ok ⟨.STRING, ['\\', 'n', '\n', '{', ','], 1, 1⟩,
        ⟨['\\', 'n', '\n', '{', ','].length + 2,
          dquote :: (['\\', 'n', '\n', '{', ','] ++ dquote :: []), 1, 1⟩) :=
  (C15_string_verbatim ⟨0, 0⟩ ['k'] ['\\', 'n', '\n', '{', ','] [] (by decide) (by decide)).1

/-! ## The tokens a production reads -/

theorem lexN_append (d : TokenDefaults) (n : Nat) :
    ∀ (m : Nat) (lx lx1 lx2 : Lexer) (ts us : List Token),
      lexN d n lx = .ok (ts, lx1) → lexN d m lx1 = .ok (us, lx2) →
      lexN d (n + m) lx = .ok (ts ++ us, lx2) := by
  induction n with
  | zero =>
    intro m lx lx1 lx2 ts us h1 h2
    rw [lexN] at h1
    injection h1 with h1
    injection h1 with a b
    subst a b
    simpa using h2
  | succ n ih =>
    intro m lx lx1 lx2 ts us h1 h2
    rw [lexN] at h1
    rw [show n + 1 + m = (n + m) + 1 by omega, lexN]
    cases hg : lx.getToken d with
    | mk r lx' =>
      rw [hg] at h1
      cases r with
      | error e => cases h1
      | ok t =>
        simp only at h1 ⊢
        cases hl : lexN d n lx' with
        | error e => rw [hl] at h1; cases h1
        | ok r2 =>
          obtain ⟨ts', lx''⟩ := r2
          rw [hl] at h1
          injection h1 with h1
          injection h1 with a b
          subst a b
          rw [ih m lx' lx'' lx2 ts' us hl h2]
          rfl

theorem reads_refl (d : TokenDefaults) (p : Parser) : Reads d p p [] :=
  ⟨⟨0, rfl⟩, rfl⟩

theorem reads_step (d : TokenDefaults) (p q : Parser) (h : p.nextToken d = .ok q) :
    Reads d p q [q.currentToken] := by
  unfold Parser.nextToken at h
  refine ⟨⟨1, ?_⟩, rfl⟩
  rw [lexN]
  cases hg : p.lexer.getToken d with
  | mk r lx' =>
    rw [hg] at h
    cases r with
    | error e => cases h
    | ok t =>
      injection h with h
      subst h
      rfl

theorem reads_trans (d : TokenDefaults) (p q r : Parser) (ts us : List Token)
    (h1 : Reads d p q ts) (h2 : Reads d q r us) : Reads d p r (ts ++ us) := by
  obtain ⟨⟨n, a1⟩, a2⟩ := h1
  obtain ⟨⟨m, b1⟩, b2⟩ := h2
  refine ⟨⟨n + m, lexN_append d n m _ _ _ _ _ a1 b1⟩, ?_⟩
  cases us with
  | nil =>
    simp only [List.getLast?_singleton, Option.some.injEq] at b2
    rw [List.append_nil, ← b2]
    exact a2
  | cons u us =>
    rw [← List.cons_append, List.getLast?_append_of_ne_nil _ (by simp)]
    rw [List.getLast?_cons_cons] at b2
    exact b2

theorem reads_snoc (d : TokenDefaults) (p q r : Parser) (ts : List Token)
    (h1 : Reads d p q ts) (h2 : q.nextToken d = .ok r) : Reads d p r (ts ++ [r.currentToken]) :=
  reads_trans d p q r ts _ h1 (reads_step d q r h2)

/-- The tokens a successful production has read spell the production. -/
theorem track_parse (d : TokenDefaults) (f : Nat) :
    (∀ p v q, parseValue d f p = .ok (v, q) →
      ∃ ts, Reads d p q ts ∧ GValue ((p.currentToken :: ts).map Token.type)) ∧
    (∀ p a q, parseArray d f p = .ok (a, q) → p.currentToken.type = .LBRACKET →
      ∃ ts, Reads d p q ts ∧ GArray ((p.currentToken :: ts).map Token.type)) ∧
    (∀ p arr a q, parseArrayLoop d f p arr = .ok (a, q) →
      ∃ ts us, Reads d p q ts ∧
        (p.currentToken :: ts).map Token.type = us ++ [q.currentToken.type] ∧ GValues us) := by
  induction f with
  | zero =>
    refine ⟨?_, ?_, ?_⟩
    · intro p v q h; rw [parseValue] at h; cases h
    · intro p a q h; rw [parseArray] at h; cases h
    · intro p arr a q h; rw [parseArrayLoop] at h; cases h
  | succ f ih =>
    obtain ⟨ihV, ihA, ihL⟩ := ih
    refine ⟨?_, ?_, ?_⟩
    · intro p v q h
      rw [parseValue_succ] at h
      by_cases h1 : p.currentToken.type = .STRING
      · rw [if_pos h1] at h
        injection h with h
        injection h with _ hq
        subst hq
        refine ⟨[], reads_refl d p, ?_⟩
        simp only [List.map_cons, List.map_nil, h1]
        exact GValue.string
      · rw [if_neg h1] at h
        by_cases h2 : p.currentToken.type = .LBRACKET
        · rw [if_pos h2] at h
          cases ha : parseArray d f p with
          | error e => rw [ha] at h; cases h
          | ok r =>
            obtain ⟨arr, p'⟩ := r
            rw [ha] at h
            injection h with h
            injection h with _ hq
            subst hq
            obtain ⟨ts, a1, a2⟩ := ihA p arr p' ha h2
            exact ⟨ts, a1, GValue.array _ a2⟩
        · rw [if_neg h2] at h; cases h
    · intro p a q h hb
      rw [parseArray_succ] at h
      cases hn : p.nextToken d with
      | error e => rw [hn] at h; cases h
      | ok p1 =>
        rw [hn] at h
        simp only at h
        by_cases h1 : p1.currentToken.type = .RBRACKET
        · rw [if_pos h1] at h
          injection h with h
          injection h with _ hq
          subst hq
          refine ⟨[p1.currentToken], reads_step d p p1 hn, ?_⟩
          simp only [List.map_cons, List.map_nil, hb, h1]
          exact GArray.empty
        · rw [if_neg h1] at h
          cases hl : parseArrayLoop d f p1 Array.empty with
          | error e => rw [hl] at h; cases h
          | ok r =>
            obtain ⟨arr, p2⟩ := r
            rw [hl] at h
            simp only at h
            by_cases h2 : p2.currentToken.type ≠ .RBRACKET
            · rw [if_pos h2] at h; cases h
            · rw [if_neg h2] at h
              injection h with h
              injection h with _ hq
              subst hq
              obtain ⟨ts, us, a1, a2, a3⟩ := ihL p1 _ arr p2 hl
              refine ⟨[p1.currentToken] ++ ts, reads_trans d p p1 p2 _ _ (reads_step d p p1 hn) a1,
                ?_⟩
              have e : (p.currentToken :: ([p1.currentToken] ++ ts)).map Token.type =
                  .LBRACKET :: (us ++ [.RBRACKET]) := by
                rw [List.map_cons, hb, List.singleton_append, a2, not_not.mp h2]
              rw [e]
              exact GArray.values us a3
    · intro p arr a q h
      rw [parseArrayLoop_succ] at h
      cases hv : parseValue d f p with
      | error e => rw [hv] at h; cases h
      | ok r =>
        obtain ⟨v, p1⟩ := r
        rw [hv] at h
        simp only at h
        obtain ⟨ts1, a1, a2⟩ := ihV p v p1 hv
        cases hn : p1.nextToken d with
        | error e => rw [hn] at h; cases h
        | ok p2 =>
          rw [hn] at h
          simp only at h
          by_cases h1 : p2.currentToken.type = .COMMA
          · rw [if_pos h1] at h
            cases hn3 : p2.nextToken d with
            | error e => rw [hn3] at h; cases h
            | ok p3 =>
              rw [hn3] at h
              simp only at h
              obtain ⟨ts3, us3, b1, b2, b3⟩ := ihL p3 _ a q h
              refine ⟨(ts1 ++ [p2.currentToken]) ++ ([p3.currentToken] ++ ts3),
                (p.currentToken :: ts1).map Token.type ++ .COMMA :: us3,
                reads_trans d p p2 q _ _ (reads_snoc d p p1 p2 ts1 a1 hn)
                  (reads_trans d p2 p3 q _ _ (reads_step d p2 p3 hn3) b1), ?_,
                GValues.more _ _ a2 b3⟩
              have e : (p.currentToken :: ((ts1 ++ [p2.currentToken]) ++ ([p3.currentToken] ++ ts3))).map
                  Token.type = (p.currentToken :: ts1).map Token.type ++
                    p2.currentToken.type :: (p3.currentToken :: ts3).map Token.type := by
                simp
              rw [e, b2, h1]
              simp
          · rw [if_neg h1] at h
            injection h with h
            injection h with _ hq
            subst hq
            refine ⟨ts1 ++ [p2.currentToken], (p.currentToken :: ts1).map Token.type,
              reads_snoc d p p1 p2 ts1 a1 hn, ?_, GValues.one _ a2⟩
            simp

theorem track_parseValueListLoop (d : TokenDefaults) (f : Nat) :
    ∀ p obj o q, parseValueListLoop d f p obj = .ok (o, q) →
      ∃ ts us, Reads d p q ts ∧
        (p.currentToken :: ts).map Token.type = us ++ [q.currentToken.type] ∧ GMembers us := by
  induction f with
  | zero => intro p obj o q h; rw [parseValueListLoop] at h; cases h
  | succ f ih =>
    intro p obj o q h
    rw [parseValueListLoop_succ] at h
    by_cases h0 : p.currentToken.type ≠ .STRING
    · rw [if_pos h0] at h; cases h
    · rw [if_neg h0] at h
      have h0' := not_not.mp h0
      cases hn1 : p.nextToken d with
      | error e => rw [hn1] at h; cases h
      | ok p1 =>
        rw [hn1] at h
        simp only at h
        by_cases h1 : p1.currentToken.type ≠ .COLON
        · rw [if_pos h1] at h; cases h
        · rw [if_neg h1] at h
          have h1' := not_not.mp h1
          cases hn2 : p1.nextToken d with
          | error e => rw [hn2] at h; cases h
          | ok p2 =>
            rw [hn2] at h
            simp only at h
            cases hv : parseValue d f p2 with
            | error e => rw [hv] at h; cases h
            | ok r =>
              obtain ⟨v, p3⟩ := r
              rw [hv] at h
              simp only at h
              obtain ⟨ts3, a1, a2⟩ := (track_parse d f).1 p2 v p3 hv
              have r3 : Reads d p p3 (([p1.currentToken] ++ [p2.currentToken]) ++ ts3) :=
                reads_trans d p p2 p3 _ _
                  (reads_trans d p p1 p2 _ _ (reads_step d p p1 hn1) (reads_step d p1 p2 hn2)) a1
              cases hn4 : p3.nextToken d with
              | error e => rw [hn4] at h; cases h
              | ok p4 =>
                rw [hn4] at h
                simp only at h
                by_cases h4 : p4.currentToken.type = .COMMA
                · rw [if_pos h4] at h
                  cases hn5 : p4.nextToken d with
                  | error e => rw [hn5] at h; cases h
                  | ok p5 =>
                    rw [hn5] at h
                    simp only at h
                    obtain ⟨ts5, us5, b1, b2, b3⟩ := ih p5 _ o q h
                    refine ⟨((([p1.currentToken] ++ [p2.currentToken]) ++ ts3) ++
                        [p4.currentToken]) ++ ([p5.currentToken] ++ ts5),
                      .STRING :: .COLON :: ((p2.currentToken :: ts3).map Token.type ++
                        .COMMA :: us5),
                      reads_trans d p p4 q _ _ (reads_snoc d p p3 p4 _ r3 hn4)
                        (reads_trans d p4 p5 q _ _ (reads_step d p4 p5 hn5) b1), ?_,
                      GMembers.more _ _ a2 b3⟩
                    have e : (p.currentToken :: (((([p1.currentToken] ++ [p2.currentToken]) ++ ts3) ++
                        [p4.currentToken]) ++ ([p5.currentToken] ++ ts5))).map Token.type =
                        p.currentToken.type :: p1.currentToken.type ::
                          ((p2.currentToken :: ts3).map Token.type ++
                            p4.currentToken.type :: (p5.currentToken :: ts5).map Token.type) := by
                      simp
                    rw [e, b2, h0', h1', h4]
                    simp
                · rw [if_neg h4] at h
                  injection h with h
                  injection h with _ hq
                  subst hq
                  refine ⟨(([p1.currentToken] ++ [p2.currentToken]) ++ ts3) ++ [p4.currentToken],
                    .STRING :: .COLON :: (p2.currentToken :: ts3).map Token.type,
                    reads_snoc d p p3 p4 _ r3 hn4, ?_, GMembers.one _ a2⟩
                  simp [h0', h1']

theorem track_parseObject (d : TokenDefaults) (f : Nat) (p : Parser) (o : Object) (q : Parser)
    (h : parseObject d f p = .ok (o, q)) :
    ∃ ts, Reads d p q ts ∧ GObject (ts.map Token.type) ∧ q.currentToken.type = .RBRACE := by
  unfold parseObject at h
  cases hn1 : p.nextToken d with
  | error e => rw [hn1] at h; cases h
  | ok p1 =>
    rw [hn1] at h
    simp only at h
    by_cases h1 : p1.currentToken.type ≠ .LBRACE
    · rw [if_pos h1] at h; cases h
    · rw [if_neg h1] at h
      have h1' := not_not.mp h1
      cases hn2 : p1.nextToken d with
      | error e => rw [hn2] at h; cases h
      | ok p2 =>
        rw [hn2] at h
        simp only at h
        by_cases h2 : p2.currentToken.type = .RBRACE
        · rw [if_pos h2] at h
          injection h with h
          injection h with _ hq
          subst hq
          refine ⟨[p1.currentToken] ++ [p2.currentToken],
            reads_trans d p p1 p2 _ _ (reads_step d p p1 hn1) (reads_step d p1 p2 hn2), ?_, h2⟩
          simp only [List.singleton_append, List.map_cons, List.map_nil, h1', h2]
          exact GObject.empty
        · rw [if_neg h2] at h
          unfold parseValueList at h
          cases hl : parseValueListLoop d f p2 Object.empty with
          | error e => rw [hl] at h; cases h
          | ok r =>
            obtain ⟨o', p3⟩ := r
            rw [hl] at h
            simp only at h
            by_cases h3 : p3.currentToken.type ≠ .RBRACE
            · rw [if_pos h3] at h; cases h
            · rw [if_neg h3] at h
              injection h with h
              injection h with _ hq
              subst hq
              obtain ⟨ts, us, a1, a2, a3⟩ := track_parseValueListLoop d f p2 _ o' p3 hl
              refine ⟨[p1.currentToken] ++ ([p2.currentToken] ++ ts),
                reads_trans d p p1 p3 _ _ (reads_step d p p1 hn1)
                  (reads_trans d p1 p2 p3 _ _ (reads_step d p1 p2 hn2) a1), ?_, not_not.mp h3⟩
              have e : ([p1.currentToken] ++ ([p2.currentToken] ++ ts)).map Token.type =
                  .LBRACE :: (us ++ [.RBRACE]) := by
                rw [List.singleton_append, List.map_cons, h1', List.singleton_append, a2,
                  not_not.mp h3]
              rw [e]
              exact GObject.members us a3

theorem gobject_last (l : List TokenType) (h : GObject l) : l.getLast? = some .RBRACE := by
  cases h with
  | empty => rfl
  | members ts _ =>
    rw [← List.cons_append, List.getLast?_append_of_ne_nil _ (by simp)]
    rfl

/-! ## Claims on accepted texts and on the current token -/

theorem parse_empty_object (d : TokenDefaults) (rest : List Char) :
    parse d ('{' :: '}' :: rest) = .ok Object.empty := by
  obtain ⟨q, h, _, _⟩ := parse_renderObject d [] rest (by intro m hm; cases hm)
  exact parse_of_parseRun d _ _ q h

theorem lexN_brace_bracket (d : TokenDefaults) :
    lexN d 4 (Lexer.new ['{', '}', ']']) =
      .ok ([⟨.LBRACE, ['{'], 1, 1⟩, ⟨.RBRACE, ['}'], 1, 1⟩, ⟨.RBRACKET, [']'], 1, 1⟩,
        noneToken d], ⟨3, ['{', '}', ']'], 1, 1⟩) := by
  have g1 : Lexer.getToken d (Lexer.new ['{', '}', ']']) =
      (.ok ⟨.LBRACE, ['{'], 1, 1⟩, ⟨1, ['{', '}', ']'], 1, 1⟩) :=
    getToken_punct d 0 ['{', '}', ']'] 1 1 [] '{' .LBRACE ['}', ']'] rfl
      (by intro x hx; cases hx) rfl
  have g2 : Lexer.getToken d ⟨1, ['{', '}', ']'], 1, 1⟩ =
      (.ok ⟨.RBRACE, ['}'], 1, 1⟩, ⟨2, ['{', '}', ']'], 1, 1⟩) :=
    getToken_punct d 1 ['{', '}', ']'] 1 1 [] '}' .RBRACE [']'] rfl
      (by intro x hx; cases hx) rfl
  have g3 : Lexer.getToken d ⟨2, ['{', '}', ']'], 1, 1⟩ =
      (.ok ⟨.RBRACKET, [']'], 1, 1⟩, ⟨3, ['{', '}', ']'], 1, 1⟩) :=
    getToken_punct d 2 ['{', '}', ']'] 1 1 [] ']' .RBRACKET [] rfl
      (by intro x hx; cases hx) rfl
  have g4 : Lexer.getToken d ⟨3, ['{', '}', ']'], 1, 1⟩ =
      (.ok (noneToken d), ⟨3, ['{', '}', ']'], 1, 1⟩) := by
    rw [getToken_spec]
    rfl
  simp only [lexN, g1, g2, g3, g4]

/-- C2 (refuted as stated): the text `{}]` parses, to the empty Object, although
its complete token sequence `{`, `}`, `]` is not derivable from
`document := object` and a character that is not white space follows the
closing brace. -/
theorem C2_counterexample :
    (∀ d, parse d ['{', '}', ']'] = .ok Object.empty) ∧
    (∀ d, lexN d 4 (Lexer.new ['{', '}', ']']) =
      .ok ([⟨.LBRACE, ['{'], 1, 1⟩, ⟨.RBRACE, ['}'], 1, 1⟩, ⟨.RBRACKET, [']'], 1, 1⟩,
        noneToken d], ⟨3, ['{', '}', ']'], 1, 1⟩)) ∧
    ¬ GObject [.LBRACE, .RBRACE, .RBRACKET] ∧ isspace ']' = false := by
  refine ⟨fun d => parse_empty_object d [']'], lexN_brace_bracket, ?_, by decide⟩
  intro h
  have := gobject_last _ h
  cases this

/-- C2 (amended): when `parse(text)` succeeds, the tokens of the text up to and
including the closing brace of the root object (the first `n` tokens the lexer
yields, for some `n`) are derivable from `document := object`; the text after
that brace is not examined and may be anything, as for `{}` followed by any
`rest`. -/
theorem C2_tokens_read_derivable (d : TokenDefaults) (text : List Char) (o : Object)
    (h : parse d text = .ok o) :
    (∃ n ts lx, lexN d n (Lexer.new text) = .ok (ts, lx) ∧ GObject (ts.map Token.type) ∧
      (ts.map Token.type).getLast? = some .RBRACE) ∧
    ∀ rest, parse d ('{' :: '}' :: rest) = .ok Object.empty := by
  refine ⟨?_, parse_empty_object d⟩
  unfold parse at h
  cases hr : parseRun d text with
  | error e => rw [hr] at h; cases h
  | ok r =>
    obtain ⟨o', q⟩ := r
    unfold parseRun Parser.parse at hr
    obtain ⟨ts, ⟨⟨n, a1⟩, _⟩, a2, _⟩ := track_parseObject d _ _ o' q hr
    exact ⟨n, ts, q.lexer, a1, a2, gobject_last _ a2⟩

/-- Witness for C2: the text `{}]`. -/
theorem C2_tokens_read_derivable_witness :
    ∃ n ts lx, lexN ⟨0, 0⟩ n (Lexer.new ['{', '}', ']']) = .ok (ts, lx) ∧
      GObject (ts.map Token.type) ∧ (ts.map Token.type).getLast? = some .RBRACE :=
  (C2_tokens_read_derivable ⟨0, 0⟩ ['{', '}', ']'] Object.empty
    (parse_empty_object ⟨0, 0⟩ [']'])).1

theorem dropWhile_append_cons (q : Char → Bool) (r u : List Char) (c : Char) (cs : List Char)
    (h : r.dropWhile q = c :: cs) : (r ++ u).dropWhile q = c :: (cs ++ u) := by
  induction r with
  | nil => cases h
  | cons a r ih =>
    by_cases ha : q a = true
    · rw [List.dropWhile_cons_of_pos ha] at h
      rw [List.cons_append, List.dropWhile_cons_of_pos ha]
      exact ih h
    · rw [List.dropWhile_cons_of_neg ha] at h
      rw [List.cons_append, List.dropWhile_cons_of_neg ha]
      injection h with h2 h3
      rw [h2, h3]

theorem takeWhile_append_cons (q : Char → Bool) (r u : List Char) (c : Char) (cs : List Char)
    (h : r.dropWhile q = c :: cs) : (r ++ u).takeWhile q = r.takeWhile q := by
  induction r with
  | nil => cases h
  | cons a r ih =>
    by_cases ha : q a = true
    · rw [List.dropWhile_cons_of_pos ha] at h
      rw [List.cons_append, List.takeWhile_cons_of_pos ha, List.takeWhile_cons_of_pos ha, ih h]
    · rw [List.cons_append, List.takeWhile_cons_of_neg ha, List.takeWhile_cons_of_neg ha]

theorem scan_extend (r u : List Char) (ty : TokenType) (v rest : List Char)
    (h : scan r = .tok ty v rest) : scan (r ++ u) = .tok ty v (rest ++ u) := by
  unfold scan at h ⊢
  cases hr : r.dropWhile isspace with
  | nil => rw [hr] at h; cases h
  | cons c cs =>
    rw [hr] at h
    rw [dropWhile_append_cons isspace r u c cs hr]
    simp only at h ⊢
    by_cases h1 : c = dquote
    · simp only [h1, if_true] at h ⊢
      cases hf : fromQuote cs with
      | nil => rw [hf] at h; cases h
      | cons a b =>
        rw [hf] at h
        have e1 : fromQuote (cs ++ u) = a :: (b ++ u) := dropWhile_append_cons _ cs u a b hf
        have e2 : untilQuote (cs ++ u) = untilQuote cs := takeWhile_append_cons _ cs u a b hf
        rw [e1, e2]
        injection h with h2 h3 h4
        rw [h2, h3, h4]
    · simp only [h1, if_false] at h ⊢
      cases hp : punct c with
      | none => rw [hp] at h; cases h
      | some t =>
        rw [hp] at h
        injection h with h2 h3 h4
        rw [h2, h3, h4]

theorem nextToken_extend (d : TokenDefaults) (u : List Char) (p q p' : Parser)
    (h : p.nextToken d = .ok q) (hn : q.currentToken.type ≠ .NONE)
    (hr : p'.lexer.rest = p.lexer.rest ++ u) :
    ∃ q', p'.nextToken d = .ok q' ∧ Extends u q q' := by
  have h1 := nextToken_scan d p
  have h2 := nextToken_scan d p'
  cases hs : scan p.lexer.rest with
  | eof =>
    rw [hs] at h1
    obtain ⟨q0, a1, a2, _⟩ := h1
    rw [h] at a1
    injection a1 with a1
    subst a1
    rw [a2] at hn
    exact absurd rfl hn
  | invalid c => rw [hs] at h1; simp only at h1; rw [h] at h1; cases h1
  | unterminated => rw [hs] at h1; simp only at h1; rw [h] at h1; cases h1
  | tok ty v rest =>
    rw [hs] at h1
    obtain ⟨q0, a1, a2, a3, _, a5⟩ := h1
    rw [h] at a1
    injection a1 with a1
    subst a1
    rw [hr, scan_extend _ u ty v rest hs] at h2
    obtain ⟨q', b1, b2, b3, _, b5⟩ := h2
    exact ⟨q', b1, by rw [b2, a2], by rw [b3, a3], by rw [b5, a5]⟩

theorem parseArrayLoop_first (d : TokenDefaults) (f : Nat) (p : Parser) (arr : Array)
    (r : Array × Parser) (h : parseArrayLoop d f p arr = .ok r) :
    p.currentToken.type ≠ .NONE := by
  cases f with
  | zero => rw [parseArrayLoop] at h; cases h
  | succ f =>
    rw [parseArrayLoop_succ] at h
    cases hv : parseValue d f p with
    | error e => rw [hv] at h; cases h
    | ok r1 =>
      cases f with
      | zero => rw [parseValue] at hv; cases hv
      | succ f =>
        rw [parseValue_succ] at hv
        by_cases h1 : p.currentToken.type = .STRING
        · rw [h1]; decide
        · by_cases h2 : p.currentToken.type = .LBRACKET
          · rw [h2]; decide
          · rw [if_neg h1, if_neg h2] at hv; cases hv

theorem parseValueListLoop_first (d : TokenDefaults) (f : Nat) (p : Parser) (obj : Object)
    (r : Object × Parser) (h : parseValueListLoop d f p obj = .ok r) :
    p.currentToken.type ≠ .NONE := by
  cases f with
  | zero => rw [parseValueListLoop] at h; cases h
  | succ f =>
    rw [parseValueListLoop_succ] at h
    by_cases h0 : p.currentToken.type ≠ .STRING
    · rw [if_pos h0] at h; cases h
    · rw [not_not.mp h0]; decide

/-- A successful production succeeds alike when more text follows, unless the
fuel of the second run is exhausted. -/
theorem extend_parse (d : TokenDefaults) (u : List Char) (f : Nat) :
    (∀ p v q p' f', parseValue d f p = .ok (v, q) → Extends u p p' →
      parseValue d f' p' = .error .outOfFuel ∨
        ∃ q', parseValue d f' p' = .ok (v, q') ∧ Extends u q q') ∧
    (∀ p a q p' f', parseArray d f p = .ok (a, q) → Extends u p p' →
      parseArray d f' p' = .error .outOfFuel ∨
        ∃ q', parseArray d f' p' = .ok (a, q') ∧ Extends u q q') ∧
    (∀ p arr a q p' f', parseArrayLoop d f p arr = .ok (a, q) →
      q.currentToken.type ≠ .NONE → Extends u p p' →
      parseArrayLoop d f' p' arr = .error .outOfFuel ∨
        ∃ q', parseArrayLoop d f' p' arr = .ok (a, q') ∧ Extends u q q') := by
  induction f with
  | zero =>
    refine ⟨?_, ?_, ?_⟩
    · intro p v q p' f' h; rw [parseValue] at h; cases h
    · intro p a q p' f' h; rw [parseArray] at h; cases h
    · intro p arr a q p' f' h; rw [parseArrayLoop] at h; cases h
  | succ f ih =>
    obtain ⟨ihV, ihA, ihL⟩ := ih
    refine ⟨?_, ?_, ?_⟩
    · intro p v q p' f' h hE
      cases f' with
      | zero => left; rw [parseValue]
      | succ f' =>
        rw [parseValue_succ] at h ⊢
        rw [hE.1, hE.2.1]
        by_cases h1 : p.currentToken.type = .STRING
        · rw [if_pos h1] at h ⊢
          injection h with h
          injection h with hv hq
          subst hq
          exact Or.inr ⟨p', by rw [hv], hE⟩
        · rw [if_neg h1] at h ⊢
          by_cases h2 : p.currentToken.type = .LBRACKET
          · rw [if_pos h2] at h ⊢
            cases ha : parseArray d f p with
            | error e => rw [ha] at h; cases h
            | ok r =>
              obtain ⟨arr, p1⟩ := r
              rw [ha] at h
              injection h with h
              injection h with hv hq
              subst hq
              rcases ihA p arr p1 p' f' ha hE with hx | ⟨q', hx, hq'⟩
              · left; rw [hx]
              · right
                refine ⟨q', ?_, hq'⟩
                rw [hx, ← hv]
          · rw [if_neg h2] at h; cases h
    · intro p a q p' f' h hE
      cases f' with
      | zero => left; rw [parseArray]
      | succ f' =>
        rw [parseArray_succ] at h ⊢
        cases hn : p.nextToken d with
        | error e => rw [hn] at h; cases h
        | ok p1 =>
          rw [hn] at h
          simp only at h
          by_cases h1 : p1.currentToken.type = .RBRACKET
          · rw [if_pos h1] at h
            injection h with h
            injection h with ha hq
            subst hq
            obtain ⟨p1', n1', e1⟩ := nextToken_extend d u p p1 p' hn (by rw [h1]; decide) hE.2.2
            right
            refine ⟨p1', ?_, e1⟩
            simp only [n1', e1.1, if_pos h1, ha]
          · rw [if_neg h1] at h
            cases hl : parseArrayLoop d f p1 Array.empty with
            | error e => rw [hl] at h; cases h
            | ok r =>
              obtain ⟨arr, p2⟩ := r
              rw [hl] at h
              simp only at h
              by_cases h2 : p2.currentToken.type ≠ .RBRACKET
              · rw [if_pos h2] at h; cases h
              · rw [if_neg h2] at h
                injection h with h
                injection h with ha hq
                subst hq
                have h2' := not_not.mp h2
                obtain ⟨p1', n1', e1⟩ := nextToken_extend d u p p1 p' hn
                  (parseArrayLoop_first d f p1 _ _ hl) hE.2.2
                simp only [n1', e1.1, if_neg h1]
                rcases ihL p1 _ arr p2 p1' f' hl (by rw [h2']; decide) e1 with hx | ⟨q', hx, hq'⟩
                · left; rw [hx]
                · right
                  refine ⟨q', ?_, hq'⟩
                  rw [hx]
                  simp only [hq'.1, h2', ne_eq, not_true_eq_false, if_false, ha]
    · intro p arr a q p' f' h hq hE
      cases f' with
      | zero => left; rw [parseArrayLoop]
      | succ f' =>
        rw [parseArrayLoop_succ] at h ⊢
        cases hv : parseValue d f p with
        | error e => rw [hv] at h; cases h
        | ok r =>
          obtain ⟨v, p1⟩ := r
          rw [hv] at h
          simp only at h
          rcases ihV p v p1 p' f' hv hE with hx | ⟨p1', hx, e1⟩
          · left; rw [hx]
          · rw [hx]
            simp only
            cases hn : p1.nextToken d with
            | error e => rw [hn] at h; cases h
            | ok p2 =>
              rw [hn] at h
              simp only at h
              by_cases h1 : p2.currentToken.type = .COMMA
              · rw [if_pos h1] at h
                obtain ⟨p2', n2', e2⟩ := nextToken_extend d u p1 p2 p1' hn (by rw [h1]; decide)
                  e1.2.2
                simp only [n2', e2.1, if_pos h1]
                cases hn3 : p2.nextToken d with
                | error e => rw [hn3] at h; cases h
                | ok p3 =>
                  rw [hn3] at h
                  simp only at h
                  obtain ⟨p3', n3', e3⟩ := nextToken_extend d u p2 p3 p2' hn3
                    (parseArrayLoop_first d f p3 _ _ h) e2.2.2
                  simp only [n3']
                  exact ihL p3 _ a q p3' f' h hq e3
              · rw [if_neg h1] at h
                injection h with h
                injection h with ha hq2
                subst hq2
                obtain ⟨p2', n2', e2⟩ := nextToken_extend d u p1 p2 p1' hn hq e1.2.2
                right
                refine ⟨p2', ?_, e2⟩
                simp only [n2', e2.1, if_neg h1, ha]

theorem extend_parseValueListLoop (d : TokenDefaults) (u : List Char) (f : Nat) :
    ∀ p obj o q p' f', parseValueListLoop d f p obj = .ok (o, q) →
      q.currentToken.type ≠ .NONE → Extends u p p' →
      parseValueListLoop d f' p' obj = .error .outOfFuel ∨
        ∃ q', parseValueListLoop d f' p' obj = .ok (o, q') ∧ Extends u q q' := by
  induction f with
  | zero => intro p obj o q p' f' h; rw [parseValueListLoop] at h; cases h
  | succ f ih =>
    intro p obj o q p' f' h hq hE
    cases f' with
    | zero => left; rw [parseValueListLoop]
    | succ f' =>
      rw [parseValueListLoop_succ] at h ⊢
      rw [hE.1, hE.2.1]
      by_cases h0 : p.currentToken.type ≠ .STRING
      · rw [if_pos h0] at h; cases h
      · rw [if_neg h0] at h ⊢
        cases hn1 : p.nextToken d with
        | error e => rw [hn1] at h; cases h
        | ok p1 =>
          rw [hn1] at h
          simp only at h
          by_cases h1 : p1.currentToken.type ≠ .COLON
          · rw [if_pos h1] at h; cases h
          · rw [if_neg h1] at h
            obtain ⟨p1', n1', e1⟩ := nextToken_extend d u p p1 p' hn1
              (by rw [not_not.mp h1]; decide) hE.2.2
            simp only [n1', e1.1, if_neg h1]
            cases hn2 : p1.nextToken d with
            | error e => rw [hn2] at h; cases h
            | ok p2 =>
              rw [hn2] at h
              simp only at h
              cases hv : parseValue d f p2 with
              | error e => rw [hv] at h; cases h
              | ok r =>
                obtain ⟨v, p3⟩ := r
                rw [hv] at h
                simp only at h
                have hp2 : p2.currentToken.type ≠ .NONE := by
                  cases f with
                  | zero => rw [parseValue] at hv; cases hv
                  | succ f =>
                    rw [parseValue_succ] at hv
                    by_cases a1 : p2.currentToken.type = .STRING
                    · rw [a1]; decide
                    · by_cases a2 : p2.currentToken.type = .LBRACKET
                      · rw [a2]; decide
                      · rw [if_neg a1, if_neg a2] at hv; cases hv
                obtain ⟨p2', n2', e2⟩ := nextToken_extend d u p1 p2 p1' hn2 hp2 e1.2.2
                simp only [n2']
                rcases (extend_parse d u f).1 p2 v p3 p2' f' hv e2 with hx | ⟨p3', hx, e3⟩
                · left; rw [hx]
                · rw [hx]
                  simp only
                  cases hn4 : p3.nextToken d with
                  | error e => rw [hn4] at h; cases h
                  | ok p4 =>
                    rw [hn4] at h
                    simp only at h
                    by_cases h4 : p4.currentToken.type = .COMMA
                    · rw [if_pos h4] at h
                      obtain ⟨p4', n4', e4⟩ := nextToken_extend d u p3 p4 p3' hn4
                        (by rw [h4]; decide) e3.2.2
                      simp only [n4', e4.1, if_pos h4]
                      cases hn5 : p4.nextToken d with
                      | error e => rw [hn5] at h; cases h
                      | ok p5 =>
                        rw [hn5] at h
                        simp only at h
                        obtain ⟨p5', n5', e5⟩ := nextToken_extend d u p4 p5 p4' hn5
                          (parseValueListLoop_first d f p5 _ _ h) e4.2.2
                        simp only [n5']
                        exact ih p5 _ o q p5' f' h hq e5
                    · rw [if_neg h4] at h
                      injection h with h
                      injection h with ho hq2
                      subst hq2
                      obtain ⟨p4', n4', e4⟩ := nextToken_extend d u p3 p4 p3' hn4 hq e3.2.2
                      right
                      refine ⟨p4', ?_, e4⟩
                      simp only [n4', e4.1, if_neg h4, ho]

theorem extend_parseObject (d : TokenDefaults) (u : List Char) (f f' : Nat) (p p' : Parser)
    (o : Object) (q : Parser) (h : parseObject d f p = .ok (o, q))
    (hr : p'.lexer.rest = p.lexer.rest ++ u) :
    parseObject d f' p' = .error .outOfFuel ∨
      ∃ q', parseObject d f' p' = .ok (o, q') ∧ Extends u q q' := by
  unfold parseObject at h ⊢
  cases hn1 : p.nextToken d with
  | error e => rw [hn1] at h; cases h
  | ok p1 =>
    rw [hn1] at h
    simp only at h
    by_cases h1 : p1.currentToken.type ≠ .LBRACE
    · rw [if_pos h1] at h; cases h
    · rw [if_neg h1] at h
      obtain ⟨p1', n1', e1⟩ := nextToken_extend d u p p1 p' hn1
        (by rw [not_not.mp h1]; decide) hr
      simp only [n1', e1.1, if_neg h1]
      cases hn2 : p1.nextToken d with
      | error e => rw [hn2] at h; cases h
      | ok p2 =>
        rw [hn2] at h
        simp only at h
        by_cases h2 : p2.currentToken.type = .RBRACE
        · rw [if_pos h2] at h
          injection h with h
          injection h with ho hq
          subst hq
          obtain ⟨p2', n2', e2⟩ := nextToken_extend d u p1 p2 p1' hn2 (by rw [h2]; decide) e1.2.2
          right
          refine ⟨p2', ?_, e2⟩
          simp only [n2', e2.1, if_pos h2, ho]
        · rw [if_neg h2] at h
          unfold parseValueList at h ⊢
          cases hl : parseValueListLoop d f p2 Object.empty with
          | error e => rw [hl] at h; cases h
          | ok r =>
            obtain ⟨o', p3⟩ := r
            rw [hl] at h
            simp only at h
            by_cases h3 : p3.currentToken.type ≠ .RBRACE
            · rw [if_pos h3] at h; cases h
            · rw [if_neg h3] at h
              injection h with h
              injection h with ho hq
              subst hq
              have h3' := not_not.mp h3
              obtain ⟨p2', n2', e2⟩ := nextToken_extend d u p1 p2 p1' hn2
                (parseValueListLoop_first d f p2 _ _ hl) e1.2.2
              simp only [n2', e2.1, if_neg h2]
              rcases extend_parseValueListLoop d u f p2 _ o' p3 p2' f' hl (by rw [h3']; decide) e2
                with hx | ⟨q', hx, hq'⟩
              · left; rw [hx]
              · right
                refine ⟨q', ?_, hq'⟩
                rw [hx]
                simp only [hq'.1, h3', ne_eq, not_true_eq_false, if_false, ho]

/-- A successful parse is not changed by text added after it, and none of the
added text is read. -/
theorem parseRun_extend (d : TokenDefaults) (s u : List Char) (o : Object) (q : Parser)
    (h : parseRun d s = .ok (o, q)) :
    ∃ q', parseRun d (s ++ u) = .ok (o, q') ∧ Extends u q q' := by
  have ht := parseRun_total d (s ++ u)
  unfold parseRun Parser.parse at h ht ⊢
  rcases extend_parseObject d u (parseFuel s) (parseFuel (s ++ u)) (Parser.new d (Lexer.new s))
    (Parser.new d (Lexer.new (s ++ u))) o q h rfl with hx | hx
  · exact absurd hx ht
  · exact hx

/-- C19: when `parse(s)` succeeds with the tree `t`, `parse(s ++ u)` succeeds
with the same tree for every `u`, and the run on `s ++ u` ends on the closing
brace of the root object with all of `u` still unread. -/
theorem C19_trailing_text_ignored (d : TokenDefaults) (s u : List Char) (t : Object)
    (h : parse d s = .ok t) :
    parse d (s ++ u) = .ok t ∧
      ∃ q r, parseRun d (s ++ u) = .ok (t, q) ∧ q.currentToken.type = .RBRACE ∧
        q.lexer.rest = r ++ u := by
  unfold parse at h
  cases hr : parseRun d s with
  | error e => rw [hr] at h; cases h
  | ok r =>
    obtain ⟨o, q⟩ := r
    rw [hr] at h
    injection h with h
    subst h
    obtain ⟨q', h1, e1⟩ := parseRun_extend d s u o q hr
    have hb : q.currentToken.type = .RBRACE := by
      unfold parseRun Parser.parse at hr
      obtain ⟨_, _, _, hb⟩ := track_parseObject d _ _ o q hr
      exact hb
    exact ⟨parse_of_parseRun d _ _ q' h1, q', q.lexer.rest, h1, by rw [e1.1, hb], e1.2.2⟩

/-- Witness for C19: `{}` followed by a character that starts no token and an
unterminated string. -/
theorem C19_trailing_text_ignored_witness :
    parse ⟨0, 0⟩ (['{', '}'] ++ ['x', dquote, 'y']) = .ok Object.empty ∧
      ∃ q r, parseRun ⟨0, 0⟩ (['{', '}'] ++ ['x', dquote, 'y']) = .ok (Object.empty, q) ∧
        q.currentToken.type = .RBRACE ∧ q.lexer.rest = r ++ ['x', dquote, 'y'] :=
  C19_trailing_text_ignored ⟨0, 0⟩ ['{', '}'] ['x', dquote, 'y'] Object.empty
    (parse_empty_object ⟨0, 0⟩ [])

/-! ## Bounds of the lexer -/

theorem takeWhile_length_le_drop (q : Char → Bool) (i : Nat) (text : List Char)
    (h : i ≤ text.length) : i + ((text.drop i).takeWhile q).length ≤ text.length := by
  have h1 : ((text.drop i).takeWhile q).length ≤ (text.drop i).length :=
    (List.takeWhile_sublist q).length_le
  rw [List.length_drop] at h1
  omega

theorem getToken_bound (d : TokenDefaults) (lx : Lexer) (h : lx._cursor ≤ lx._text.length) :
    (lx.getToken d).2._cursor ≤ lx._text.length ∧ (lx.getToken d).2._text = lx._text := by
  obtain ⟨i, text, l, p⟩ := lx
  simp only at h
  rw [getToken_spec]
  have hj := takeWhile_length_le_drop isspace i text h
  have hdrop := drop_add_takeWhile isspace i text
  generalize i + ((text.drop i).takeWhile isspace).length = j at hdrop hj ⊢
  cases hr : (text.drop i).dropWhile isspace with
  | nil => exact ⟨hj, rfl⟩
  | cons c cs =>
    rw [hr] at hdrop
    obtain ⟨hjl, _, hcs⟩ := drop_cons_inv j text c cs hdrop
    have hlen : cs.length = text.length - (j + 1) := by rw [← hcs, List.length_drop]
    have hq := fromQuote_length cs
    simp only
    by_cases h1 : c = dquote
    · simp only [h1, if_true]
      cases hf : fromQuote cs with
      | nil =>
        rw [hf] at hq
        simp only [List.length_nil] at hq
        exact ⟨by show j + 1 + (untilQuote cs).length ≤ text.length; omega, rfl⟩
      | cons a b =>
        rw [hf] at hq
        simp only [List.length_cons] at hq
        exact ⟨by show j + 1 + (untilQuote cs).length + 1 ≤ text.length; omega, rfl⟩
    · simp only [h1, if_false]
      cases hp : punct c with
      | none => exact ⟨by show j + 1 ≤ text.length; omega, rfl⟩
      | some t => exact ⟨by show j + 1 ≤ text.length; omega, rfl⟩

theorem afterCalls_bound (d : TokenDefaults) (n : Nat) :
    ∀ lx : Lexer, lx._cursor ≤ lx._text.length →
      (afterCalls d n lx)._cursor ≤ lx._text.length ∧ (afterCalls d n lx)._text = lx._text := by
  induction n with
  | zero => intro lx h; exact ⟨h, rfl⟩
  | succ n ih =>
    intro lx h
    obtain ⟨h1, h2⟩ := getToken_bound d lx h
    have := ih (lx.getToken d).2 (by rw [h2]; exact h1)
    rw [h2] at this
    exact this

theorem skipSpaceReads_succ (n : Nat) (lx : Lexer) :
    skipSpaceReads (n + 1) lx =
      (.spaceTest, lx._cursor) ::
        (if isspace (lx.at lx._cursor) && !lx.isDoneReading then
          (.newlineTest, lx._cursor) :: skipSpaceReads n { lx with _cursor := lx._cursor + 1 }
        else []) := rfl

/-- The reads of the white-space loop end with the test at the index where the
loop stops; all reads before it are tests at smaller indices. -/
theorem skipSpaceReads_spec (n : Nat) : ∀ (i : Nat) (text : List Char) (l p : Int),
    text.length - i ≤ n →
    ∃ pre, skipSpaceReads n ⟨i, text, l, p⟩ =
        pre ++ [(.spaceTest, i + ((text.drop i).takeWhile isspace).length)] ∧
      ∀ e ∈ pre, e.2 < i + ((text.drop i).takeWhile isspace).length ∧ e.1 ≠ .consume := by
  induction n with
  | zero =>
    intro i text l p h
    have h' : text.length ≤ i := by omega
    refine ⟨[], ?_, by intro e he; cases he⟩
    simp [skipSpaceReads, List.drop_eq_nil_of_le h']
  | succ n ih =>
    intro i text l p h
    rw [skipSpaceReads_succ]
    by_cases hi : i < text.length
    · have hd : text.drop i = text[i] :: text.drop (i + 1) := List.drop_eq_getElem_cons hi
      have hdone : Lexer.isDoneReading ⟨i, text, l, p⟩ = false := by
        simp [Lexer.isDoneReading, hi]
      simp only [at_lt i text l p hi, hdone, hd]
      by_cases hs : isspace text[i] = true
      · obtain ⟨pre, e1, e2⟩ := ih (i + 1) text l p (by omega)
        rw [List.takeWhile_cons_of_pos hs]
        simp only [hs, Bool.not_false, Bool.and_self, if_true, List.length_cons]
        refine ⟨(.spaceTest, i) :: (.newlineTest, i) :: pre, ?_, ?_⟩
        · rw [e1, show i + 1 + ((text.drop (i + 1)).takeWhile isspace).length =
            i + (((text.drop (i + 1)).takeWhile isspace).length + 1) by omega]
          rfl
        · intro e he
          rcases List.mem_cons.mp he with rfl | he
          · exact ⟨by simp only; omega, by simp⟩
          · rcases List.mem_cons.mp he with rfl | he
            · exact ⟨by simp only; omega, by simp⟩
            · obtain ⟨a, b⟩ := e2 e he
              exact ⟨by omega, b⟩
      · rw [List.takeWhile_cons_of_neg hs]
        refine ⟨[], ?_, by intro e he; cases he⟩
        simp [hs]
    · have h' : text.length ≤ i := by omega
      have hdone : Lexer.isDoneReading ⟨i, text, l, p⟩ = true := by
        simp [Lexer.isDoneReading, h']
      refine ⟨[], ?_, by intro e he; cases he⟩
      simp [hdone, List.drop_eq_nil_of_le h']

theorem lexStringReads_spec (n : Nat) : ∀ (lx : Lexer) (b : Bool),
    ∀ e ∈ lexStringReads n lx b, e.1 = .consume ∧ e.2 < lx._text.length := by
  induction n with
  | zero => intro lx b e he; simp [lexStringReads] at he
  | succ n ih =>
    intro lx b e he
    rw [lexStringReads] at he
    by_cases hc : (!b && !lx.isDoneReading) = true
    · rw [if_pos hc] at he
      have hlt : lx._cursor < lx._text.length := by
        simp [Lexer.isDoneReading] at hc
        exact hc.2
      rcases List.mem_cons.mp he with rfl | he
      · exact ⟨rfl, hlt⟩
      · exact ih ⟨lx._cursor + 1, lx._text, lx._line, lx._pos⟩ _ e he
    · rw [if_neg hc] at he
      cases he

/-- The reads of a `getToken` call: the white-space tests before the index `j`
where the loop stops, the test at `j`, and then only consuming reads below the
length of the text. -/
theorem getTokenReads_spec (lx : Lexer) (h : lx._cursor ≤ lx._text.length) :
    ∃ pre j tail, getTokenReads lx = pre ++ (.spaceTest, j) :: tail ∧ j ≤ lx._text.length ∧
      (∀ e ∈ pre, e.2 < j ∧ e.1 ≠ .consume) ∧
      (∀ e ∈ tail, e.1 = .consume ∧ e.2 < lx._text.length) ∧
      (j = lx._text.length → tail = []) ∧
      j = lx._cursor + (lx.rest.takeWhile isspace).length := by
  obtain ⟨i, text, l, p⟩ := lx
  simp only at h
  obtain ⟨pre, e1, e2⟩ := skipSpaceReads_spec (text.length - i) i text l p (le_refl _)
  have hj := takeWhile_length_le_drop isspace i text h
  unfold getTokenReads Lexer.rest
  simp only [skipSpace_spec _ i text l p (le_refl _), e1]
  generalize i + ((text.drop i).takeWhile isspace).length = j at e2 hj ⊢
  refine ⟨pre, j, _, by rw [List.append_assoc]; rfl, hj, e2, ?_, ?_, rfl⟩
  · intro e he
    by_cases hd : j < text.length
    · have hdone : Lexer.isDoneReading ⟨j, text, (linePos ((text.drop i).takeWhile isspace) (l, p)).1,
          (linePos ((text.drop i).takeWhile isspace) (l, p)).2⟩ = false := by
        simp [Lexer.isDoneReading, hd]
      rw [hdone] at he
      simp only [Bool.not_false, if_true] at he
      rcases List.mem_cons.mp he with rfl | he
      · exact ⟨rfl, hd⟩
      · split_ifs at he
        · exact lexStringReads_spec _ _ _ e he
        · cases he
    · have hdone : Lexer.isDoneReading ⟨j, text, (linePos ((text.drop i).takeWhile isspace) (l, p)).1,
          (linePos ((text.drop i).takeWhile isspace) (l, p)).2⟩ = true := by
        simp [Lexer.isDoneReading]
        omega
      rw [hdone] at he
      cases he
  · intro hje
    have hdone : Lexer.isDoneReading ⟨j, text, (linePos ((text.drop i).takeWhile isspace) (l, p)).1,
        (linePos ((text.drop i).takeWhile isspace) (l, p)).2⟩ = true := by
      simp [Lexer.isDoneReading]
      omega
    rw [hdone]
    rfl

/-- C20: on a lexer whose cursor is within the text, as it is after
construction, every sequence of `getToken` calls, failing ones included, keeps
the cursor `<=` the length of the text; every read of a `getToken` call other
than the white-space test is at an index strictly below the length; and a
white-space test at the index equal to the length is the last read of its call,
which then returns NONE with the cursor left at the length. -/
theorem C20_lexer_bounds (d : TokenDefaults) (lx : Lexer) (h : lx._cursor ≤ lx._text.length) :
    (∀ n, (afterCalls d n lx)._cursor ≤ lx._text.length) ∧
    (∀ e ∈ getTokenReads lx,
      e.2 ≤ lx._text.length ∧ (e.1 ≠ .spaceTest → e.2 < lx._text.length)) ∧
    ((ReadKind.spaceTest, lx._text.length) ∈ getTokenReads lx →
      (∃ pre, getTokenReads lx = pre ++ [(.spaceTest, lx._text.length)] ∧
        ∀ e ∈ pre, e.2 < lx._text.length) ∧
      (lx.getToken d).1 = .ok (noneToken d) ∧ (lx.getToken d).2._cursor = lx._text.length) ∧
    (∀ (text : List Char) (n : Nat), (afterCalls d n (Lexer.new text))._cursor ≤ text.length) := by
  obtain ⟨pre, j, tail, e1, hj, hpre, htail, hend, hjdef⟩ := getTokenReads_spec lx h
  refine ⟨fun n => (afterCalls_bound d n lx h).1, ?_, ?_, ?_⟩
  · intro e he
    rw [e1] at he
    rcases List.mem_append.mp he with he | he
    · obtain ⟨a, _⟩ := hpre e he
      exact ⟨by omega, fun _ => by omega⟩
    · rcases List.mem_cons.mp he with rfl | he
      · exact ⟨hj, fun hn => absurd rfl hn⟩
      · obtain ⟨_, b⟩ := htail e he
        exact ⟨by omega, fun _ => b⟩
  · intro hm
    have hjl : j = lx._text.length := by
      rw [e1] at hm
      rcases List.mem_append.mp hm with hm | hm
      · obtain ⟨a, _⟩ := hpre _ hm
        simp only at a
        omega
      · rcases List.mem_cons.mp hm with hm | hm
        · injection hm with _ hm
          exact hm.symm
        · obtain ⟨a, _⟩ := htail _ hm
          cases a
    refine ⟨⟨pre, ?_, ?_⟩, ?_⟩
    · rw [e1, hend hjl, hjl]
    · intro e he
      obtain ⟨a, _⟩ := hpre e he
      omega
    · obtain ⟨i, text, l, p⟩ := lx
      simp only [Lexer.rest] at hjdef hjl ⊢
      have hdrop := drop_add_takeWhile isspace i text
      rw [← hjdef, hjl, List.drop_length] at hdrop
      rw [getToken_spec, ← hdrop]
      simp only
      exact ⟨rfl, by rw [← hjdef, hjl]⟩
  · intro text n
    exact (afterCalls_bound d n (Lexer.new text) (Nat.zero_le _)).1

/-- Witness for C20: two calls on the text `{ `; the second reads at the index 2,
the length of the text, only in the white-space test. -/
theorem C20_lexer_bounds_witness :
    (afterCalls ⟨0, 0⟩ 2 (Lexer.new ['{', ' ']))._cursor ≤ (['{', ' '] : List Char).length :=
  (C20_lexer_bounds ⟨0, 0⟩ (Lexer.new ['{', ' ']) (by decide)).1 2

/-! ## The loops of the parser over complete elements and members -/

theorem failsWith_error {α β : Type} (Q : Failure → Prop) (e : Failure)
    (h : FailsWith Q (.error e : Except Failure α)) : FailsWith Q (.error e : Except Failure β) := by
  rcases h with h | ⟨e', hQ, h⟩
  · injection h with h
    subst h
    exact Or.inl rfl
  · injection h with h
    subst h
    exact Or.inr ⟨_, hQ, rfl⟩

theorem failsWith_ok {α : Type} (Q : Failure → Prop) (a : α)
    (h : FailsWith Q (.ok a : Except Failure α)) : False := by
  rcases h with h | ⟨e', _, h⟩ <;> cases h

theorem arrayAt_succ (d : TokenDefaults) (f : Nat) (p : Parser) (arr : Array) :
    arrayAt d (f + 1) p arr =
      match stepValue d f p with
      | .error e => .error e
      | .ok (v, q2) =>
        if q2.currentToken.type = .COMMA then arrayAt d f q2 (arr.addValue v)
        else .ok (arr.addValue v, q2) := by
  unfold arrayAt stepValue
  cases h1 : p.nextToken d with
  | error e => rfl
  | ok q =>
    simp only []
    rw [parseArrayLoop_succ]
    cases h2 : parseValue d f q with
    | error e => rfl
    | ok r =>
      obtain ⟨v, q1⟩ := r
      simp only []
      cases h3 : q1.nextToken d with
      | error e => rfl
      | ok q2 => rfl

theorem arrayAt_zero (d : TokenDefaults) (p q : Parser) (arr : Array)
    (h : p.nextToken d = .ok q) : arrayAt d 0 p arr = .error .outOfFuel := by
  unfold arrayAt
  rw [h]
  exact parseArrayLoop_zero d q arr

theorem keyAt_zero (d : TokenDefaults) (p q : Parser) (obj : Object)
    (h : p.nextToken d = .ok q) : keyAt d 0 p obj = .error .outOfFuel := by
  unfold keyAt
  rw [h]
  exact parseValueListLoop_zero d q obj

/-- The member loop from a key: the colon, then the statements for the value,
then the comma, if there is one, and the next iteration. -/
theorem parseValueListLoop_step (d : TokenDefaults) (f : Nat) (p : Parser) (obj : Object)
    (ht : p.currentToken.type = .STRING) :
    parseValueListLoop d (f + 1) p obj =
      match p.nextToken d with
      | .error e => .error e
      | .ok p1 =>
        if p1.currentToken.type ≠ .COLON then .error (p1.raiseError ":".toList)
        else
          match stepValue d f p1 with
          | .error e => .error e
          | .ok (v, p4) =>
            if p4.currentToken.type = .COMMA then
              keyAt d f p4 (obj.addValue p.currentToken.value v)
            else .ok (obj.addValue p.currentToken.value v, p4) := by
  rw [parseValueListLoop_succ]
  simp only [ht, ne_eq, not_true_eq_false, if_false]
  unfold stepValue keyAt
  cases h1 : p.nextToken d with
  | error e => rfl
  | ok p1 =>
    simp only []
    by_cases hc : p1.currentToken.type = .COLON
    · simp only [hc, not_true_eq_false, if_false]
      cases h2 : p1.nextToken d with
      | error e => rfl
      | ok p2 =>
        simp only []
        cases h3 : parseValue d f p2 with
        | error e => rfl
        | ok r =>
          obtain ⟨v, p3⟩ := r
          simp only []
          cases h4 : p3.nextToken d with
          | error e => rfl
          | ok p4 => rfl
    · simp only [hc, not_false_eq_true, if_true]

/-- The statements for a value on the text of a value that a comma follows. -/
theorem stepValue_render (d : TokenDefaults) (v : JValue) (f : Nat) (p : Parser)
    (rest : List Char) (h : p.lexer.rest = v.render ++ ',' :: rest) (hq : v.quoteFree = true) :
    ∃ p1, p.nextToken d = .ok p1 ∧
      (p1.currentToken.type = .STRING ∨ p1.currentToken.type = .LBRACKET) ∧
      (stepValue d f p = .error .outOfFuel ∨
        ∃ q2, stepValue d f p = .ok (some v.toValue, q2) ∧ q2.currentToken.type = .COMMA ∧
          q2.lexer.rest = rest) := by
  obtain ⟨p1, n1, t1, hv⟩ := parseValue_render d v f p (',' :: rest) h hq
  refine ⟨p1, n1, t1, ?_⟩
  unfold stepValue
  rw [n1]
  rcases hv with hv | ⟨q, hv, rq⟩
  · left
    simp only [hv]
  · obtain ⟨q2, n2, t2, _, _, r2⟩ := nextToken_punct d q [] ',' .COMMA rest rq
      (by intro x hx; cases hx) rfl
    right
    refine ⟨q2, ?_, t2, r2⟩
    simp only [hv, n2]

/-- The array loop over elements that a comma follows: it goes on with the
text after them. -/
theorem arrayAt_elements (d : TokenDefaults) (Q : Failure → Prop) (R : List Char)
    (hR : ∀ (f : Nat) (p : Parser), p.lexer.rest = R → FailsWith Q (stepValue d f p)) :
    ∀ (vs : List JValue), (∀ v ∈ vs, v.quoteFree = true) →
      ∀ (f : Nat) (p : Parser) (arr : Array), p.lexer.rest = renderElements vs ++ R →
        FailsWith Q (arrayAt d f p arr) := by
  intro vs
  induction vs with
  | nil =>
    intro _ f p arr hr
    have hr' : p.lexer.rest = R := hr
    cases f with
    | zero =>
      have h0 := hR 0 p hr'
      unfold stepValue at h0
      unfold arrayAt
      cases hn : p.nextToken d with
      | error e =>
        rw [hn] at h0
        exact failsWith_error Q e h0
      | ok q => exact Or.inl (parseArrayLoop_zero d q arr)
    | succ f =>
      rw [arrayAt_succ]
      rcases hR f p hr' with h | ⟨e, hQ, h⟩
      · rw [h]; exact Or.inl rfl
      · rw [h]; exact Or.inr ⟨e, hQ, rfl⟩
  | cons v vs ih =>
    intro hq f p arr hr
    have hv : v.quoteFree = true := hq v (List.mem_cons_self _ _)
    have hr' : p.lexer.rest = v.render ++ ',' :: (renderElements vs ++ R) := by
      rw [hr]; simp [renderElements]
    cases f with
    | zero =>
      obtain ⟨p1, n1, _, _⟩ := stepValue_render d v 0 p _ hr' hv
      exact Or.inl (arrayAt_zero d p p1 arr n1)
    | succ f =>
      obtain ⟨p1, n1, _, hs⟩ := stepValue_render d v f p _ hr' hv
      rw [arrayAt_succ]
      rcases hs with hs | ⟨q2, hs, t2, r2⟩
      · rw [hs]; exact Or.inl rfl
      · rw [hs]
        simp only [t2, if_true]
        exact ih (fun x hx => hq x (List.mem_cons_of_mem _ hx)) f q2 _ r2

theorem getLast_cons_cons (vs vs2 : List JValue) (fs : List (List JValue)) :
    (vs :: vs2 :: fs).getLast? = (vs2 :: fs).getLast? := by
  simp [List.getLast?_cons_cons]

/-- The statements for a value at the innermost of arrays that are open: what
they do at the text `hole` after these arrays, they do here. -/
theorem stepValue_openArrays (d : TokenDefaults) (Q : Failure → Prop) (hole : List Char)
    (hH : ∀ (f : Nat) (p : Parser), p.lexer.rest = hole → FailsWith Q (stepValue d f p)) :
    ∀ (fs : List (List JValue)), (∀ vs ∈ fs, ∀ v ∈ vs, v.quoteFree = true) →
      (fs.getLast? = some [] → ∀ (p q : Parser), p.lexer.rest = hole → p.nextToken d = .ok q →
        q.currentToken.type ≠ .RBRACKET) →
      ∀ (f : Nat) (p : Parser), p.lexer.rest = renderOpenArrays fs ++ hole →
        FailsWith Q (stepValue d f p) := by
  intro fs
  induction fs with
  | nil =>
    intro _ _ f p hr
    exact hH f p hr
  | cons vs fs ih =>
    intro hq hB f p hr
    have hqv : ∀ v ∈ vs, v.quoteFree = true := hq vs (List.mem_cons_self _ _)
    have hR : ∀ (f : Nat) (p : Parser), p.lexer.rest = renderOpenArrays fs ++ hole →
        FailsWith Q (stepValue d f p) := by
      apply ih (fun ws hws => hq ws (List.mem_cons_of_mem _ hws))
      intro hl
      apply hB
      cases fs with
      | nil => cases hl
      | cons vs2 fs2 => rw [getLast_cons_cons]; exact hl
    obtain ⟨q, n1, t1, _, _, r1⟩ := nextToken_punct d p [] '[' .LBRACKET
      (renderElements vs ++ (renderOpenArrays fs ++ hole))
      (by rw [hr]; simp [renderOpenArrays]) (by intro x hx; cases hx) rfl
    have hns : ¬ q.currentToken.type = .STRING := by rw [t1]; decide
    unfold stepValue
    rw [n1]
    simp only []
    cases f with
    | zero => rw [parseValue_zero]; exact Or.inl rfl
    | succ f =>
      rw [parseValue_succ, if_neg hns, if_pos t1]
      cases f with
      | zero => rw [parseArray_zero]; exact Or.inl rfl
      | succ f =>
        have ha := arrayAt_elements d Q _ hR vs hqv f q Array.empty r1
        rw [parseArray_succ]
        unfold arrayAt at ha
        cases hn : q.nextToken d with
        | error e =>
          rw [hn] at ha
          have := failsWith_error (β := Ptr × Parser) Q e ha
          exact this
        | ok q' =>
          rw [hn] at ha
          simp only [] at ha ⊢
          have hnb : ¬ q'.currentToken.type = .RBRACKET := by
            cases vs with
            | cons v vs' =>
              obtain ⟨p1, n1', t1', _⟩ := parseValue_render d v 0 q
                (',' :: (renderElements vs' ++ (renderOpenArrays fs ++ hole)))
                (by rw [r1]; simp [renderElements]) (hqv v (List.mem_cons_self _ _))
              rw [hn] at n1'
              injection n1' with n1'
              subst n1'
              rcases t1' with t | t <;> rw [t] <;> decide
            | nil =>
              cases fs with
              | nil =>
                exact hB rfl q q' (by rw [r1]; simp [renderElements, renderOpenArrays]) hn
              | cons vs2 fs2 =>
                obtain ⟨p1, n1', t1', _⟩ := nextToken_punct d q [] '[' .LBRACKET
                  (renderElements vs2 ++ (renderOpenArrays fs2 ++ hole))
                  (by rw [r1]; simp [renderElements, renderOpenArrays])
                  (by intro x hx; cases hx) rfl
                rw [hn] at n1'
                injection n1' with n1'
                subst n1'
                rw [t1']; decide
          rw [if_neg hnb]
          rcases ha with ha | ⟨e, hQ, ha⟩
          · rw [ha]; exact Or.inl rfl
          · rw [ha]; exact Or.inr ⟨e, hQ, rfl⟩

/-- The member loop over members that a comma follows: it goes on with the
text after them. -/
theorem keyAt_members (d : TokenDefaults) (Q : Failure → Prop) (Y : List Char)
    (hY : ∀ (f : Nat) (p : Parser) (obj : Object), p.lexer.rest = Y →
      FailsWith Q (keyAt d f p obj)) :
    ∀ (ms : List (List Char × JValue)), (∀ m ∈ ms, memberQuoteFree m = true) →
      ∀ (f : Nat) (p : Parser) (obj : Object), p.lexer.rest = renderMembersComma ms ++ Y →
        FailsWith Q (keyAt d f p obj) := by
  intro ms
  induction ms with
  | nil =>
    intro _ f p obj hr
    exact hY f p obj hr
  | cons m ms ih =>
    intro hq f p obj hr
    obtain ⟨hk, hv⟩ := memberQuoteFree_iff m (hq m (List.mem_cons_self _ _))
    obtain ⟨p1, n1, t1, v1, _, r1⟩ := nextToken_string d p [] m.1
      (':' :: (m.2.render ++ ',' :: (renderMembersComma ms ++ Y)))
      (by rw [hr]; simp [renderMembersComma, renderMember]) (by intro x hx; cases hx) hk
    cases f with
    | zero => exact Or.inl (keyAt_zero d p p1 obj n1)
    | succ f =>
      obtain ⟨p2, n2, t2, _, _, r2⟩ := nextToken_punct d p1 [] ':' .COLON
        (m.2.render ++ ',' :: (renderMembersComma ms ++ Y)) r1 (by intro x hx; cases hx) rfl
      obtain ⟨p3, n3, _, hs⟩ := stepValue_render d m.2 f p2 _ r2 hv
      have hc : ¬ p2.currentToken.type ≠ .COLON := by rw [t2]; simp
      unfold keyAt
      rw [n1]
      simp only []
      rw [parseValueListLoop_step d f p1 obj t1, n2]
      simp only [if_neg hc]
      rcases hs with hs | ⟨q2, hs, tq, rq⟩
      · rw [hs]; exact Or.inl rfl
      · rw [hs]
        simp only [tq, if_true]
        exact ih (fun x hx => hq x (List.mem_cons_of_mem _ hx)) f q2 _ rq

/-- The member loop at a key: what the loop does after the key, it does here. -/
theorem keyAt_key (d : TokenDefaults) (Q : Failure → Prop) (k Z : List Char) (hk : dquote ∉ k)
    (hZ : ∀ (f : Nat) (p : Parser) (obj : Object), p.currentToken.type = .STRING →
      p.lexer.rest = Z → FailsWith Q (parseValueListLoop d f p obj))
    (f : Nat) (p : Parser) (obj : Object) (hr : p.lexer.rest = dquote :: (k ++ dquote :: Z)) :
    FailsWith Q (keyAt d f p obj) := by
  obtain ⟨p1, n1, t1, _, _, r1⟩ := nextToken_string d p [] k Z hr (by intro x hx; cases hx) hk
  unfold keyAt
  rw [n1]
  exact hZ f p1 obj t1 r1

/-- The member loop after a key: the colon, then what the statements for the
value do. -/
theorem parseValueListLoop_colon (d : TokenDefaults) (Q : Failure → Prop) (X : List Char)
    (hX : ∀ (f : Nat) (p : Parser), p.lexer.rest = X → FailsWith Q (stepValue d f p))
    (f : Nat) (p : Parser) (obj : Object) (ht : p.currentToken.type = .STRING)
    (hr : p.lexer.rest = ':' :: X) : FailsWith Q (parseValueListLoop d f p obj) := by
  cases f with
  | zero => exact Or.inl (parseValueListLoop_zero d p obj)
  | succ f =>
    obtain ⟨p2, n2, t2, _, _, r2⟩ := nextToken_punct d p [] ':' .COLON X hr
      (by intro x hx; cases hx) rfl
    have hc : ¬ p2.currentToken.type ≠ .COLON := by rw [t2]; simp
    rw [parseValueListLoop_step d f p obj ht, n2]
    simp only [if_neg hc]
    rcases hX f p2 r2 with hs | ⟨e, hQ, hs⟩
    · rw [hs]; exact Or.inl rfl
    · rw [hs]; exact Or.inr ⟨e, hQ, rfl⟩

/-- The production `parseObject` on a text whose opening brace no closing
brace follows directly: what the member loop does, it does. -/
theorem parseObject_keyAt (d : TokenDefaults) (Q : Failure → Prop) (X : List Char)
    (f : Nat) (p : Parser) (hr : p.lexer.rest = '{' :: X)
    (hB : ∀ (p1 q : Parser), p1.lexer.rest = X → p1.nextToken d = .ok q →
      q.currentToken.type ≠ .RBRACE)
    (hX : ∀ (p1 : Parser), p1.lexer.rest = X → FailsWith Q (keyAt d f p1 Object.empty)) :
    FailsWith Q (parseObject d f p) := by
  obtain ⟨p1, n1, t1, _, _, r1⟩ := nextToken_punct d p [] '{' .LBRACE X hr
    (by intro x hx; cases hx) rfl
  have hl : ¬ p1.currentToken.type ≠ .LBRACE := by rw [t1]; simp
  have hk := hX p1 r1
  unfold parseObject
  unfold keyAt at hk
  simp only [n1, if_neg hl]
  cases hn : p1.nextToken d with
  | error e =>
    rw [hn] at hk
    exact hk
  | ok p2 =>
    rw [hn] at hk
    simp only [] at hk ⊢
    rw [if_neg (hB p1 p2 r1 hn)]
    unfold parseValueList
    rcases hk with hk | ⟨e, hQ, hk⟩
    · rw [hk]; exact Or.inl rfl
    · rw [hk]; exact Or.inr ⟨e, hQ, rfl⟩

/-- The first token of members that a key follows is a string. -/
theorem first_key (d : TokenDefaults) (ms : List (List Char × JValue)) (k Z : List Char)
    (hq : ∀ m ∈ ms, memberQuoteFree m = true) (hk : dquote ∉ k) (p1 q : Parser)
    (hr : p1.lexer.rest = renderMembersComma ms ++ dquote :: (k ++ dquote :: Z))
    (hn : p1.nextToken d = .ok q) : q.currentToken.type ≠ .RBRACE := by
  cases ms with
  | nil =>
    obtain ⟨p2, n2, t2, _⟩ := nextToken_string d p1 [] k Z hr (by intro x hx; cases hx) hk
    rw [hn] at n2
    injection n2 with n2
    subst n2
    rw [t2]; decide
  | cons m ms =>
    obtain ⟨hk', _⟩ := memberQuoteFree_iff m (hq m (List.mem_cons_self _ _))
    obtain ⟨p2, n2, t2, _⟩ := nextToken_string d p1 [] m.1
      (':' :: (m.2.render ++ ',' :: (renderMembersComma ms ++ dquote :: (k ++ dquote :: Z))))
      (by rw [hr]; simp [renderMembersComma, renderMember]) (by intro x hx; cases hx) hk'
    rw [hn] at n2
    injection n2 with n2
    subst n2
    rw [t2]; decide

/-- The production `parseObject` at a value position: what the statements for a
value do at the text `hole`, `parseObject` does on the text of complete
members, a key, a colon and open arrays followed by `hole`. -/
theorem parseObject_valuePosition (d : TokenDefaults) (Q : Failure → Prop)
    (ms : List (List Char × JValue)) (k : List Char) (fs : List (List JValue))
    (hole : List Char) (hqm : ∀ m ∈ ms, memberQuoteFree m = true) (hk : dquote ∉ k)
    (hqf : ∀ vs ∈ fs, ∀ v ∈ vs, v.quoteFree = true)
    (hH : ∀ (f : Nat) (p : Parser), p.lexer.rest = hole → FailsWith Q (stepValue d f p))
    (hB : fs.getLast? = some [] → ∀ (p q : Parser), p.lexer.rest = hole →
      p.nextToken d = .ok q → q.currentToken.type ≠ .RBRACKET)
    (f : Nat) (p : Parser)
    (hr : p.lexer.rest = '{' :: (renderMembersComma ms ++
      dquote :: (k ++ dquote :: ':' :: (renderOpenArrays fs ++ hole)))) :
    FailsWith Q (parseObject d f p) := by
  apply parseObject_keyAt d Q _ f p hr
  · intro p1 q r1 hn
    exact first_key d ms k _ hqm hk p1 q r1 hn
  · intro p1 r1
    apply keyAt_members d Q _ _ ms hqm f p1 Object.empty r1
    intro f2 p2 obj2 r2
    apply keyAt_key d Q k _ hk _ f2 p2 obj2 r2
    intro f3 p3 obj3 t3 r3
    apply parseValueListLoop_colon d Q _ _ f3 p3 obj3 t3 r3
    exact stepValue_openArrays d Q hole hH fs hqf hB

/-- From the production to `parse`: the fuel does not run out. -/
theorem parse_failsWith (d : TokenDefaults) (Q : Failure → Prop) (text : List Char)
    (h : FailsWith Q (parseObject d (parseFuel text) (Parser.new d (Lexer.new text)))) :
    ∃ e, Q e ∧ parse d text = .error e := by
  have ht := parseRun_total d text
  unfold parse
  unfold parseRun Parser.parse at ht ⊢
  rcases h with h | ⟨e, hQ, h⟩
  · exact absurd h ht
  · exact ⟨e, hQ, by rw [h]⟩

/-! ## Failures at the places where the parser fetches a token -/

/-- An opening quote that no quote follows, where a value is due. -/
theorem stepValue_open_string (d : TokenDefaults) (v : List Char) (hv : dquote ∉ v) (f : Nat)
    (p : Parser) (hr : p.lexer.rest = dquote :: v) :
    FailsWith (fun e => e = .exn .unterminated) (stepValue d f p) := by
  have hn := nextToken_open_string d p [] v hr (by intro x hx; cases hx) hv
  unfold stepValue
  rw [hn]
  exact Or.inr ⟨_, rfl, rfl⟩

/-- An opening quote that no quote follows, after a value. -/
theorem stepValue_value_open_string (d : TokenDefaults) (w : JValue) (v : List Char)
    (hw : w.quoteFree = true) (hv : dquote ∉ v) (f : Nat) (p : Parser)
    (hr : p.lexer.rest = w.render ++ dquote :: v) :
    FailsWith (fun e => e = .exn .unterminated) (stepValue d f p) := by
  obtain ⟨p1, n1, _, hp⟩ := parseValue_render d w f p (dquote :: v) hr hw
  unfold stepValue
  rw [n1]
  rcases hp with hp | ⟨q, hp, rq⟩
  · simp only [hp]
    exact Or.inl rfl
  · have hn := nextToken_open_string d q [] v rq (by intro x hx; cases hx) hv
    simp only [hp, hn]
    exact Or.inr ⟨_, rfl, rfl⟩

/-- A structural character other than `[` where a value is due. -/
theorem stepValue_punct (d : TokenDefaults) (c : Char) (t : TokenType) (rest : List Char)
    (hc : punct c = some t) (ht : t ≠ .LBRACKET) (f : Nat) (p : Parser)
    (hr : p.lexer.rest = c :: rest) :
    FailsWith (fun e => ∃ l n, e = .exn (.unexpected "<value>".toList l n [c]))
      (stepValue d f p) := by
  obtain ⟨q, n1, t1, v1, _, _⟩ := nextToken_punct d p [] c t rest hr
    (by intro x hx; cases hx) hc
  have hs : ¬ q.currentToken.type = .STRING := by rw [t1]; exact (punct_types c t hc).1
  have hb : ¬ q.currentToken.type = .LBRACKET := by rw [t1]; exact ht
  unfold stepValue
  rw [n1]
  cases f with
  | zero => simp only [parseValue_zero]; exact Or.inl rfl
  | succ f =>
    simp only [parseValue_succ, if_neg hs, if_neg hb]
    refine Or.inr ⟨_, ⟨q.currentToken.line, q.currentToken.pos, ?_⟩, rfl⟩
    simp only [Parser.raiseError, v1]

/-- The end of the text where a value is due. -/
theorem stepValue_eof (d : TokenDefaults) (f : Nat) (p : Parser) (hr : p.lexer.rest = []) :
    FailsWith (fun e => e = .exn (.unexpected "<value>".toList d.line d.pos []))
      (stepValue d f p) := by
  obtain ⟨q, n1, t1, _, _⟩ := nextToken_eof d p [] hr (by intro x hx; cases hx)
  unfold stepValue
  rw [n1]
  cases f with
  | zero => simp only [parseValue_zero]; exact Or.inl rfl
  | succ f =>
    have hs : ¬ q.currentToken.type = .STRING := by rw [t1]; simp [noneToken]
    have hb : ¬ q.currentToken.type = .LBRACKET := by rw [t1]; simp [noneToken]
    simp only [parseValue_succ, if_neg hs, if_neg hb]
    refine Or.inr ⟨_, ?_, rfl⟩
    simp only [Parser.raiseError, t1, noneToken]

theorem all_memberQuoteFree (ms : List (List Char × JValue))
    (h : ms.all memberQuoteFree = true) : ∀ m ∈ ms, memberQuoteFree m = true := by
  intro m hm
  exact List.all_eq_true.mp h m hm

theorem all_all_quoteFree (fs : List (List JValue))
    (h : fs.all (fun vs => vs.all JValue.quoteFree) = true) :
    ∀ vs ∈ fs, ∀ v ∈ vs, v.quoteFree = true := by
  intro vs hvs v hv
  exact List.all_eq_true.mp (List.all_eq_true.mp h vs hvs) v hv

/-- An opening quote that no quote follows, at any place where the parser
fetches a token: `parseObject` fails with the unterminated-string error. -/
theorem parseObject_open_string (d : TokenDefaults) (c : FetchPoint) (v : List Char)
    (hq : c.quoteFree = true) (hv : dquote ∉ v) (f : Nat) (p : Parser)
    (hr : p.lexer.rest = c.render ++ dquote :: v) :
    FailsWith (fun e => e = .exn .unterminated) (parseObject d f p) := by
  have hE : ∀ p : Parser, p.lexer.rest = dquote :: v →
      p.nextToken d = .error (.exn .unterminated) :=
    fun p hp => nextToken_open_string d p [] v hp (by intro x hx; cases hx) hv
  cases c with
  | start =>
    have hn := hE p hr
    unfold parseObject
    rw [hn]
    exact Or.inr ⟨_, rfl, rfl⟩
  | key ms =>
    have hqm := all_memberQuoteFree ms hq
    apply parseObject_keyAt d _ (renderMembersComma ms ++ dquote :: v) f p
      (by rw [hr]; simp [FetchPoint.render])
    · intro p1 q r1 hn
      cases ms with
      | nil =>
        rw [hE p1 r1] at hn
        cases hn
      | cons m ms =>
        obtain ⟨hk', _⟩ := memberQuoteFree_iff m (hqm m (List.mem_cons_self _ _))
        obtain ⟨p2, n2, t2, _⟩ := nextToken_string d p1 [] m.1
          (':' :: (m.2.render ++ ',' :: (renderMembersComma ms ++ dquote :: v)))
          (by rw [r1]; simp [renderMembersComma, renderMember]) (by intro x hx; cases hx) hk'
        rw [hn] at n2
        injection n2 with n2
        subst n2
        rw [t2]; decide
    · intro p1 r1
      apply keyAt_members d _ _ _ ms hqm f p1 Object.empty r1
      intro f2 p2 obj2 r2
      unfold keyAt
      rw [hE p2 r2]
      exact Or.inr ⟨_, rfl, rfl⟩
  | colon ms k =>
    simp only [FetchPoint.quoteFree, Bool.and_eq_true] at hq
    have hqm := all_memberQuoteFree ms hq.1
    have hk := not_mem_of_contains k hq.2
    apply parseObject_keyAt d _
      (renderMembersComma ms ++ dquote :: (k ++ dquote :: (dquote :: v))) f p
      (by rw [hr]; simp [FetchPoint.render])
    · intro p1 q r1 hn
      exact first_key d ms k _ hqm hk p1 q r1 hn
    · intro p1 r1
      apply keyAt_members d _ _ _ ms hqm f p1 Object.empty r1
      intro f2 p2 obj2 r2
      apply keyAt_key d _ k _ hk _ f2 p2 obj2 r2
      intro f3 p3 obj3 t3 r3
      cases f3 with
      | zero => exact Or.inl (parseValueListLoop_zero d p3 obj3)
      | succ f3 =>
        rw [parseValueListLoop_step d f3 p3 obj3 t3, hE p3 r3]
        exact Or.inr ⟨_, rfl, rfl⟩
  | value ms k fs =>
    simp only [FetchPoint.quoteFree, Bool.and_eq_true] at hq
    apply parseObject_valuePosition d _ ms k fs (dquote :: v) (all_memberQuoteFree ms hq.1.1)
      (not_mem_of_contains k hq.1.2) (all_all_quoteFree fs hq.2)
      (fun f p hp => stepValue_open_string d v hv f p hp) _ f p
      (by rw [hr]; simp [FetchPoint.render])
    intro _ p1 q r1 hn
    rw [hE p1 r1] at hn
    cases hn
  | afterValue ms k fs w =>
    simp only [FetchPoint.quoteFree, Bool.and_eq_true] at hq
    apply parseObject_valuePosition d _ ms k fs (w.render ++ dquote :: v)
      (all_memberQuoteFree ms hq.1.1.1) (not_mem_of_contains k hq.1.1.2)
      (all_all_quoteFree fs hq.1.2)
      (fun f p hp => stepValue_value_open_string d w v hq.2 hv f p hp) _ f p
      (by rw [hr]; simp [FetchPoint.render])
    intro _ p1 q r1 hn
    obtain ⟨p2, n2, t2, _⟩ := parseValue_render d w 0 p1 (dquote :: v) r1 hq.2
    rw [hn] at n2
    injection n2 with n2
    subst n2
    rcases t2 with t | t <;> rw [t] <;> decide

/-- An opening quote that no quote follows, at any place where the parser
fetches a token: `parse` fails with the unterminated-string error. -/
theorem parse_open_string (d : TokenDefaults) (c : FetchPoint) (v : List Char)
    (hq : c.quoteFree = true) (hv : dquote ∉ v) :
    parse d (c.render ++ dquote :: v) = .error (.exn .unterminated) := by
  obtain ⟨e, he, h⟩ := parse_failsWith d _ _
    (parseObject_open_string d c v hq hv _ (Parser.new d (Lexer.new (c.render ++ dquote :: v))) rfl)
  rw [h, he]

theorem sameError_unterminated (e : Failure)
    (h : SameErrorUpToPosition (.exn .unterminated) e) : e = .exn .unterminated := by
  rcases h with h | ⟨x, l, c, l', c', a, h, _⟩
  · exact h.symm
  · cases h

theorem sameError_unexpected (x a : List Char) (l c : Int) (e : Failure)
    (h : SameErrorUpToPosition (.exn (.unexpected x l c a)) e) :
    ∃ l' c', e = .exn (.unexpected x l' c' a) := by
  rcases h with h | ⟨x1, l1, c1, l', c', a1, h, h2⟩
  · exact ⟨l, c, h.symm⟩
  · injection h with h
    injection h with hx _ _ ha
    subst hx ha
    exact ⟨l', c', h2⟩

/-- A token that is no value, at a value position: `parse` fails with the
unexpected-token error that expects `<value>`. -/
theorem parse_value_position (d : TokenDefaults) (ms : List (List Char × JValue))
    (k : List Char) (fs : List (List JValue)) (hq : (FetchPoint.value ms k fs).quoteFree = true) :
    (∀ (c : Char) (t : TokenType) (rest text : List Char), punct c = some t → t ≠ .LBRACKET →
      (t = .RBRACKET → fs.getLast? ≠ some []) →
      WsEq ((FetchPoint.value ms k fs).render ++ c :: rest) text →
      ∃ l n, parse d text = .error (.exn (.unexpected "<value>".toList l n [c]))) ∧
    (∀ text : List Char, WsEq (FetchPoint.value ms k fs).render text →
      ∃ l n, parse d text = .error (.exn (.unexpected "<value>".toList l n []))) := by
  simp only [FetchPoint.quoteFree, Bool.and_eq_true] at hq
  have hqm := all_memberQuoteFree ms hq.1.1
  have hk := not_mem_of_contains k hq.1.2
  have hqf := all_all_quoteFree fs hq.2
  constructor
  · intro c t rest text hc ht hb hw
    obtain ⟨e, ⟨l, n, he⟩, h⟩ := parse_failsWith d _ _
      (parseObject_valuePosition d _ ms k fs (c :: rest) hqm hk hqf
        (fun f p hp => stepValue_punct d c t rest hc ht f p hp)
        (by
          intro hl p1 q r1 hn
          obtain ⟨q2, n2, t2, _⟩ := nextToken_punct d p1 [] c t rest r1
            (by intro x hx; cases hx) hc
          rw [hn] at n2
          injection n2 with n2
          subst n2
          rw [t2]
          exact fun e => hb e hl)
        _ (Parser.new d (Lexer.new ((FetchPoint.value ms k fs).render ++ c :: rest)))
        (by
          show (FetchPoint.value ms k fs).render ++ c :: rest = _
          simp [FetchPoint.render]))
    obtain ⟨e', h', hs⟩ := (parse_wsEq d _ _ hw).2 e h
    rw [he] at hs
    obtain ⟨l', n', he'⟩ := sameError_unexpected _ _ _ _ _ hs
    exact ⟨l', n', by rw [h', he']⟩
  · intro text hw
    obtain ⟨e, he, h⟩ := parse_failsWith d _ _
      (parseObject_valuePosition d _ ms k fs [] hqm hk hqf
        (fun f p hp => stepValue_eof d f p hp)
        (by
          intro hl p1 q r1 hn
          obtain ⟨q2, n2, t2, _⟩ := nextToken_eof d p1 [] r1 (by intro x hx; cases hx)
          rw [hn] at n2
          injection n2 with n2
          subst n2
          rw [t2]
          simp [noneToken])
        _ (Parser.new d (Lexer.new (FetchPoint.value ms k fs).render))
        (by
          show (FetchPoint.value ms k fs).render = _
          simp [FetchPoint.render]))
    obtain ⟨e', h', hs⟩ := (parse_wsEq d _ _ hw).2 e h
    rw [he] at hs
    obtain ⟨l', n', he'⟩ := sameError_unexpected _ _ _ _ _ hs
    exact ⟨l', n', by rw [h', he']⟩

/-! ## No Object below the root -/

/-- The values `parseValue` returns are Strings and Arrays of such values. -/
theorem parse_noObject (d : TokenDefaults) (f : Nat) :
    (∀ p v q, parseValue d f p = .ok (v, q) → ∃ w, v = some w ∧ NoObject w) ∧
    (∀ p a q, parseArray d f p = .ok (a, q) →
      ∀ x ∈ a._values, ∃ w, x = some w ∧ NoObject w) ∧
    (∀ p arr a q, parseArrayLoop d f p arr = .ok (a, q) →
      (∀ x ∈ arr._values, ∃ w, x = some w ∧ NoObject w) →
      ∀ x ∈ a._values, ∃ w, x = some w ∧ NoObject w) := by
  induction f with
  | zero =>
    refine ⟨?_, ?_, ?_⟩
    · intro p v q h; rw [parseValue] at h; cases h
    · intro p a q h; rw [parseArray] at h; cases h
    · intro p arr a q h; rw [parseArrayLoop] at h; cases h
  | succ f ih =>
    obtain ⟨ihV, ihA, ihL⟩ := ih
    refine ⟨?_, ?_, ?_⟩
    · intro p v q h
      rw [parseValue_succ] at h
      by_cases h1 : p.currentToken.type = .STRING
      · rw [if_pos h1] at h
        injection h with h
        injection h with hv _
        exact ⟨_, hv.symm, NoObject.string _⟩
      · rw [if_neg h1] at h
        by_cases h2 : p.currentToken.type = .LBRACKET
        · rw [if_pos h2] at h
          cases ha : parseArray d f p with
          | error e => rw [ha] at h; cases h
          | ok r =>
            obtain ⟨arr, p'⟩ := r
            rw [ha] at h
            injection h with h
            injection h with hv _
            have hall := ihA p arr p' ha
            refine ⟨_, hv.symm, NoObject.array _ ?_ ?_⟩
            · intro hn
              obtain ⟨w, hw, _⟩ := hall none hn
              cases hw
            · intro w hw
              obtain ⟨w', hw', hn⟩ := hall (some w) hw
              injection hw' with hw'
              rw [hw']
              exact hn
        · rw [if_neg h2] at h
          cases h
    · intro p a q h
      rw [parseArray_succ] at h
      cases hn : p.nextToken d with
      | error e => rw [hn] at h; cases h
      | ok p1 =>
        rw [hn] at h
        simp only at h
        by_cases h1 : p1.currentToken.type = .RBRACKET
        · rw [if_pos h1] at h
          injection h with h
          injection h with ha _
          subst ha
          intro x hx
          cases hx
        · rw [if_neg h1] at h
          cases hl : parseArrayLoop d f p1 Array.empty with
          | error e => rw [hl] at h; cases h
          | ok r =>
            obtain ⟨arr, p2⟩ := r
            rw [hl] at h
            simp only at h
            by_cases h2 : p2.currentToken.type ≠ .RBRACKET
            · rw [if_pos h2] at h; cases h
            · rw [if_neg h2] at h
              injection h with h
              injection h with ha _
              subst ha
              exact ihL p1 _ arr p2 hl (by intro x hx; cases hx)
    · intro p arr a q h harr
      rw [parseArrayLoop_succ] at h
      cases hv : parseValue d f p with
      | error e => rw [hv] at h; cases h
      | ok r =>
        obtain ⟨v, p1⟩ := r
        rw [hv] at h
        simp only at h
        obtain ⟨w0, hw0, hn0⟩ := ihV p v p1 hv
        have hadd : ∀ x ∈ (arr.addValue v)._values, ∃ w, x = some w ∧ NoObject w := by
          intro x hx
          unfold Array.addValue at hx
          rcases List.mem_append.mp hx with hx | hx
          · exact harr x hx
          · rw [List.mem_singleton] at hx
            exact ⟨w0, hx.trans hw0, hn0⟩
        cases hn : p1.nextToken d with
        | error e => rw [hn] at h; cases h
        | ok p2 =>
          rw [hn] at h
          simp only at h
          by_cases h1 : p2.currentToken.type = .COMMA
          · rw [if_pos h1] at h
            cases hn3 : p2.nextToken d with
            | error e => rw [hn3] at h; cases h
            | ok p3 =>
              rw [hn3] at h
              simp only at h
              exact ihL p3 _ a q h hadd
          · rw [if_neg h1] at h
            injection h with h
            injection h with ha _
            subst ha
            exact hadd

theorem mem_mapEmplace (m : List (List Char × Ptr)) (k : List Char) (v : Ptr)
    (x : List Char × Ptr) (h : x ∈ mapEmplace m k v) : x ∈ m ∨ x = (k, v) := by
  unfold mapEmplace at h
  cases hf : mapFind m k with
  | some w => rw [hf] at h; exact Or.inl h
  | none =>
    rw [hf] at h
    rcases List.mem_append.mp h with h | h
    · exact Or.inl h
    · exact Or.inr (List.mem_singleton.mp h)

/-- The member loop stores only Strings and Arrays of such values. -/
theorem parseValueListLoop_noObject (d : TokenDefaults) (f : Nat) :
    ∀ p obj o q, parseValueListLoop d f p obj = .ok (o, q) →
      (∀ x ∈ obj._values, ∀ w, x.2 = some w → NoObject w) →
      ∀ x ∈ o._values, ∀ w, x.2 = some w → NoObject w := by
  induction f with
  | zero => intro p obj o q h; rw [parseValueListLoop] at h; cases h
  | succ f ih =>
    intro p obj o q h hobj
    rw [parseValueListLoop_succ] at h
    by_cases h0 : p.currentToken.type ≠ .STRING
    · rw [if_pos h0] at h; cases h
    · rw [if_neg h0] at h
      cases hn1 : p.nextToken d with
      | error e => rw [hn1] at h; cases h
      | ok p1 =>
        rw [hn1] at h
        simp only at h
        by_cases h1 : p1.currentToken.type ≠ .COLON
        · rw [if_pos h1] at h; cases h
        · rw [if_neg h1] at h
          cases hn2 : p1.nextToken d with
          | error e => rw [hn2] at h; cases h
          | ok p2 =>
            rw [hn2] at h
            simp only at h
            cases hv : parseValue d f p2 with
            | error e => rw [hv] at h; cases h
            | ok r =>
              obtain ⟨v, p3⟩ := r
              rw [hv] at h
              simp only at h
              obtain ⟨w0, hw0, hn0⟩ := (parse_noObject d f).1 p2 v p3 hv
              have hadd : ∀ x ∈ (obj.addValue p.currentToken.value v)._values,
                  ∀ w, x.2 = some w → NoObject w := by
                intro x hx w hw
                unfold Object.addValue at hx
                rcases mem_mapEmplace _ _ _ x hx with hx | hx
                · exact hobj x hx w hw
                · rw [hx, hw0] at hw
                  injection hw with hw
                  rw [← hw]
                  exact hn0
              cases hn3 : p3.nextToken d with
              | error e => rw [hn3] at h; cases h
              | ok p4 =>
                rw [hn3] at h
                simp only at h
                by_cases h4 : p4.currentToken.type = .COMMA
                · rw [if_pos h4] at h
                  cases hn5 : p4.nextToken d with
                  | error e => rw [hn5] at h; cases h
                  | ok p5 =>
                    rw [hn5] at h
                    simp only at h
                    exact ih p5 _ o q h hadd
                · rw [if_neg h4] at h
                  injection h with h
                  injection h with ho _
                  subst ho
                  exact hadd

theorem mapFind_mem (m : List (List Char × Ptr)) (k : List Char) (v : Ptr)
    (h : mapFind m k = some v) : (k, v) ∈ m := by
  induction m with
  | nil => cases h
  | cons a m ih =>
    obtain ⟨k', v'⟩ := a
    unfold mapFind at h
    by_cases e : k' = k
    · rw [if_pos e] at h
      injection h with h
      rw [e, h]
      exact List.mem_cons_self _ _
    · rw [if_neg e] at h
      exact List.mem_cons_of_mem _ (ih h)

/-- No value of an Object that `parse` returns is an Object or holds one. -/
theorem parse_noObject_below (d : TokenDefaults) (text : List Char) (o : Object)
    (h : parse d text = .ok o) (k : List Char) (v : Value) (hk : (o.getValue k).1 = some v) :
    NoObject v := by
  have ho : ∀ x ∈ o._values, ∀ w, x.2 = some w → NoObject w := by
    unfold parse at h
    cases hr : parseRun d text with
    | error e => rw [hr] at h; cases h
    | ok r =>
      obtain ⟨o', q⟩ := r
      rw [hr] at h
      injection h with h
      subst h
      unfold parseRun Parser.parse parseObject at hr
      cases hn1 : (Parser.new d (Lexer.new text)).nextToken d with
      | error e => rw [hn1] at hr; cases hr
      | ok p1 =>
        rw [hn1] at hr
        simp only at hr
        by_cases h1 : p1.currentToken.type ≠ .LBRACE
        · rw [if_pos h1] at hr; cases hr
        · rw [if_neg h1] at hr
          cases hn2 : p1.nextToken d with
          | error e => rw [hn2] at hr; cases hr
          | ok p2 =>
            rw [hn2] at hr
            simp only at hr
            by_cases h2 : p2.currentToken.type = .RBRACE
            · rw [if_pos h2] at hr
              injection hr with hr
              injection hr with ho _
              subst ho
              intro x hx
              cases hx
            · rw [if_neg h2] at hr
              unfold parseValueList at hr
              cases hl : parseValueListLoop d (parseFuel text) p2 Object.empty with
              | error e => rw [hl] at hr; cases hr
              | ok r =>
                obtain ⟨o2, q2⟩ := r
                rw [hl] at hr
                simp only at hr
                by_cases h3 : q2.currentToken.type ≠ .RBRACE
                · rw [if_pos h3] at hr; cases hr
                · rw [if_neg h3] at hr
                  injection hr with hr
                  injection hr with ho _
                  subst ho
                  exact parseValueListLoop_noObject d _ p2 _ o2 q2 hl
                    (by intro x hx; cases hx)
  rw [getValue_fst] at hk
  cases hf : mapFind o._values k with
  | none => rw [hf] at hk; cases hk
  | some x =>
    rw [hf] at hk
    simp only [Option.getD_some] at hk
    exact ho (k, x) (mapFind_mem _ _ _ hf) v hk

/-! ## The text a failing run has read -/

theorem scan_tok_inv (s : List Char) (ty : TokenType) (v r : List Char)
    (h : scan s = .tok ty v r) :
    ∃ ws, (∀ c ∈ ws, isspace c = true) ∧
      ((ty = .STRING ∧ dquote ∉ v ∧ s = ws ++ dquote :: (v ++ dquote :: r)) ∨
        (∃ c, punct c = some ty ∧ v = [c] ∧ s = ws ++ c :: r)) := by
  unfold scan at h
  have hs := List.takeWhile_append_dropWhile isspace s
  refine ⟨s.takeWhile isspace, fun c hc => (List.mem_takeWhile_imp hc), ?_⟩
  cases hr : s.dropWhile isspace with
  | nil => rw [hr] at h; cases h
  | cons c cs =>
    rw [hr] at h hs
    simp only at h
    by_cases h1 : c = dquote
    · simp only [h1, if_true] at h
      have hcs : untilQuote cs ++ fromQuote cs = cs :=
        List.takeWhile_append_dropWhile (fun c => decide (c ≠ dquote)) cs
      cases hf : fromQuote cs with
      | nil => rw [hf] at h; cases h
      | cons q rest =>
        rw [hf] at h hcs
        injection h with h2 h3 h4
        subst h2 h3 h4
        have hq : q = dquote := by
          have := List.head_dropWhile_not (fun c => decide (c ≠ dquote)) cs
            (by unfold fromQuote at hf; rw [hf]; exact List.cons_ne_nil _ _)
          unfold fromQuote at hf
          simp only [hf, List.head_cons] at this
          simpa using this
        have hn : dquote ∉ untilQuote cs := by
          intro hm
          have := List.mem_takeWhile_imp hm
          simp at this
        left
        refine ⟨rfl, hn, ?_⟩
        subst hq h1
        rw [hcs]
        exact hs.symm
    · simp only [h1, if_false] at h
      cases hp : punct c with
      | none => rw [hp] at h; cases h
      | some t =>
        rw [hp] at h
        injection h with h2 h3 h4
        subst h2 h3 h4
        right
        exact ⟨c, hp, rfl, hs.symm⟩

theorem scan_unterminated_inv (s : List Char) (h : scan s = .unterminated) :
    ∃ ws v, (∀ c ∈ ws, isspace c = true) ∧ s = ws ++ dquote :: v ∧ dquote ∉ v := by
  unfold scan at h
  have hs := List.takeWhile_append_dropWhile isspace s
  cases hr : s.dropWhile isspace with
  | nil => rw [hr] at h; cases h
  | cons c cs =>
    rw [hr] at h hs
    simp only at h
    by_cases h1 : c = dquote
    · simp only [h1, if_true] at h
      cases hf : fromQuote cs with
      | nil =>
        refine ⟨s.takeWhile isspace, cs, fun c hc => (List.mem_takeWhile_imp hc), ?_,
          (fromQuote_eq_nil_iff cs).mp hf⟩
        rw [← h1]
        exact hs.symm
      | cons q r => rw [hf] at h; cases h
    · simp only [h1, if_false] at h
      cases hp : punct c <;> rw [hp] at h <;> cases h

theorem scan_eof_inv (s : List Char) (h : scan s = .eof) : ∀ c ∈ s, isspace c = true := by
  unfold scan at h
  cases hr : s.dropWhile isspace with
  | nil => exact List.dropWhile_eq_nil_iff.mp hr
  | cons c cs =>
    rw [hr] at h
    simp only at h
    by_cases h1 : c = dquote
    · simp only [h1, if_true] at h
      cases hf : fromQuote cs <;> rw [hf] at h <;> cases h
    · simp only [h1, if_false] at h
      cases hp : punct c <;> rw [hp] at h <;> cases h

/-- A fetch that returns: the token read is spelled after the tokens read before. -/
theorem consumed_step (d : TokenDefaults) (text A : List Char) (p q : Parser)
    (hA : Consumed text A p) (hn : p.nextToken d = .ok q) :
    Consumed text (A ++ q.currentToken.text) q ∧ TokenOk q.currentToken := by
  have hs := nextToken_scan d p
  cases hsc : scan p.lexer.rest with
  | eof =>
    rw [hsc] at hs
    obtain ⟨q', h1, h2, _, h4⟩ := hs
    rw [hn] at h1
    injection h1 with h1
    subst h1
    have hsp := scan_eof_inv _ hsc
    constructor
    · intro T hT
      rw [h4] at hT
      have h5 := wsEq_spaces_right p.lexer.rest T [] hsp hT
      rw [List.append_nil] at h5
      have h6 := hA T h5
      rw [h2]
      simpa [Token.text, noneToken] using h6
    · right; right
      rw [h2]
      exact ⟨rfl, rfl⟩
  | invalid c =>
    rw [hsc] at hs; simp only at hs; rw [hn] at hs; cases hs
  | unterminated =>
    rw [hsc] at hs; simp only at hs; rw [hn] at hs; cases hs
  | tok ty v r =>
    rw [hsc] at hs
    obtain ⟨q', h1, h2, h3, _, h5⟩ := hs
    rw [hn] at h1
    injection h1 with h1
    subst h1
    obtain ⟨ws, hsp, hc⟩ := scan_tok_inv _ ty v r hsc
    rcases hc with ⟨hty, hv, hr⟩ | ⟨c, hc, hv, hr⟩
    · constructor
      · intro T hT
        rw [h5] at hT
        have h6 := hA (dquote :: (v ++ dquote :: T))
          (by rw [hr]; exact wsEq_spaces_right ws _ _ hsp (WsEq.string v T r hv hT))
        have e : (A ++ q.currentToken.text) ++ T = A ++ dquote :: (v ++ dquote :: T) := by
          simp [Token.text, h2, h3, hty]
        rw [e]
        exact h6
      · left
        rw [h2, h3]
        exact ⟨hty, hv⟩
    · have hns : ty ≠ .STRING := (punct_types c ty hc).1
      constructor
      · intro T hT
        rw [h5] at hT
        have h6 := hA (c :: T)
          (by rw [hr]; exact wsEq_spaces_right ws _ _ hsp (WsEq.punct c ty T r hc hT))
        have e : (A ++ q.currentToken.text) ++ T = A ++ c :: T := by
          simp [Token.text, h2, h3, hv, hns]
        rw [e]
        exact h6
      · right; left
        rw [h2, h3]
        exact ⟨c, hc, hv⟩

/-- A fetch that throws the unterminated-string error: after the tokens read
before, the text has an opening quote that no quote follows. -/
theorem consumed_fail (d : TokenDefaults) (text A : List Char) (p : Parser)
    (hA : Consumed text A p) (hn : p.nextToken d = .error (.exn .unterminated)) :
    ∃ v, dquote ∉ v ∧ WsEq (A ++ dquote :: v) text := by
  have hs := nextToken_scan d p
  cases hsc : scan p.lexer.rest with
  | eof =>
    rw [hsc] at hs
    obtain ⟨q', h1, _⟩ := hs
    rw [hn] at h1; cases h1
  | invalid c =>
    rw [hsc] at hs; simp only at hs; rw [hn] at hs; cases hs
  | tok ty v r =>
    rw [hsc] at hs
    obtain ⟨q', h1, _⟩ := hs
    rw [hn] at h1; cases h1
  | unterminated =>
    obtain ⟨ws, v, hsp, hr, hv⟩ := scan_unterminated_inv _ hsc
    exact ⟨v, hv, hA _ (by rw [hr]; exact wsEq_spaces_right ws _ _ hsp (WsEq.refl _))⟩

theorem punct_char (c : Char) (t : TokenType) (h : punct c = some t) :
    (t = .LBRACE → c = '{') ∧ (t = .RBRACE → c = '}') ∧ (t = .COLON → c = ':') ∧
      (t = .COMMA → c = ',') ∧ (t = .LBRACKET → c = '[') ∧ (t = .RBRACKET → c = ']') := by
  unfold punct at h
  split_ifs at h with a1 a2 a3 a4 a5 a6 <;> (injection h with h; subst h; simp [*])

/-- The text of a token of each type. -/
theorem tokenOk_text (t : Token) (h : TokenOk t) :
    (t.type = .LBRACE → t.text = ['{']) ∧ (t.type = .COLON → t.text = [':']) ∧
      (t.type = .COMMA → t.text = [',']) ∧ (t.type = .LBRACKET → t.text = ['[']) ∧
      (t.type = .RBRACKET → t.text = [']']) ∧
      (t.type = .STRING → dquote ∉ t.value ∧ t.text = dquote :: (t.value ++ [dquote])) := by
  rcases h with ⟨hs, hv⟩ | ⟨c, hc, hv⟩ | ⟨hn, hv⟩
  · refine ⟨?_, ?_, ?_, ?_, ?_, ?_⟩
    · intro ht; rw [hs] at ht; cases ht
    · intro ht; rw [hs] at ht; cases ht
    · intro ht; rw [hs] at ht; cases ht
    · intro ht; rw [hs] at ht; cases ht
    · intro ht; rw [hs] at ht; cases ht
    · intro _; exact ⟨hv, by simp [Token.text, hs]⟩
  · obtain ⟨c1, c2, c3, c4, c5, c6⟩ := punct_char c _ hc
    have hns : t.type ≠ .STRING := (punct_types c _ hc).1
    refine ⟨?_, ?_, ?_, ?_, ?_, ?_⟩
    · intro ht; rw [← c1 ht]; simp [Token.text, hns, hv]
    · intro ht; rw [← c3 ht]; simp [Token.text, hns, hv]
    · intro ht; rw [← c4 ht]; simp [Token.text, hns, hv]
    · intro ht; rw [← c5 ht]; simp [Token.text, hns, hv]
    · intro ht; rw [← c6 ht]; simp [Token.text, hns, hv]
    · intro ht; exact absurd ht hns
  · refine ⟨?_, ?_, ?_, ?_, ?_, ?_⟩ <;> (intro ht; rw [hn] at ht; cases ht)

theorem renderElements_append (vs : List JValue) (w : JValue) :
    renderElements (vs ++ [w]) = renderElements vs ++ (w.render ++ [',']) := by
  induction vs with
  | nil => simp [renderElements]
  | cons v vs ih => simp [renderElements, ih]

theorem renderMembersComma_append (ms : List (List Char × JValue)) (m : List Char × JValue) :
    renderMembersComma (ms ++ [m]) = renderMembersComma ms ++ (renderMember m ++ [',']) := by
  induction ms with
  | nil => simp [renderMembersComma]
  | cons a ms ih => simp [renderMembersComma, ih]

theorem renderTail_ofList (vs : List JValue) (w : JValue) :
    (JValues.ofList (vs ++ [w])).renderTail = ',' :: (renderElements vs ++ w.render) := by
  induction vs with
  | nil => simp [JValues.ofList, JValues.renderTail, renderElements]
  | cons v vs ih =>
    show (JValues.cons v (JValues.ofList (vs ++ [w]))).renderTail = _
    rw [JValues.renderTail, ih]
    simp [renderElements]

theorem render_ofList (vs : List JValue) (w : JValue) :
    (JValue.arr (JValues.ofList (vs ++ [w]))).render =
      '[' :: (renderElements vs ++ (w.render ++ [']'])) := by
  cases vs with
  | nil => simp [JValues.ofList, JValue.render, JValues.render, JValues.renderTail, renderElements]
  | cons v vs =>
    show (JValue.arr (JValues.cons v (JValues.ofList (vs ++ [w])))).render = _
    rw [JValue.render, JValues.render, renderTail_ofList]
    simp [renderElements]

theorem quoteFree_ofList (vs : List JValue) (h : ∀ x ∈ vs, x.quoteFree = true) :
    (JValues.ofList vs).quoteFree = true := by
  induction vs with
  | nil => rfl
  | cons v vs ih =>
    simp only [JValues.ofList, JValues.quoteFree, Bool.and_eq_true]
    exact ⟨h v (List.mem_cons_self _ _), ih (fun x hx => h x (List.mem_cons_of_mem _ hx))⟩

theorem quoteFree_str (s : List Char) (h : dquote ∉ s) : (JValue.str s).quoteFree = true := by
  simp [JValue.quoteFree, List.elem_eq_mem, h]

/-- An open string inside an element of an array is one inside the array. -/
theorem openStringIn_frame (text A : List Char) (vs0 : List JValue)
    (hq : ∀ x ∈ vs0, x.quoteFree = true)
    (h : OpenStringIn text (A ++ '[' :: renderElements vs0)) : OpenStringIn text A := by
  obtain ⟨fs, v, hfs, hv, hw⟩ := h
  refine ⟨vs0 :: fs, v, ?_, hv, ?_⟩
  · intro vs hvs x hx
    rcases List.mem_cons.mp hvs with e | hvs
    · rw [e] at hx; exact hq x hx
    · exact hfs vs hvs x hx
  · rcases hw with hw | ⟨w, hwq, hw⟩
    · left
      have e : A ++ (renderOpenArrays (vs0 :: fs) ++ dquote :: v) =
          (A ++ '[' :: renderElements vs0) ++ (renderOpenArrays fs ++ dquote :: v) := by
        simp [renderOpenArrays]
      rw [e]; exact hw
    · right
      refine ⟨w, hwq, ?_⟩
      have e : A ++ (renderOpenArrays (vs0 :: fs) ++ (w.render ++ dquote :: v)) =
          (A ++ '[' :: renderElements vs0) ++ (renderOpenArrays fs ++ (w.render ++ dquote :: v)) := by
        simp [renderOpenArrays]
      rw [e]; exact hw

theorem raiseError_ne_unterminated {α : Type} (p : Parser) (x : List Char)
    (h : (.error (p.raiseError x) : Except Failure α) = .error (.exn .unterminated)) : False := by
  unfold Parser.raiseError at h
  cases h

/-- The text a production for a value has read: after a value that is
complete its text; after the unterminated-string error the open arrays and the
open string. -/
theorem track_open (d : TokenDefaults) (text : List Char) (f : Nat) :
    (∀ (p : Parser) (A : List Char), Consumed text (A ++ p.currentToken.text) p →
      TokenOk p.currentToken →
      (∀ v q, parseValue d f p = .ok (v, q) →
        ∃ jv : JValue, jv.quoteFree = true ∧ Consumed text (A ++ jv.render) q) ∧
      (parseValue d f p = .error (.exn .unterminated) → OpenStringIn text A)) ∧
    (∀ (p : Parser) (A : List Char), Consumed text (A ++ ['[']) p →
      (∀ a q, parseArray d f p = .ok (a, q) →
        ∃ jv : JValue, jv.quoteFree = true ∧ Consumed text (A ++ jv.render) q) ∧
      (parseArray d f p = .error (.exn .unterminated) → OpenStringIn text A)) ∧
    (∀ (p : Parser) (A : List Char) (vs0 : List JValue) (arr : Array),
      (∀ x ∈ vs0, x.quoteFree = true) →
      Consumed text (A ++ '[' :: (renderElements vs0 ++ p.currentToken.text)) p →
      TokenOk p.currentToken →
      (∀ a q, parseArrayLoop d f p arr = .ok (a, q) →
        ∃ (vs1 : List JValue) (w1 : JValue), (∀ x ∈ vs1, x.quoteFree = true) ∧
          w1.quoteFree = true ∧
          Consumed text
            (A ++ '[' :: (renderElements (vs0 ++ vs1) ++ (w1.render ++ q.currentToken.text))) q ∧
          TokenOk q.currentToken) ∧
      (parseArrayLoop d f p arr = .error (.exn .unterminated) → OpenStringIn text A)) := by
  induction f with
  | zero =>
    refine ⟨?_, ?_, ?_⟩
    · intro p A _ _
      constructor
      · intro v q h; rw [parseValue] at h; cases h
      · intro h; rw [parseValue] at h; cases h
    · intro p A _
      constructor
      · intro a q h; rw [parseArray] at h; cases h
      · intro h; rw [parseArray] at h; cases h
    · intro p A vs0 arr _ _ _
      constructor
      · intro a q h; rw [parseArrayLoop] at h; cases h
      · intro h; rw [parseArrayLoop] at h; cases h
  | succ f ih =>
    obtain ⟨ihV, ihA, ihL⟩ := ih
    refine ⟨?_, ?_, ?_⟩
    · intro p A hC hT
      obtain ⟨_, _, _, tLB, _, tS⟩ := tokenOk_text _ hT
      constructor
      · intro v q h
        rw [parseValue_succ] at h
        by_cases h1 : p.currentToken.type = .STRING
        · rw [if_pos h1] at h
          injection h with h
          injection h with _ hq
          subst hq
          obtain ⟨hs, ht⟩ := tS h1
          refine ⟨.str p.currentToken.value, quoteFree_str _ hs, ?_⟩
          rw [ht] at hC
          exact hC
        · rw [if_neg h1] at h
          by_cases h2 : p.currentToken.type = .LBRACKET
          · rw [if_pos h2] at h
            rw [tLB h2] at hC
            cases ha : parseArray d f p with
            | error e => rw [ha] at h; cases h
            | ok r =>
              obtain ⟨arr, p'⟩ := r
              rw [ha] at h
              injection h with h
              injection h with _ hq
              subst hq
              exact (ihA p A hC).1 arr p' ha
          · rw [if_neg h2] at h
            cases h
      · intro h
        rw [parseValue_succ] at h
        by_cases h1 : p.currentToken.type = .STRING
        · rw [if_pos h1] at h; cases h
        · rw [if_neg h1] at h
          by_cases h2 : p.currentToken.type = .LBRACKET
          · rw [if_pos h2] at h
            rw [tLB h2] at hC
            cases ha : parseArray d f p with
            | error e =>
              rw [ha] at h
              injection h with h
              subst h
              exact (ihA p A hC).2 ha
            | ok r =>
              obtain ⟨arr, p'⟩ := r
              rw [ha] at h
              cases h
          · rw [if_neg h2] at h
            exact (raiseError_ne_unterminated p _ h).elim
    · intro p A hC
      constructor
      · intro a q h
        rw [parseArray_succ] at h
        cases hn : p.nextToken d with
        | error e => rw [hn] at h; cases h
        | ok p1 =>
          rw [hn] at h
          simp only at h
          obtain ⟨hC1, hT1⟩ := consumed_step d text _ p p1 hC hn
          obtain ⟨_, _, _, _, tRB, _⟩ := tokenOk_text _ hT1
          by_cases h1 : p1.currentToken.type = .RBRACKET
          · rw [if_pos h1] at h
            injection h with h
            injection h with _ hq
            subst hq
            refine ⟨.arr .nil, rfl, ?_⟩
            rw [tRB h1] at hC1
            have e : A ++ (JValue.arr .nil).render = (A ++ ['[']) ++ [']'] := by
              simp [JValue.render, JValues.render]
            rw [e]
            exact hC1
          · rw [if_neg h1] at h
            cases hl : parseArrayLoop d f p1 Array.empty with
            | error e => rw [hl] at h; cases h
            | ok r =>
              obtain ⟨arr, p2⟩ := r
              rw [hl] at h
              simp only at h
              by_cases h2 : p2.currentToken.type ≠ .RBRACKET
              · rw [if_pos h2] at h; cases h
              · rw [if_neg h2] at h
                injection h with h
                injection h with _ hq
                subst hq
                have hC1' : Consumed text
                    (A ++ '[' :: (renderElements [] ++ p1.currentToken.text)) p1 := by
                  have e : A ++ '[' :: (renderElements [] ++ p1.currentToken.text) =
                      (A ++ ['[']) ++ p1.currentToken.text := by simp [renderElements]
                  rw [e]; exact hC1
                obtain ⟨vs1, w1, hq1, hw1, hCq, hTq⟩ :=
                  (ihL p1 A [] Array.empty (by intro x hx; cases hx) hC1' hT1).1 arr p2 hl
                obtain ⟨_, _, _, _, tRB2, _⟩ := tokenOk_text _ hTq
                rw [tRB2 (not_not.mp h2)] at hCq
                refine ⟨.arr (JValues.ofList (vs1 ++ [w1])), ?_, ?_⟩
                · show (JValues.ofList (vs1 ++ [w1])).quoteFree = true
                  apply quoteFree_ofList
                  intro x hx
                  rcases List.mem_append.mp hx with hx | hx
                  · exact hq1 x hx
                  · rw [List.mem_singleton.mp hx]; exact hw1
                · rw [render_ofList]
                  simpa using hCq
      · intro h
        rw [parseArray_succ] at h
        cases hn : p.nextToken d with
        | error e =>
          rw [hn] at h
          injection h with h
          subst h
          obtain ⟨v, hv, hw⟩ := consumed_fail d text _ p hC hn
          refine ⟨[[]], v, ?_, hv, Or.inl ?_⟩
          · intro vs hvs x hx
            rw [List.mem_singleton.mp hvs] at hx
            cases hx
          · have e : A ++ (renderOpenArrays [[]] ++ dquote :: v) = (A ++ ['[']) ++ dquote :: v := by
              simp [renderOpenArrays, renderElements]
            rw [e]; exact hw
        | ok p1 =>
          rw [hn] at h
          simp only at h
          obtain ⟨hC1, hT1⟩ := consumed_step d text _ p p1 hC hn
          by_cases h1 : p1.currentToken.type = .RBRACKET
          · rw [if_pos h1] at h; cases h
          · rw [if_neg h1] at h
            have hC1' : Consumed text
                (A ++ '[' :: (renderElements [] ++ p1.currentToken.text)) p1 := by
              have e : A ++ '[' :: (renderElements [] ++ p1.currentToken.text) =
                  (A ++ ['[']) ++ p1.currentToken.text := by simp [renderElements]
              rw [e]; exact hC1
            cases hl : parseArrayLoop d f p1 Array.empty with
            | error e =>
              rw [hl] at h
              injection h with h
              subst h
              exact (ihL p1 A [] Array.empty (by intro x hx; cases hx) hC1' hT1).2 hl
            | ok r =>
              obtain ⟨arr, p2⟩ := r
              rw [hl] at h
              simp only at h
              by_cases h2 : p2.currentToken.type ≠ .RBRACKET
              · rw [if_pos h2] at h
                exact (raiseError_ne_unterminated p2 _ h).elim
              · rw [if_neg h2] at h; cases h
    · intro p A vs0 arr hq0 hC hT
      have hC' : Consumed text ((A ++ '[' :: renderElements vs0) ++ p.currentToken.text) p := by
        have e : (A ++ '[' :: renderElements vs0) ++ p.currentToken.text =
            A ++ '[' :: (renderElements vs0 ++ p.currentToken.text) := by simp
        rw [e]; exact hC
      constructor
      · intro a q h
        rw [parseArrayLoop_succ] at h
        cases hv : parseValue d f p with
        | error e => rw [hv] at h; cases h
        | ok r =>
          obtain ⟨v, p1⟩ := r
          rw [hv] at h
          simp only at h
          obtain ⟨jv, hjq, hC1⟩ := (ihV p _ hC' hT).1 v p1 hv
          cases hn : p1.nextToken d with
          | error e => rw [hn] at h; cases h
          | ok p2 =>
            rw [hn] at h
            simp only at h
            obtain ⟨hC2, hT2⟩ := consumed_step d text _ p1 p2 hC1 hn
            by_cases h1 : p2.currentToken.type = .COMMA
            · rw [if_pos h1] at h
              obtain ⟨_, _, tC, _, _, _⟩ := tokenOk_text _ hT2
              rw [tC h1] at hC2
              cases hn3 : p2.nextToken d with
              | error e => rw [hn3] at h; cases h
              | ok p3 =>
                rw [hn3] at h
                simp only at h
                obtain ⟨hC3, hT3⟩ := consumed_step d text _ p2 p3 hC2 hn3
                have hC3' : Consumed text
                    (A ++ '[' :: (renderElements (vs0 ++ [jv]) ++ p3.currentToken.text)) p3 := by
                  have e : A ++ '[' :: (renderElements (vs0 ++ [jv]) ++ p3.currentToken.text) =
                      (((A ++ '[' :: renderElements vs0) ++ jv.render) ++ [',']) ++
                        p3.currentToken.text := by
                    simp [renderElements_append]
                  rw [e]; exact hC3
                have hq0' : ∀ x ∈ vs0 ++ [jv], x.quoteFree = true := by
                  intro x hx
                  rcases List.mem_append.mp hx with hx | hx
                  · exact hq0 x hx
                  · rw [List.mem_singleton.mp hx]; exact hjq
                obtain ⟨vs1, w1, hq1, hw1, hCq, hTq⟩ :=
                  (ihL p3 A (vs0 ++ [jv]) _ hq0' hC3' hT3).1 a q h
                refine ⟨jv :: vs1, w1, ?_, hw1, ?_, hTq⟩
                · intro x hx
                  rcases List.mem_cons.mp hx with e | hx
                  · rw [e]; exact hjq
                  · exact hq1 x hx
                · have e : vs0 ++ jv :: vs1 = (vs0 ++ [jv]) ++ vs1 := by simp
                  rw [e]; exact hCq
            · rw [if_neg h1] at h
              injection h with h
              injection h with _ hq
              subst hq
              refine ⟨[], jv, (by intro x hx; cases hx), hjq, ?_, hT2⟩
              have e : A ++ '[' :: (renderElements (vs0 ++ []) ++
                  (jv.render ++ p2.currentToken.text)) =
                  ((A ++ '[' :: renderElements vs0) ++ jv.render) ++ p2.currentToken.text := by
                simp
              rw [e]; exact hC2
      · intro h
        rw [parseArrayLoop_succ] at h
        cases hv : parseValue d f p with
        | error e =>
          rw [hv] at h
          injection h with h
          subst h
          exact openStringIn_frame text A vs0 hq0 ((ihV p _ hC' hT).2 hv)
        | ok r =>
          obtain ⟨v, p1⟩ := r
          rw [hv] at h
          simp only at h
          obtain ⟨jv, hjq, hC1⟩ := (ihV p _ hC' hT).1 v p1 hv
          cases hn : p1.nextToken d with
          | error e =>
            rw [hn] at h
            injection h with h
            subst h
            obtain ⟨s, hs, hw⟩ := consumed_fail d text _ p1 hC1 hn
            refine ⟨[vs0], s, ?_, hs, Or.inr ⟨jv, hjq, ?_⟩⟩
            · intro vs hvs x hx
              rw [List.mem_singleton.mp hvs] at hx
              exact hq0 x hx
            · have e : A ++ (renderOpenArrays [vs0] ++ (jv.render ++ dquote :: s)) =
                  ((A ++ '[' :: renderElements vs0) ++ jv.render) ++ dquote :: s := by
                simp [renderOpenArrays]
              rw [e]; exact hw
          | ok p2 =>
            rw [hn] at h
            simp only at h
            obtain ⟨hC2, hT2⟩ := consumed_step d text _ p1 p2 hC1 hn
            by_cases h1 : p2.currentToken.type = .COMMA
            · rw [if_pos h1] at h
              obtain ⟨_, _, tC, _, _, _⟩ := tokenOk_text _ hT2
              rw [tC h1] at hC2
              have hq0' : ∀ x ∈ vs0 ++ [jv], x.quoteFree = true := by
                intro x hx
                rcases List.mem_append.mp hx with hx | hx
                · exact hq0 x hx
                · rw [List.mem_singleton.mp hx]; exact hjq
              cases hn3 : p2.nextToken d with
              | error e =>
                rw [hn3] at h
                injection h with h
                subst h
                obtain ⟨s, hs, hw⟩ := consumed_fail d text _ p2 hC2 hn3
                refine ⟨[vs0 ++ [jv]], s, ?_, hs, Or.inl ?_⟩
                · intro vs hvs x hx
                  rw [List.mem_singleton.mp hvs] at hx
                  exact hq0' x hx
                · have e : A ++ (renderOpenArrays [vs0 ++ [jv]] ++ dquote :: s) =
                      (((A ++ '[' :: renderElements vs0) ++ jv.render) ++ [',']) ++
                        dquote :: s := by
                    simp [renderOpenArrays, renderElements_append]
                  rw [e]; exact hw
              | ok p3 =>
                rw [hn3] at h
                simp only at h
                obtain ⟨hC3, hT3⟩ := consumed_step d text _ p2 p3 hC2 hn3
                have hC3' : Consumed text
                    (A ++ '[' :: (renderElements (vs0 ++ [jv]) ++ p3.currentToken.text)) p3 := by
                  have e : A ++ '[' :: (renderElements (vs0 ++ [jv]) ++ p3.currentToken.text) =
                      (((A ++ '[' :: renderElements vs0) ++ jv.render) ++ [',']) ++
                        p3.currentToken.text := by
                    simp [renderElements_append]
                  rw [e]; exact hC3
                exact (ihL p3 A (vs0 ++ [jv]) _ hq0' hC3' hT3).2 h
            · rw [if_neg h1] at h
              cases h

theorem not_contains_of_not_mem (k : List Char) (h : dquote ∉ k) :
    (!k.contains dquote) = true := by
  simp [List.elem_eq_mem, h]

theorem all_all_of_quoteFree (fs : List (List JValue))
    (h : ∀ vs ∈ fs, ∀ x ∈ vs, x.quoteFree = true) :
    fs.all (fun vs => vs.all JValue.quoteFree) = true := by
  rw [List.all_eq_true]
  intro vs hvs
  rw [List.all_eq_true]
  exact h vs hvs

theorem all_of_memberQuoteFree (ms : List (List Char × JValue))
    (h : ∀ m ∈ ms, memberQuoteFree m = true) : ms.all memberQuoteFree = true := by
  rw [List.all_eq_true]
  exact h

/-- An open string inside the value of a member is one at a place where the
parser fetches a token. -/
theorem openStringIn_member (text : List Char) (ms : List (List Char × JValue)) (k : List Char)
    (hqm : ∀ m ∈ ms, memberQuoteFree m = true) (hk : dquote ∉ k)
    (h : OpenStringIn text (('{' :: (renderMembersComma ms ++ dquote :: (k ++ [dquote]))) ++ [':'])) :
    ∃ (c : FetchPoint) (v : List Char), c.quoteFree = true ∧ dquote ∉ v ∧
      WsEq (c.render ++ dquote :: v) text := by
  obtain ⟨fs, v, hfs, hv, hw⟩ := h
  rcases hw with hw | ⟨w, hwq, hw⟩
  · refine ⟨.value ms k fs, v, ?_, hv, ?_⟩
    · simp only [FetchPoint.quoteFree, Bool.and_eq_true]
      exact ⟨⟨all_of_memberQuoteFree ms hqm, not_contains_of_not_mem k hk⟩,
        all_all_of_quoteFree fs hfs⟩
    · have e : (FetchPoint.value ms k fs).render ++ dquote :: v =
          (('{' :: (renderMembersComma ms ++ dquote :: (k ++ [dquote]))) ++ [':']) ++
            (renderOpenArrays fs ++ dquote :: v) := by
        simp [FetchPoint.render]
      rw [e]; exact hw
  · refine ⟨.afterValue ms k fs w, v, ?_, hv, ?_⟩
    · simp only [FetchPoint.quoteFree, Bool.and_eq_true]
      exact ⟨⟨⟨all_of_memberQuoteFree ms hqm, not_contains_of_not_mem k hk⟩,
        all_all_of_quoteFree fs hfs⟩, hwq⟩
    · have e : (FetchPoint.afterValue ms k fs w).render ++ dquote :: v =
          (('{' :: (renderMembersComma ms ++ dquote :: (k ++ [dquote]))) ++ [':']) ++
            (renderOpenArrays fs ++ (w.render ++ dquote :: v)) := by
        simp [FetchPoint.render]
      rw [e]; exact hw

/-- The member loop fails with the unterminated-string error only at an
opening quote that no quote follows, at a place where the parser fetches a
token. -/
theorem track_members (d : TokenDefaults) (text : List Char) (f : Nat) :
    ∀ (p : Parser) (ms0 : List (List Char × JValue)) (obj : Object),
      (∀ m ∈ ms0, memberQuoteFree m = true) →
      Consumed text ('{' :: (renderMembersComma ms0 ++ p.currentToken.text)) p →
      TokenOk p.currentToken →
      parseValueListLoop d f p obj = .error (.exn .unterminated) →
      ∃ (c : FetchPoint) (v : List Char), c.quoteFree = true ∧ dquote ∉ v ∧
        WsEq (c.render ++ dquote :: v) text := by
  induction f with
  | zero => intro p ms0 obj _ _ _ h; rw [parseValueListLoop] at h; cases h
  | succ f ih =>
    intro p ms0 obj hq0 hC hT h
    rw [parseValueListLoop_succ] at h
    by_cases h0 : p.currentToken.type ≠ .STRING
    · rw [if_pos h0] at h
      exact (raiseError_ne_unterminated p _ h).elim
    · rw [if_neg h0] at h
      obtain ⟨hk, tk⟩ := (tokenOk_text _ hT).2.2.2.2.2 (not_not.mp h0)
      rw [tk] at hC
      cases hn1 : p.nextToken d with
      | error e =>
        rw [hn1] at h
        injection h with h
        subst h
        obtain ⟨v, hv, hw⟩ := consumed_fail d text _ p hC hn1
        refine ⟨.colon ms0 p.currentToken.value, v, ?_, hv, ?_⟩
        · simp only [FetchPoint.quoteFree, Bool.and_eq_true]
          exact ⟨all_of_memberQuoteFree ms0 hq0, not_contains_of_not_mem _ hk⟩
        · have e : (FetchPoint.colon ms0 p.currentToken.value).render ++ dquote :: v =
              ('{' :: (renderMembersComma ms0 ++
                dquote :: (p.currentToken.value ++ [dquote]))) ++ dquote :: v := by
            simp [FetchPoint.render]
          rw [e]; exact hw
      | ok p1 =>
        rw [hn1] at h
        simp only at h
        obtain ⟨hC1, hT1⟩ := consumed_step d text _ p p1 hC hn1
        by_cases h1 : p1.currentToken.type ≠ .COLON
        · rw [if_pos h1] at h
          exact (raiseError_ne_unterminated p1 _ h).elim
        · rw [if_neg h1] at h
          rw [(tokenOk_text _ hT1).2.1 (not_not.mp h1)] at hC1
          cases hn2 : p1.nextToken d with
          | error e =>
            rw [hn2] at h
            injection h with h
            subst h
            obtain ⟨v, hv, hw⟩ := consumed_fail d text _ p1 hC1 hn2
            exact openStringIn_member text ms0 _ hq0 hk
              ⟨[], v, (by intro vs hvs; cases hvs), hv, Or.inl (by simpa [renderOpenArrays] using hw)⟩
          | ok p2 =>
            rw [hn2] at h
            simp only at h
            obtain ⟨hC2, hT2⟩ := consumed_step d text _ p1 p2 hC1 hn2
            cases hv : parseValue d f p2 with
            | error e =>
              rw [hv] at h
              injection h with h
              subst h
              exact openStringIn_member text ms0 _ hq0 hk
                (((track_open d text f).1 p2 _ hC2 hT2).2 hv)
            | ok r =>
              obtain ⟨v, p3⟩ := r
              rw [hv] at h
              simp only at h
              obtain ⟨jv, hjq, hC3⟩ := ((track_open d text f).1 p2 _ hC2 hT2).1 v p3 hv
              cases hn3 : p3.nextToken d with
              | error e =>
                rw [hn3] at h
                injection h with h
                subst h
                obtain ⟨s, hs, hw⟩ := consumed_fail d text _ p3 hC3 hn3
                exact openStringIn_member text ms0 _ hq0 hk
                  ⟨[], s, (by intro vs hvs; cases hvs), hs,
                    Or.inr ⟨jv, hjq, by simpa [renderOpenArrays] using hw⟩⟩
              | ok p4 =>
                rw [hn3] at h
                simp only at h
                obtain ⟨hC4, hT4⟩ := consumed_step d text _ p3 p4 hC3 hn3
                by_cases h4 : p4.currentToken.type = .COMMA
                · rw [if_pos h4] at h
                  rw [(tokenOk_text _ hT4).2.2.1 h4] at hC4
                  have hq1 : ∀ m ∈ ms0 ++ [(p.currentToken.value, jv)],
                      memberQuoteFree m = true := by
                    intro m hm
                    rcases List.mem_append.mp hm with hm | hm
                    · exact hq0 m hm
                    · rw [List.mem_singleton.mp hm]
                      simp only [memberQuoteFree, Bool.and_eq_true]
                      exact ⟨not_contains_of_not_mem _ hk, hjq⟩
                  cases hn5 : p4.nextToken d with
                  | error e =>
                    rw [hn5] at h
                    injection h with h
                    subst h
                    obtain ⟨s, hs, hw⟩ := consumed_fail d text _ p4 hC4 hn5
                    refine ⟨.key (ms0 ++ [(p.currentToken.value, jv)]), s, ?_, hs, ?_⟩
                    · exact all_of_memberQuoteFree _ hq1
                    · have e : (FetchPoint.key (ms0 ++ [(p.currentToken.value, jv)])).render ++
                          dquote :: s =
                          (((('{' :: (renderMembersComma ms0 ++
                            dquote :: (p.currentToken.value ++ [dquote]))) ++ [':']) ++
                              jv.render) ++ [',']) ++ dquote :: s := by
                        simp [FetchPoint.render, renderMembersComma_append, renderMember]
                      rw [e]; exact hw
                  | ok p5 =>
                    rw [hn5] at h
                    simp only at h
                    obtain ⟨hC5, hT5⟩ := consumed_step d text _ p4 p5 hC4 hn5
                    apply ih p5 (ms0 ++ [(p.currentToken.value, jv)]) _ hq1 _ hT5 h
                    have e : '{' :: (renderMembersComma (ms0 ++ [(p.currentToken.value, jv)]) ++
                        p5.currentToken.text) =
                        ((((('{' :: (renderMembersComma ms0 ++
                          dquote :: (p.currentToken.value ++ [dquote]))) ++ [':']) ++
                            jv.render) ++ [',']) ++ p5.currentToken.text) := by
                      simp [renderMembersComma_append, renderMember]
                    rw [e]; exact hC5
                · rw [if_neg h4] at h
                  cases h

/-- A parse fails with the unterminated-string error only at an opening quote
that no quote follows, at a place where the parser fetches a token. -/
theorem parse_unterminated_only (d : TokenDefaults) (text : List Char)
    (h : parse d text = .error (.exn .unterminated)) :
    ∃ (c : FetchPoint) (v : List Char), c.quoteFree = true ∧ dquote ∉ v ∧
      WsEq (c.render ++ dquote :: v) text := by
  have hr : parseRun d text = .error (.exn .unterminated) := by
    unfold parse at h
    cases hr : parseRun d text with
    | ok r => rw [hr] at h; cases h
    | error e => rw [hr] at h; injection h with h; rw [h]
  unfold parseRun Parser.parse parseObject at hr
  have hC0 : Consumed text [] (Parser.new d (Lexer.new text)) := by
    intro T hT
    exact hT
  cases hn1 : (Parser.new d (Lexer.new text)).nextToken d with
  | error e =>
    rw [hn1] at hr
    injection hr with hr
    subst hr
    obtain ⟨v, hv, hw⟩ := consumed_fail d text _ _ hC0 hn1
    exact ⟨.start, v, rfl, hv, hw⟩
  | ok p1 =>
    rw [hn1] at hr
    simp only at hr
    obtain ⟨hC1, hT1⟩ := consumed_step d text _ _ p1 hC0 hn1
    by_cases h1 : p1.currentToken.type ≠ .LBRACE
    · rw [if_pos h1] at hr
      exact (raiseError_ne_unterminated p1 _ hr).elim
    · rw [if_neg h1] at hr
      rw [(tokenOk_text _ hT1).1 (not_not.mp h1)] at hC1
      cases hn2 : p1.nextToken d with
      | error e =>
        rw [hn2] at hr
        injection hr with hr
        subst hr
        obtain ⟨v, hv, hw⟩ := consumed_fail d text _ _ hC1 hn2
        exact ⟨.key [], v, rfl, hv, hw⟩
      | ok p2 =>
        rw [hn2] at hr
        simp only at hr
        obtain ⟨hC2, hT2⟩ := consumed_step d text _ _ p2 hC1 hn2
        by_cases h2 : p2.currentToken.type = .RBRACE
        · rw [if_pos h2] at hr; cases hr
        · rw [if_neg h2] at hr
          unfold parseValueList at hr
          cases hl : parseValueListLoop d (parseFuel text) p2 Object.empty with
          | error e =>
            rw [hl] at hr
            injection hr with hr
            subst hr
            exact track_members d text _ p2 [] _ (by intro m hm; cases hm)
              (by simpa [renderMembersComma] using hC2) hT2 hl
          | ok r =>
            obtain ⟨o2, q2⟩ := r
            rw [hl] at hr
            simp only at hr
            by_cases h3 : q2.currentToken.type ≠ .RBRACE
            · rw [if_pos h3] at hr
              exact (raiseError_ne_unterminated q2 _ hr).elim
            · rw [if_neg h3] at hr; cases hr

/-! ## Claims on failures at the places where the parser fetches a token -/

/-- C8: string-lexing fails exactly when no quote follows the opening one, and
only with the unterminated-string error; a `getToken` call that meets an
opening quote which is never closed throws it; and `parse` fails with it
whenever such a quote stands where the parser fetches a token: before the
opening brace, where a key, a colon or a value is due, or after a value, at any
depth of arrays and with any white space between the tokens (`FetchPoint`
lists the texts read before each of the nine fetches of the parser).
Conversely a parse fails with this error only on such a text, which has a quote
that no quote follows; the text of the claim fails with it. -/
theorem C8_unterminated_string (d : TokenDefaults) :
    (∀ lx : Lexer, lx.lexString.1 = .error (.exn .unterminated) ↔ dquote ∉ lx.rest) ∧
    (∀ (lx : Lexer) (e : Failure), lx.lexString.1 = .error e → e = .exn .unterminated) ∧
    (∀ (lx : Lexer) (ws v : List Char), lx.rest = ws ++ dquote :: v →
      (∀ c ∈ ws, isspace c = true) → dquote ∉ v →
      (lx.getToken d).1 = .error (.exn .unterminated)) ∧
    (∀ (c : FetchPoint) (v text : List Char), c.quoteFree = true → dquote ∉ v →
      WsEq (c.render ++ dquote :: v) text → parse d text = .error (.exn .unterminated)) ∧
    (∀ text : List Char, parse d text = .error (.exn .unterminated) →
      ∃ (c : FetchPoint) (v : List Char), c.quoteFree = true ∧ dquote ∉ v ∧
        WsEq (c.render ++ dquote :: v) text) ∧
    (∀ text : List Char, parse d text = .error (.exn .unterminated) →
      ∃ pre v, text = pre ++ dquote :: v ∧ dquote ∉ v) ∧
    parse d "\x7b\"a\": \"b".toList = .error (.exn .unterminated) := by
  have hp : ∀ (c : FetchPoint) (v text : List Char), c.quoteFree = true → dquote ∉ v →
      WsEq (c.render ++ dquote :: v) text → parse d text = .error (.exn .unterminated) := by
    intro c v text hq hv hw
    obtain ⟨e', h', hs⟩ := (parse_wsEq d _ _ hw).2 _ (parse_open_string d c v hq hv)
    rw [h', sameError_unterminated e' hs]
  refine ⟨lexString_error_iff, lexString_error_only, ?_, hp, parse_unterminated_only d, ?_, ?_⟩
  · intro lx ws v h hws hv
    obtain ⟨i, text, l, p⟩ := lx
    exact getToken_unterminated d i text l p ws v h hws hv
  · intro text h
    apply parseRun_unterminated d text
    unfold parse at h
    cases hr : parseRun d text with
    | ok r => rw [hr] at h; cases h
    | error e => rw [hr] at h; injection h with h; rw [h]
  · exact hp (.value [] ['a'] []) ['b'] _ (by decide) (by decide)
      (WsEq.punct '{' .LBRACE _ _ rfl (WsEq.string ['a'] _ _ (by decide)
        (WsEq.punct ':' .COLON _ _ rfl (WsEq.right ' ' _ _ (by decide) (WsEq.refl _)))))

/-- Witness for C8: in `{"a":["x" "b` the open string follows an element of an array. -/
theorem C8_unterminated_string_witness :
    parse ⟨0, 0⟩ "\x7b\"a\":[\"x\" \"b".toList = .error (.exn .unterminated) :=
  (C8_unterminated_string ⟨0, 0⟩).2.2.2.1 (.afterValue [] ['a'] [[]] (.str ['x'])) ['b'] _
    (by decide) (by decide)
    (WsEq.punct '{' .LBRACE _ _ rfl (WsEq.string ['a'] _ _ (by decide)
      (WsEq.punct ':' .COLON _ _ rfl (WsEq.punct '[' .LBRACKET _ _ rfl
        (WsEq.string ['x'] _ _ (by decide) (WsEq.right ' ' _ _ (by decide) (WsEq.refl _)))))))

/-- C14: `parseValue` accepts only a STRING or LBRACKET token and raises the
unexpected-token error expecting `<value>` on any other. So `parse` fails with
that error whenever the token at a value position is a structural character
other than `[` or the end of the text, but for a `]` right after the `[` of an
array, which closes the empty array. The value positions are those of
`FetchPoint.value`: after the colon of a member (no array is open), after the
`[` of an array (the innermost open array has no element yet) and after a
comma in an array, at any depth and with any white space between the tokens.
So `{"a": {"b": "c"}}` is rejected. -/
theorem C14_parseValue_rejects (d : TokenDefaults) :
    (∀ (f : Nat) (p : Parser), p.currentToken.type ≠ .STRING →
      p.currentToken.type ≠ .LBRACKET →
      parseValue d (f + 1) p = .error (p.raiseError "<value>".toList)) ∧
    (∀ (ms : List (List Char × JValue)) (k : List Char) (fs : List (List JValue)) (c : Char)
      (t : TokenType) (rest text : List Char), (FetchPoint.value ms k fs).quoteFree = true →
      punct c = some t → t ≠ .LBRACKET → (t = .RBRACKET → fs.getLast? ≠ some []) →
      WsEq ((FetchPoint.value ms k fs).render ++ c :: rest) text →
      ∃ l n, parse d text = .error (.exn (.unexpected "<value>".toList l n [c]))) ∧
    (∀ (ms : List (List Char × JValue)) (k : List Char) (fs : List (List JValue))
      (text : List Char), (FetchPoint.value ms k fs).quoteFree = true →
      WsEq (FetchPoint.value ms k fs).render text →
      ∃ l n, parse d text = .error (.exn (.unexpected "<value>".toList l n []))) ∧
    (∃ l n, parse d "\x7b\"a\": \x7b\"b\": \"c\"\x7d\x7d".toList =
      .error (.exn (.unexpected "<value>".toList l n ['{']))) := by
  refine ⟨?_, ?_, ?_, ?_⟩
  · intro f p h1 h2
    rw [parseValue_succ, if_neg h1, if_neg h2]
  · intro ms k fs c t rest text hq hc ht hb hw
    exact (parse_value_position d ms k fs hq).1 c t rest text hc ht hb hw
  · intro ms k fs text hq hw
    exact (parse_value_position d ms k fs hq).2 text hw
  · exact (parse_value_position d [] ['a'] [] (by decide)).1 '{' .LBRACE
      "\"b\": \"c\"\x7d\x7d".toList _ rfl (by decide) (by intro h; cases h)
      (WsEq.punct '{' .LBRACE _ _ rfl (WsEq.string ['a'] _ _ (by decide)
        (WsEq.punct ':' .COLON _ _ rfl (WsEq.right ' ' _ _ (by decide) (WsEq.refl _)))))

/-- Witness for C14: in `{"a":[ ,]}` a comma follows the `[` of an array. -/
theorem C14_parseValue_rejects_witness :
    ∃ l n, parse ⟨0, 0⟩ "\x7b\"a\":[ ,]\x7d".toList =
      .error (.exn (.unexpected "<value>".toList l n [','])) :=
  (C14_parseValue_rejects ⟨0, 0⟩).2.1 [] ['a'] [[]] ',' .COMMA "]\x7d".toList _ (by decide) rfl
    (by decide) (by intro h; cases h)
    (WsEq.punct '{' .LBRACE _ _ rfl (WsEq.string ['a'] _ _ (by decide)
      (WsEq.punct ':' .COLON _ _ rfl (WsEq.punct '[' .LBRACKET _ _ rfl
        (WsEq.right ' ' _ _ (by decide) (WsEq.refl _))))))

/-- C3 (refuted as stated): the parse of `{"a": ["x", "y", {"b": "z"}]}` does
not succeed. -/
theorem C3_counterexample :
    ¬ ∃ d o, parse d "\x7b\"a\": [\"x\", \"y\", \x7b\"b\": \"z\"\x7d]\x7d".toList = .ok o := by
  rintro ⟨d, o, h⟩
  obtain ⟨l, n, h2⟩ := (parse_value_position d [] ['a'] [[.str ['x'], .str ['y']]]
    (by decide)).1 '{' .LBRACE "\"b\": \"z\"\x7d]\x7d".toList
    "\x7b\"a\": [\"x\", \"y\", \x7b\"b\": \"z\"\x7d]\x7d".toList rfl (by decide)
    (by intro h; cases h)
    (WsEq.punct '{' .LBRACE _ _ rfl (WsEq.string ['a'] _ _ (by decide)
      (WsEq.punct ':' .COLON _ _ rfl (WsEq.right ' ' _ _ (by decide)
        (WsEq.punct '[' .LBRACKET _ _ rfl (WsEq.string ['x'] _ _ (by decide)
          (WsEq.punct ',' .COMMA _ _ rfl (WsEq.right ' ' _ _ (by decide)
            (WsEq.string ['y'] _ _ (by decide) (WsEq.punct ',' .COMMA _ _ rfl
              (WsEq.right ' ' _ _ (by decide) (WsEq.refl _))))))))))))
  rw [h2] at h
  cases h

/-- C3 (amended): the parse of `{"a": ["x", "y", {"b": "z"}]}` fails with the
unexpected-token error that expects `<value>` and names the `{` of the third
element as the actual token. In general an object literal where an element of
an array is due is rejected with that error, at any depth of arrays and with
any white space between the tokens; and no value of an Object that `parse`
returns is an Object or holds one: the values are Strings and Arrays of such
values. -/
theorem C3_object_element_rejected (d : TokenDefaults) :
    (∃ l n, parse d "\x7b\"a\": [\"x\", \"y\", \x7b\"b\": \"z\"\x7d]\x7d".toList =
      .error (.exn (.unexpected "<value>".toList l n ['{']))) ∧
    (∀ (ms : List (List Char × JValue)) (k : List Char) (fs : List (List JValue))
      (rest text : List Char), fs ≠ [] → (FetchPoint.value ms k fs).quoteFree = true →
      WsEq ((FetchPoint.value ms k fs).render ++ '{' :: rest) text →
      ∃ l n, parse d text = .error (.exn (.unexpected "<value>".toList l n ['{']))) ∧
    (∀ (text : List Char) (o : Object), parse d text = .ok o →
      ∀ (k : List Char) (v : Value), (o.getValue k).1 = some v → NoObject v) := by
  have hg : ∀ (ms : List (List Char × JValue)) (k : List Char) (fs : List (List JValue))
      (rest text : List Char), fs ≠ [] → (FetchPoint.value ms k fs).quoteFree = true →
      WsEq ((FetchPoint.value ms k fs).render ++ '{' :: rest) text →
      ∃ l n, parse d text = .error (.exn (.unexpected "<value>".toList l n ['{'])) := by
    intro ms k fs rest text _ hq hw
    exact (parse_value_position d ms k fs hq).1 '{' .LBRACE rest text rfl (by decide)
      (by intro h; cases h) hw
  refine ⟨?_, hg, ?_⟩
  · exact hg [] ['a'] [[.str ['x'], .str ['y']]] "\"b\": \"z\"\x7d]\x7d".toList _
      (by intro h; cases h) (by decide)
      (WsEq.punct '{' .LBRACE _ _ rfl (WsEq.string ['a'] _ _ (by decide)
        (WsEq.punct ':' .COLON _ _ rfl (WsEq.right ' ' _ _ (by decide)
          (WsEq.punct '[' .LBRACKET _ _ rfl (WsEq.string ['x'] _ _ (by decide)
            (WsEq.punct ',' .COMMA _ _ rfl (WsEq.right ' ' _ _ (by decide)
              (WsEq.string ['y'] _ _ (by decide) (WsEq.punct ',' .COMMA _ _ rfl
                (WsEq.right ' ' _ _ (by decide) (WsEq.refl _))))))))))))
  · intro text o h k v hk
    exact parse_noObject_below d text o h k v hk

/-- Witness for C3: in `{"a":[[ {}]]}` the object literal is the first element
of an array in an array. -/
theorem C3_object_element_rejected_witness :
    ∃ l n, parse ⟨0, 0⟩ "\x7b\"a\":[[ \x7b\x7d]]\x7d".toList =
      .error (.exn (.unexpected "<value>".toList l n ['{'])) :=
  (C3_object_element_rejected ⟨0, 0⟩).2.1 [] ['a'] [[], []] "\x7d]]\x7d".toList _
    (by intro h; cases h) (by decide)
    (WsEq.punct '{' .LBRACE _ _ rfl (WsEq.string ['a'] _ _ (by decide)
      (WsEq.punct ':' .COLON _ _ rfl (WsEq.punct '[' .LBRACKET _ _ rfl
        (WsEq.punct '[' .LBRACKET _ _ rfl (WsEq.right ' ' _ _ (by decide) (WsEq.refl _)))))))

end json
